import Mathlib

/-!
# Link-state routing simulator (`Dijkstra.cpp`)

A shallow embedding of the topology store (`readTopology`, the update part of `main`)
and of the shortest-path computation (`dijkstra`), followed by the properties proved
about them.

Modelling conventions.

* `std::unordered_map` is an association list with at most one entry per key; the
  operations are `mapFind` (`find`), `mapAssign` (`m[k] = v`), `mapErase` (`erase`),
  `mapTouch` (the entry that a read access `m[k]` creates) and `mapModify`
  (`m[k]` used as a reference that is then changed).  No property below depends on
  the iteration order of a map.
* `int` is `Int`; the only arithmetic of the program, `dist[u] + edge.cost`, is
  wrapped to 32 bits by `wrapInt`.
* Lines are taken as already split into fields: a link is `(src, dest, cost)` and a
  command is `(src, dest, cost, selected routers)`.  A line with fewer than three
  fields leaves `dest` (or `src` and `dest`) empty and `cost` unset; the fields range
  over all names, the empty one included, and over all costs.
* `std::priority_queue` is a list of the names pushed and not yet popped; which of
  them `top()` yields is a parameter (`PopPolicy`), because the comparator reads
  distances that change while names are queued.  The properties of `dijkstra` are
  proved for every policy.
* A loop that the source does not bound takes a `fuel` argument and yields `none`
  when it runs out; the properties state that every large enough fuel gives a result.
-/

namespace Routing

/-! ## Data model -/

/-- The value of `numeric_limits<int>::max()`. -/
abbrev INT_MAX : Int := 2147483647

/-- Wrap-around of a 32-bit signed `int`: the result that two's complement hardware
gives for a sum (the C++ standard leaves signed overflow undefined). -/
def wrapInt (x : Int) : Int := (x + 2147483648) % 4294967296 - 2147483648

/-- The `struct Edge`. -/
structure Edge where
  dest : String
  cost : Int
deriving DecidableEq, Repr

/-- The `struct Router`. -/
structure Router where
  name : String
  neighbors : List Edge
  lsdb : List ((String × String) × Int)
  routing_table : List (String × (String × Int))
deriving DecidableEq, Repr

/-- A default-constructed `Router`, as `topology[k]` creates for an absent key. -/
def Router.fresh : Router := { name := "", neighbors := [], lsdb := [], routing_table := [] }

/-- The global `topology`. -/
abbrev Topology := List (String × Router)

/-! ## `unordered_map` operations -/

section UnorderedMap

variable {κ υ : Type} [DecidableEq κ]

/-- The value stored under `k`, if there is one. -/
def mapFind : List (κ × υ) → κ → Option υ
  | [], _ => none
  | (k', v) :: rest, k => if k' = k then some v else mapFind rest k

/-- Whether `k` is a key of the map. -/
def mapHas (m : List (κ × υ)) (k : κ) : Bool := (mapFind m k).isSome

/-- The assignment `m[k] = v`. -/
def mapAssign : List (κ × υ) → κ → υ → List (κ × υ)
  | [], k, v => [(k, v)]
  | (k', v') :: rest, k, v =>
    if k' = k then (k', v) :: rest else (k', v') :: mapAssign rest k v

/-- The call `m.erase(k)`. -/
def mapErase (m : List (κ × υ)) (k : κ) : List (κ × υ) :=
  m.filter (fun p => !decide (p.1 = k))

/-- The value read by `m[k]`, where `d` is the value-initialised default. -/
def mapGet (m : List (κ × υ)) (k : κ) (d : υ) : υ := (mapFind m k).getD d

/-- The map after a read access `m[k]`: an absent key gets the default `d`. -/
def mapTouch (m : List (κ × υ)) (k : κ) (d : υ) : List (κ × υ) :=
  if mapHas m k then m else m ++ [(k, d)]

/-- The map after `f` is applied through the reference `m[k]`. -/
def mapModify : List (κ × υ) → κ → υ → (υ → υ) → List (κ × υ)
  | [], k, d, f => [(k, f d)]
  | (k', v) :: rest, k, d, f =>
    if k' = k then (k', f v) :: rest else (k', v) :: mapModify rest k d f

end UnorderedMap

/-! ## Topology store -/

/-- The call `r.neighbors.push_back(e)`. -/
def pushNeighbor (e : Edge) (r : Router) : Router :=
  { r with neighbors := r.neighbors ++ [e] }

/-- The erase/remove_if idiom: drop every edge of `r` whose destination is `n`. -/
def removeNeighbor (n : String) (r : Router) : Router :=
  { r with neighbors := r.neighbors.filter (fun e => !decide (e.dest = n)) }

/-- The two assignments `lsdb[{a, b}] = c; lsdb[{b, a}] = c`. -/
def setLink (a b : String) (c : Int) (r : Router) : Router :=
  { r with lsdb := mapAssign (mapAssign r.lsdb (a, b) c) (b, a) c }

/-- The two calls `lsdb.erase({a, b}); lsdb.erase({b, a})`. -/
def eraseLink (a b : String) (r : Router) : Router :=
  { r with lsdb := mapErase (mapErase r.lsdb (a, b)) (b, a) }

/-- A loop `for (auto& router : topology)` that changes each router by `f`. -/
def forEachRouter (f : Router → Router) (t : Topology) : Topology :=
  t.map (fun p => (p.1, f p.2))

/-- One router declaration line of `readTopology`: `topology[line] = router`. -/
def declareRouter (t : Topology) (line : String) : Topology :=
  mapAssign t line { name := line, neighbors := [], lsdb := [], routing_table := [] }

/-- One initial link line of `readTopology` (after parsing). -/
def addLink (t : Topology) (src dest : String) (cost : Int) : Topology :=
  let t1 := mapModify t src Router.fresh (pushNeighbor ⟨dest, cost⟩)
  let t2 := mapModify t1 dest Router.fresh (pushNeighbor ⟨src, cost⟩)
  forEachRouter (setLink src dest cost) t2

/-- The function `readTopology`: the declarations, then the initial links. -/
def readTopology (names : List String) (links : List (String × String × Int)) : Topology :=
  links.foldl (fun t l => addLink t l.1 l.2.1 l.2.2) (names.foldl declareRouter [])

/-- The topology update of one command in `main` ("Update topology accordingly"). -/
def updateTopology (t : Topology) (src dest : String) (cost : Int) : Topology :=
  let t1 := mapModify t src Router.fresh (removeNeighbor dest)
  let t2 := mapModify t1 dest Router.fresh (removeNeighbor src)
  let t3 :=
    if cost ≠ -1 then
      mapModify (mapModify t2 src Router.fresh (pushNeighbor ⟨dest, cost⟩))
        dest Router.fresh (pushNeighbor ⟨src, cost⟩)
    else t2
  forEachRouter (if cost = -1 then eraseLink src dest else setLink src dest cost) t3

/-- The neighbor-list part of the update of one command, as one change per endpoint. -/
def linkChange (n : String) (c : Int) (x : Router) : Router :=
  if c = -1 then removeNeighbor n x else pushNeighbor ⟨n, c⟩ (removeNeighbor n x)

/-- The neighbor-list part of a command whose two endpoints are the same router. -/
def loopChange (n : String) (c : Int) (x : Router) : Router :=
  if c = -1 then removeNeighbor n (removeNeighbor n x)
  else pushNeighbor ⟨n, c⟩ (pushNeighbor ⟨n, c⟩ (removeNeighbor n (removeNeighbor n x)))

/-! ## Shortest-path computation -/

/-- The local variables of `dijkstra` during its search loop, together with the
global `topology` (which `topology[u]` may extend) and the number of pops so far. -/
structure Search where
  topo : Topology
  dist : List (String × Int)
  prev : List (String × String)
  pq : List String
  pops : Nat
deriving DecidableEq, Repr

/-- Which position of the frontier `top()` yields, given the number of pops so far,
the current distances and the frontier (the result is taken modulo its length). -/
abbrev PopPolicy := Nat → List (String × Int) → List String → Nat

/-- The position of the first name of `q` whose distance is smallest, `q` not empty. -/
def minIndex (dist : List (String × Int)) : List String → Nat
  | [] => 0
  | [_] => 0
  | a :: b :: rest =>
    let i := minIndex dist (b :: rest)
    if mapGet dist a 0 ≤ mapGet dist ((b :: rest).getD i "") 0 then 0 else i + 1

/-- The policy of an exact priority queue: a name of smallest current distance. -/
def minPolicy : PopPolicy := fun _ dist q => minIndex dist q

/-- The first loop of `dijkstra`, for `dist`: every router gets `INT_MAX`. -/
def initDist (t : Topology) : List (String × Int) :=
  t.foldl (fun d p => mapAssign d p.1 INT_MAX) []

/-- The first loop of `dijkstra`, for `prev`: every router gets the empty name. -/
def initPrev (t : Topology) : List (String × String) :=
  t.foldl (fun d p => mapAssign d p.1 "") []

/-- The body of the loop over the edges of `u`: the test
`dist[u] + edge.cost < dist[edge.dest]` (both reads may create an entry 0) and,
when it holds, the three updates. -/
def relaxEdge (u : String) (st : Search) (e : Edge) : Search :=
  let d2 := mapTouch (mapTouch st.dist u 0) e.dest 0
  let nd := wrapInt (mapGet d2 u 0 + e.cost)
  if nd < mapGet d2 e.dest 0 then
    { st with
      dist := mapAssign d2 e.dest nd
      prev := mapAssign st.prev e.dest u
      pq := st.pq ++ [e.dest] }
  else { st with dist := d2 }

/-- One iteration of `while (!pq.empty())`, for a frontier that is not empty. -/
def searchStep (pol : PopPolicy) (st : Search) : Search :=
  let i := pol st.pops st.dist st.pq % st.pq.length
  let u := st.pq.getD i ""
  let t1 := mapTouch st.topo u Router.fresh
  (mapGet t1 u Router.fresh).neighbors.foldl (relaxEdge u)
    { st with topo := t1, pq := st.pq.eraseIdx i, pops := st.pops + 1 }

/-- The loop `while (!pq.empty())`, with `fuel` bounding the number of iterations;
`none` when the fuel runs out. -/
def searchLoop (pol : PopPolicy) : Nat → Search → Option Search
  | 0, _ => none
  | fuel + 1, st =>
    if st.pq = [] then some st else searchLoop pol fuel (searchStep pol st)

/-- The state with which the frontier loop of `dijkstra(start)` begins: the two
initialised maps, `dist[start] = 0` and the frontier holding `start`. -/
def searchStart (t : Topology) (start : String) : Search :=
  { topo := t, dist := mapAssign (initDist t) start 0, prev := initPrev t,
    pq := [start], pops := 0 }

/-- The search part of `dijkstra(start)`: initialisation and the frontier loop. -/
def search (pol : PopPolicy) (fuel : Nat) (t : Topology) (start : String) : Option Search :=
  searchLoop pol fuel (searchStart t start)

/-- The loop `while (prev[next_hop] != start && !prev[next_hop].empty())`, with
`fuel` bounding the number of tests.  The entries that the reads `prev[next_hop]`
create hold the empty name and `prev` is not used afterwards, so they are left out. -/
def nextHop (prev : List (String × String)) (start : String) : Nat → String → Option String
  | 0, _ => none
  | fuel + 1, hop =>
    let p := mapGet prev hop ""
    if p ≠ start ∧ p ≠ "" then nextHop prev start fuel p else some hop

/-- The loop that overwrites every routing-table entry by `{"", INT_MAX}`. -/
def resetTable (r : Router) : Router :=
  { r with routing_table := r.routing_table.map (fun p => (p.1, ("", INT_MAX))) }

/-- The assignment `routing_table[name] = {hop, d}`. -/
def setRoute (name hop : String) (d : Int) (r : Router) : Router :=
  { r with routing_table := mapAssign r.routing_table name (hop, d) }

/-- The last loop of `dijkstra`, over the entries of `dist`. -/
def buildRoutes (prev : List (String × String)) (start : String) (fuel : Nat) :
    List (String × Int) → Topology → Option Topology
  | [], t => some t
  | (name, d) :: rest, t =>
    if d = INT_MAX ∨ name = start then buildRoutes prev start fuel rest t
    else
      match nextHop prev start fuel name with
      | none => none
      | some hop =>
        buildRoutes prev start fuel rest (mapModify t start Router.fresh (setRoute name hop d))

/-- The function `dijkstra(start)`; `none` when `fuel` does not suffice for one of
its loops. -/
def dijkstra (pol : PopPolicy) (fuel : Nat) (t : Topology) (start : String) : Option Topology :=
  match search pol fuel t start with
  | none => none
  | some st =>
    buildRoutes st.prev start fuel st.dist (mapModify st.topo start Router.fresh resetTable)

/-- The routing table of router `r` (empty when `r` is not a router). -/
def routingTable (t : Topology) (r : String) : List (String × (String × Int)) :=
  (mapGet t r Router.fresh).routing_table

/-- The neighbor list of router `r` (empty when `r` is not a router). -/
def neighborsOf (t : Topology) (r : String) : List Edge :=
  (mapGet t r Router.fresh).neighbors

/-- The LSDB of router `r` (empty when `r` is not a router). -/
def lsdbOf (t : Topology) (r : String) : List ((String × String) × Int) :=
  (mapGet t r Router.fresh).lsdb

/-- The loop over the selected routers of one command: `dijkstra` for each name
that is a router (the table is then printed). -/
def recompute (pol : PopPolicy) (fuel : Nat) : List String → Topology → Option Topology
  | [], t => some t
  | r :: rest, t =>
    if mapHas t r then
      match dijkstra pol fuel t r with
      | none => none
      | some t1 => recompute pol fuel rest t1
    else recompute pol fuel rest t

/-- One command of `main`: the topology update, then the recomputations. -/
def command (pol : PopPolicy) (fuel : Nat) (t : Topology)
    (c : String × String × Int × List String) : Option Topology :=
  recompute pol fuel c.2.2.2 (updateTopology t c.1 c.2.1 c.2.2.1)

/-! ## Program states and paths -/

/-- The states of `topology` that the program reaches: after `readTopology` on any
declarations and any initial links (so also after each initial link), after the
topology update of a command, and after a call `dijkstra(r)` for a selected name `r`
that is a router.  The names and the cost of a link or of a command are arbitrary:
`ss >> src >> dest >> cost` on a line with fewer than three fields leaves the missing
names empty and the cost unset, and a declaration line may be empty as well. -/
inductive Reachable : Topology → Prop
  | init (names : List String) (links : List (String × String × Int)) :
      Reachable (readTopology names links)
  | update {t : Topology} (a b : String) (c : Int) :
      Reachable t → Reachable (updateTopology t a b c)
  | route {t t2 : Topology} (pol : PopPolicy) (fuel : Nat) (r : String) :
      Reachable t → mapHas t r = true → dijkstra pol fuel t r = some t2 → Reachable t2

/-- Every edge of every neighbor list leads to a router of the topology. -/
def EdgesClosed (t : Topology) : Prop :=
  ∀ r, ∀ e ∈ neighborsOf t r, mapHas t e.dest = true

/-- Whether the edges `es`, in this order, form a path of the neighbor lists of `t`
that starts at `s`. -/
def isWalk (t : Topology) : String → List Edge → Bool
  | _, [] => true
  | s, e :: es => decide (e ∈ neighborsOf t s) && isWalk t e.dest es

/-- The router at which the path `es` from `s` ends. -/
def walkEnd : String → List Edge → String
  | s, [] => s
  | _, e :: es => walkEnd e.dest es

/-- The total cost of the edges `es`. -/
def walkCost (es : List Edge) : Int := (es.map Edge.cost).sum

/-- The routers on the path `es` from `s`, beginning with `s`. -/
def walkNodes (s : String) (es : List Edge) : List String := s :: es.map Edge.dest

/-- No sum `dist[u] + edge.cost` of the search from `start` can overflow or reach the
value `INT_MAX`, which stands for "unreachable": every path from `start` that visits no
router twice, followed by one more edge, costs less than `INT_MAX`. -/
def NoOverflow (t : Topology) (start : String) : Prop :=
  ∀ es, isWalk t start es = true → (walkNodes start es).Nodup →
    ∀ e ∈ neighborsOf t (walkEnd start es), walkCost es + e.cost < INT_MAX

/-- Router `d` is reachable from `s`: some path of the neighbor lists leads there. -/
def CanReach (t : Topology) (s d : String) : Prop :=
  ∃ es, isWalk t s es = true ∧ walkEnd s es = d

/-- The value `c` is the least total cost of a path from `s` to `d`. -/
def IsShortest (t : Topology) (s d : String) (c : Int) : Prop :=
  (∃ es, isWalk t s es = true ∧ walkEnd s es = d ∧ walkCost es = c) ∧
  ∀ es, isWalk t s es = true → walkEnd s es = d → c ≤ walkCost es

/-- Every LSDB maps `(X, Y)` and `(Y, X)` to the same cost, or holds neither. -/
def LsdbSymmetric (t : Topology) : Prop :=
  ∀ r X Y, mapFind (lsdbOf t r) (X, Y) = mapFind (lsdbOf t r) (Y, X)

/-- Every LSDB entry `(X, Y)` is backed by an edge from `X` to `Y`. -/
def LsdbBacked (t : Topology) : Prop :=
  ∀ r X Y, mapHas (lsdbOf t r) (X, Y) = true → ∃ e ∈ neighborsOf t X, e.dest = Y

/-- The reachable states of the inputs in which every name used by an initial link or
by a command is one of the declared names `names`. -/
inductive ReachableDeclared (names : List String) : Topology → Prop
  | init (links : List (String × String × Int)) :
      (∀ l ∈ links, l.1 ∈ names ∧ l.2.1 ∈ names) →
      ReachableDeclared names (readTopology names links)
  | update {t : Topology} (a b : String) (c : Int) :
      ReachableDeclared names t → a ∈ names → b ∈ names →
      ReachableDeclared names (updateTopology t a b c)
  | route {t t2 : Topology} (pol : PopPolicy) (fuel : Nat) (r : String) :
      ReachableDeclared names t → mapHas t r = true → dijkstra pol fuel t r = some t2 →
      ReachableDeclared names t2

/-! ## Sample inputs -/

/-- The topology of routers `A`, `B`, `C` with links `A-B = 1`, `B-C = 1`, `A-C = 5`. -/
def sampleTriangle : Topology :=
  readTopology ["A", "B", "C"] [("A", "B", 1), ("B", "C", 1), ("A", "C", 5)]

/-- Routers `A` and `B` declared, then the links `A-B = 1` and `A-C = 2`, the second
of which names the undeclared router `C`. -/
def sampleUndeclared : Topology :=
  readTopology ["A", "B"] [("A", "B", 1), ("A", "C", 2)]

/-- Routers `A`, `B`, `C` with the single link `A-B = 1`. -/
def sampleOneLink : Topology :=
  readTopology ["A", "B", "C"] [("A", "B", 1)]

/-! ## Quantities used in the analysis of the search -/

/-- The sum of all entries of `dist`. -/
def distSum (dist : List (String × Int)) : Int := (dist.map Prod.snd).sum

/-- Following `prev` from `v` leads to `start`. -/
inductive PrevChain (prev : List (String × String)) (start : String) : String → Prop
  | here : PrevChain prev start start
  | step (v : String) :
      v ≠ start → PrevChain prev start (mapGet prev v "") → PrevChain prev start v

/-- The invariant of the frontier loop of `dijkstra(start)` on the topology `t`;
`cur` is the router whose edges are being relaxed.  A finite distance is the cost of
a path from `start` that visits no router twice and whose routers all have a
distance that is not larger (`sound`); a router that is not on the frontier has all
its edges relaxed (`closed`); the predecessor of a router leads to it by an edge, and
from predecessor to predecessor one arrives at `start` (`pedge`, `chain`). -/
structure SearchInv (t : Topology) (start : String) (cur : Option String)
    (st : Search) : Prop where
  topo : st.topo = t
  keys : ∀ k, mapHas st.dist k = mapHas t k
  nodup : (st.dist.map Prod.fst).Nodup
  nonneg : ∀ p ∈ st.dist, 0 ≤ p.2
  pq_has : ∀ u ∈ st.pq, mapHas t u = true
  pq_fin : ∀ u ∈ st.pq, mapGet st.dist u 0 ≠ INT_MAX
  start0 : mapGet st.dist start 0 = 0
  sound : ∀ v, mapHas t v = true → mapGet st.dist v 0 ≠ INT_MAX →
    ∃ es, isWalk t start es = true ∧ walkEnd start es = v ∧
      walkCost es = mapGet st.dist v 0 ∧ (walkNodes start es).Nodup ∧
      ∀ x ∈ walkNodes start es, mapGet st.dist x 0 ≤ mapGet st.dist v 0
  closed : ∀ u, mapHas t u = true → mapGet st.dist u 0 ≠ INT_MAX → u ∉ st.pq →
    some u ≠ cur → ∀ e ∈ neighborsOf t u,
      mapGet st.dist e.dest 0 ≤ mapGet st.dist u 0 + e.cost
  pedge : ∀ v, mapHas t v = true → mapGet st.dist v 0 ≠ INT_MAX → v ≠ start →
    mapHas t (mapGet st.prev v "") = true ∧
    mapGet st.dist (mapGet st.prev v "") 0 ≠ INT_MAX ∧
    ∃ e ∈ neighborsOf t (mapGet st.prev v ""), e.dest = v ∧
      mapGet st.dist (mapGet st.prev v "") 0 + e.cost ≤ mapGet st.dist v 0
  chain : ∀ v, mapHas t v = true → mapGet st.dist v 0 ≠ INT_MAX →
    PrevChain st.prev start v

/-- The assumptions under which the search from `start` is analysed: every edge leads
to a router, `start` is a router, no edge cost is negative, and no sum of the search
can overflow or reach `INT_MAX`. -/
structure SearchCtx (t : Topology) (start : String) : Prop where
  closed : EdgesClosed t
  hstart : mapHas t start = true
  cost : ∀ r, ∀ e ∈ neighborsOf t r, 0 ≤ e.cost
  bound : NoOverflow t start

/-- The state of the search after a successful relaxation of the edge `e` out of `u`. -/
def improved (u : String) (st : Search) (e : Edge) : Search :=
  { st with
    dist := mapAssign st.dist e.dest (mapGet st.dist u 0 + e.cost)
    prev := mapAssign st.prev e.dest u
    pq := st.pq ++ [e.dest] }

/-- A quantity that every iteration of the frontier loop lowers: twice the sum of the
distances plus the length of the frontier. -/
def searchMeasure (st : Search) : Int := 2 * distSum st.dist + (st.pq.length : Int)

/-- Routers `A` and `B` with the single link `A-B = 2147483647`. -/
def sampleHeavy : Topology :=
  readTopology ["A", "B"] [("A", "B", 2147483647)]

/-- Routers `A` and `B` with the single link `A-B = 1073741824`. -/
def sampleOverflow : Topology :=
  readTopology ["A", "B"] [("A", "B", 1073741824)]

/-- Routers `A` and `B` with the link `A-B = 1`, after the command `A B 1 A` (which
recomputes the table of `A`) and then the command `A B -1 A`. -/
def sampleStale : Option Topology :=
  (command minPolicy 10 (readTopology ["A", "B"] [("A", "B", 1)]) ("A", "B", 1, ["A"])).bind
    (fun s => command minPolicy 10 s ("A", "B", -1, ["A"]))

/-- The sample triangle after the command `A C 5 A` (which recomputes the table of
`A`) and then the command `A B -1 A`. -/
def sampleTriangleCut : Option Topology :=
  (command minPolicy 20 sampleTriangle ("A", "C", 5, ["A"])).bind
    (fun s => command minPolicy 20 s ("A", "B", -1, ["A"]))

/-- The state that `sampleStale` evaluates to. -/
def staleState : Topology :=
  [("A", { name := "A", neighbors := [], lsdb := [],
           routing_table := [("B", ("", 2147483647))] }),
   ("B", { name := "B", neighbors := [], lsdb := [], routing_table := [] })]

/-! ## Further predicates on states and runs -/

/-- The declaration loop of `readTopology` on the lines `names`, from the empty map. -/
def declareAll (names : List String) : Topology := names.foldl declareRouter []

/-- Every edge has a mirror edge of the same cost. -/
def EdgeSymmetric (t : Topology) : Prop :=
  ∀ A B c, (⟨B, c⟩ : Edge) ∈ neighborsOf t A ↔ (⟨A, c⟩ : Edge) ∈ neighborsOf t B

/-- Every edge from `X` to `Y` has an entry `(X, Y)` in the LSDB of every router. -/
def EdgesRecorded (t : Topology) : Prop :=
  ∀ r, mapHas t r = true → ∀ X, ∀ e ∈ neighborsOf t X,
    mapHas (lsdbOf t r) (X, e.dest) = true

/-- The path that the predecessor map gives for `v`: the edges from `start` to `v`
where each edge comes from the predecessor of its destination and is tight, that is
the distance of the destination is the distance of the predecessor plus the cost. -/
inductive PrevWalk (t : Topology) (dist : List (String × Int))
    (prev : List (String × String)) (start : String) : String → List Edge → Prop
  | here : PrevWalk t dist prev start start []
  | step (v : String) (e : Edge) (es : List Edge) :
      v ≠ start → PrevWalk t dist prev start (mapGet prev v "") es →
      e ∈ neighborsOf t (mapGet prev v "") → e.dest = v →
      mapGet dist v 0 = mapGet dist (mapGet prev v "") 0 + e.cost →
      PrevWalk t dist prev start v (es ++ [e])

/-- Routers `A`, `B`, `C` with the links `A-B = 1` and `B-C = 2147483647`. -/
def sampleWrap : Topology :=
  readTopology ["A", "B", "C"] [("A", "B", 1), ("B", "C", 2147483647)]

/-- The state in which the search of `dijkstra(A)` on `sampleWrap` ends: the sum
`1 + 2147483647` has wrapped, and `B` and `C` are the predecessors of each other. -/
def sampleWrapEnd : Search :=
  { topo := sampleWrap,
    dist := [("A", 0), ("B", -1), ("C", -2147483648)],
    prev := [("A", ""), ("B", "C"), ("C", "B")],
    pq := [],
    pops := 4 }

/-- The tests `dist[u] + edge.cost < dist[edge.dest]` that the loop over the edges
`es` of the popped router `u` performs from the state `st`, each with the state in
which it is evaluated. -/
def relaxTrace (u : String) : Search → List Edge → List (String × Search × Edge)
  | _, [] => []
  | st, e :: rest => (u, st, e) :: relaxTrace u (relaxEdge u st e) rest

/-- The tests of one iteration of the frontier loop. -/
def stepTrace (pol : PopPolicy) (st : Search) : List (String × Search × Edge) :=
  let i := pol st.pops st.dist st.pq % st.pq.length
  let u := st.pq.getD i ""
  let t1 := mapTouch st.topo u Router.fresh
  relaxTrace u { st with topo := t1, pq := st.pq.eraseIdx i, pops := st.pops + 1 }
    (mapGet t1 u Router.fresh).neighbors

/-- The tests of the first `fuel` iterations of the frontier loop, in their order. -/
def searchTrace (pol : PopPolicy) : Nat → Search → List (String × Search × Edge)
  | 0, _ => []
  | fuel + 1, st =>
    if st.pq = [] then []
    else stepTrace pol st ++ searchTrace pol fuel (searchStep pol st)

/-- The routers popped in the first `fuel` iterations of the frontier loop, each with
the state in which it is popped. -/
def popTrace (pol : PopPolicy) : Nat → Search → List (String × Search)
  | 0, _ => []
  | fuel + 1, st =>
    if st.pq = [] then []
    else
      (st.pq.getD (pol st.pops st.dist st.pq % st.pq.length) "", st)
        :: popTrace pol fuel (searchStep pol st)

/-- What holds of the lookups during the search on a topology whose edges lead to
routers: `topology` is not extended, the keys of `dist` are the routers, no distance
exceeds `INT_MAX`, and every name on the frontier is a router with a finite
distance. -/
structure LookupInv (t : Topology) (st : Search) : Prop where
  topo : st.topo = t
  keys : ∀ k, mapHas st.dist k = mapHas t k
  le : ∀ k, mapGet st.dist k 0 ≤ INT_MAX
  pq_ok : ∀ u ∈ st.pq, mapHas t u = true ∧ mapGet st.dist u 0 < INT_MAX

/-- Routers `A` and `B` with the link `A-B = 1` after the command `A B 1 A`: the
table of `A` holds the route to `B`. -/
def sampleRouted : Topology :=
  [("A", { name := "A", neighbors := [⟨"B", 1⟩], lsdb := [(("A", "B"), 1), (("B", "A"), 1)],
           routing_table := [("B", ("B", 1))] }),
   ("B", { name := "B", neighbors := [⟨"A", 1⟩], lsdb := [(("A", "B"), 1), (("B", "A"), 1)],
           routing_table := [] })]

/-- The state `sampleRouted` after the topology update of the command `A B -1 A`:
the link is removed and the table of `A` still holds the route to `B`. -/
def sampleRoutedCut : Topology := updateTopology sampleRouted "A" "B" (-1)

/-- Routers `A`, `B`, `C` with the link line `B C 4` and then the link lines `A` and
`B`, each of one word: `dest` stays empty, so the router with the empty name is
created and linked to `A` and to `B` (the cost, which such a line leaves unset, is
taken as 4 here). -/
def sampleShortLine : Topology :=
  readTopology ["A", "B", "C"] [("B", "C", 4), ("A", "", 4), ("B", "", 4)]

section MapLemmas
variable {κ υ : Type} [DecidableEq κ]

theorem mapFind_assign (m : List (κ × υ)) (k k2 : κ) (v : υ) :
    mapFind (mapAssign m k v) k2 = if k = k2 then some v else mapFind m k2 := by
  induction m with
  | nil => simp [mapAssign, mapFind]
  | cons p rest ih =>
    obtain ⟨k1, v1⟩ := p
    by_cases h1 : k1 = k
    · subst h1
      by_cases h2 : k1 = k2 <;> simp [mapAssign, mapFind, h2]
    · by_cases h2 : k1 = k2
      · subst h2
        have : ¬ k = k1 := fun h => h1 h.symm
        simp [mapAssign, mapFind, h1, this]
      · simp [mapAssign, mapFind, h1, h2, ih]

theorem mapFind_erase (m : List (κ × υ)) (k k2 : κ) :
    mapFind (mapErase m k) k2 = if k = k2 then none else mapFind m k2 := by
  induction m with
  | nil => simp [mapErase, mapFind]
  | cons p rest ih =>
    obtain ⟨k1, v1⟩ := p
    simp only [mapErase] at ih
    by_cases h1 : k1 = k
    · subst h1
      by_cases h2 : k1 = k2 <;> simp [mapErase, mapFind, h2] <;> simpa [h2] using ih
    · by_cases h2 : k1 = k2
      · subst h2
        have : ¬ k = k1 := fun h => h1 h.symm
        simp [mapErase, mapFind, h1, this]
      · simpa [mapErase, mapFind, h1, h2] using ih

theorem mapFind_modify (m : List (κ × υ)) (k k2 : κ) (d : υ) (f : υ → υ) :
    mapFind (mapModify m k d f) k2
      = if k = k2 then some (f (mapGet m k d)) else mapFind m k2 := by
  induction m with
  | nil => simp [mapModify, mapFind, mapGet]
  | cons p rest ih =>
    obtain ⟨k1, v1⟩ := p
    by_cases h1 : k1 = k
    · subst h1
      by_cases h2 : k1 = k2 <;> simp [mapModify, mapFind, mapGet, h2]
    · by_cases h2 : k1 = k2
      · subst h2
        have : ¬ k = k1 := fun h => h1 h.symm
        simp [mapModify, mapFind, h1, this]
      · simp [mapModify, mapFind, mapGet, h1, h2, ih]

theorem mapGet_modify (m : List (κ × υ)) (k k2 : κ) (d : υ) (f : υ → υ) :
    mapGet (mapModify m k d f) k2 d = if k = k2 then f (mapGet m k d) else mapGet m k2 d := by
  unfold mapGet
  rw [mapFind_modify]
  by_cases h : k = k2 <;> simp [h, mapGet]

theorem mapHas_modify (m : List (κ × υ)) (k k2 : κ) (d : υ) (f : υ → υ) :
    mapHas (mapModify m k d f) k2 = (decide (k = k2) || mapHas m k2) := by
  unfold mapHas
  rw [mapFind_modify]
  by_cases h : k = k2 <;> simp [h]

theorem mapHas_assign (m : List (κ × υ)) (k k2 : κ) (v : υ) :
    mapHas (mapAssign m k v) k2 = (decide (k = k2) || mapHas m k2) := by
  unfold mapHas
  rw [mapFind_assign]
  by_cases h : k = k2 <;> simp [h]

theorem mapFind_touch (m : List (κ × υ)) (k k2 : κ) (d : υ) :
    mapFind (mapTouch m k d) k2
      = if mapHas m k2 then mapFind m k2 else if k = k2 then some d else none := by
  unfold mapTouch
  by_cases h : mapHas m k = true
  · simp only [h, if_true]
    by_cases h2 : mapHas m k2 = true
    · simp [h2]
    · have hne : ¬ k = k2 := fun e => h2 (e ▸ h)
      simp only [h2, hne, if_false]
      simpa [mapHas] using h2
  · simp only [h, if_false]
    induction m with
    | nil => simp [mapFind, mapHas]
    | cons p rest ih =>
      obtain ⟨k1, v1⟩ := p
      have hk1 : ¬ k1 = k := by
        intro e; apply h; simp [mapHas, mapFind, e]
      have hrest : ¬ mapHas rest k = true := by
        intro e; apply h; simpa [mapHas, mapFind, hk1] using e
      by_cases h2 : k1 = k2
      · simp [mapFind, mapHas, h2]
      · have := ih hrest
        simp only [List.cons_append, mapFind, h2, if_false, mapHas] at this ⊢
        exact this

theorem mapTouch_of_has (m : List (κ × υ)) (k : κ) (d : υ) (h : mapHas m k = true) :
    mapTouch m k d = m := by
  simp [mapTouch, h]

theorem mapGet_touch (m : List (κ × υ)) (k k2 : κ) (d : υ) :
    mapGet (mapTouch m k d) k2 d = mapGet m k2 d := by
  unfold mapGet
  rw [mapFind_touch]
  by_cases h2 : mapHas m k2 = true
  · simp [h2]
  · have hn : mapFind m k2 = none := by simpa [mapHas] using h2
    by_cases e : k = k2 <;> simp [h2, e, hn]

theorem mapHas_touch (m : List (κ × υ)) (k k2 : κ) (d : υ) :
    mapHas (mapTouch m k d) k2 = (decide (k = k2) || mapHas m k2) := by
  by_cases h2 : mapHas m k2 = true
  · have : mapHas (mapTouch m k d) k2 = true := by
      unfold mapHas at h2 ⊢
      rw [mapFind_touch]; simp [mapHas, h2]
    simp [h2, this]
  · unfold mapHas at h2 ⊢
    rw [mapFind_touch]
    by_cases e : k = k2 <;> simp [mapHas, h2, e]

end MapLemmas

theorem mapFind_forEachRouter (f : Router → Router) (t : Topology) (k : String) :
    mapFind (forEachRouter f t) k = (mapFind t k).map f := by
  induction t with
  | nil => simp [forEachRouter, mapFind]
  | cons p rest ih =>
    obtain ⟨k1, v1⟩ := p
    simp only [forEachRouter, List.map_cons, mapFind] at ih ⊢
    by_cases h : k1 = k <;> simp [h, ih]

theorem mapHas_forEachRouter (f : Router → Router) (t : Topology) (k : String) :
    mapHas (forEachRouter f t) k = mapHas t k := by
  simp [mapHas, mapFind_forEachRouter]

theorem mapGet_forEachRouter (f : Router → Router) (t : Topology) (k : String) :
    mapGet (forEachRouter f t) k Router.fresh
      = if mapHas t k then f (mapGet t k Router.fresh) else Router.fresh := by
  unfold mapGet mapHas
  rw [mapFind_forEachRouter]
  cases h : mapFind t k <;> simp

theorem neighborsOf_forEachRouter (f : Router → Router) (hf : ∀ x, (f x).neighbors = x.neighbors)
    (t : Topology) (k : String) :
    neighborsOf (forEachRouter f t) k = neighborsOf t k := by
  unfold neighborsOf
  rw [mapGet_forEachRouter]
  by_cases h : mapHas t k = true
  · simp [h, hf]
  · have hn : mapFind t k = none := by simpa [mapHas] using h
    simp [h, mapGet, hn]

theorem routingTable_forEachRouter (f : Router → Router)
    (hf : ∀ x, (f x).routing_table = x.routing_table) (t : Topology) (k : String) :
    routingTable (forEachRouter f t) k = routingTable t k := by
  unfold routingTable
  rw [mapGet_forEachRouter]
  by_cases h : mapHas t k = true
  · simp [h, hf]
  · have hn : mapFind t k = none := by simpa [mapHas] using h
    simp [h, mapGet, hn]

theorem lsdbOf_forEachRouter (f : Router → Router) (t : Topology) (k : String)
    (h : mapHas t k = true) :
    lsdbOf (forEachRouter f t) k = (f (mapGet t k Router.fresh)).lsdb := by
  unfold lsdbOf
  rw [mapGet_forEachRouter]
  simp [h]

theorem neighborsOf_modify (t : Topology) (k r : String) (f : Router → Router) :
    neighborsOf (mapModify t k Router.fresh f) r
      = if k = r then (f (mapGet t k Router.fresh)).neighbors else neighborsOf t r := by
  unfold neighborsOf
  rw [mapGet_modify]
  by_cases h : k = r <;> simp [h]

theorem lsdbOf_modify (t : Topology) (k r : String) (f : Router → Router)
    (hf : ∀ x, (f x).lsdb = x.lsdb) :
    lsdbOf (mapModify t k Router.fresh f) r = lsdbOf t r := by
  unfold lsdbOf
  rw [mapGet_modify]
  by_cases h : k = r
  · subst h; simp [hf]
  · simp [h]

/-- The neighbor list of `r` after one command's topology update. -/
theorem neighborsOf_updateTopology (t : Topology) (a b : String) (c : Int) (r : String) :
    neighborsOf (updateTopology t a b c) r =
      (((neighborsOf t r).filter (fun e => !(decide (a = r) && decide (e.dest = b)))).filter
          (fun e => !(decide (b = r) && decide (e.dest = a))))
        ++ (if c ≠ -1 ∧ a = r then [⟨b, c⟩] else [])
        ++ (if c ≠ -1 ∧ b = r then [⟨a, c⟩] else []) := by
  unfold updateTopology
  have hL : ∀ x : Router,
      ((if c = -1 then eraseLink a b else setLink a b c) x).neighbors = x.neighbors := by
    intro x; by_cases hc : c = -1 <;> simp [hc, eraseLink, setLink]
  simp only []
  rw [neighborsOf_forEachRouter _ hL]
  by_cases hc : c = -1
  · simp only [hc, ne_eq, not_true_eq_false, if_false, false_and, List.append_nil]
    rw [neighborsOf_modify]
    by_cases hb : b = r
    · subst hb
      rw [mapGet_modify]
      by_cases ha : a = b
      · subst ha
        simp [removeNeighbor, neighborsOf, List.filter_filter]
      · simp [ha, removeNeighbor, neighborsOf]
    · rw [neighborsOf_modify]
      by_cases ha : a = r
      · subst ha
        simp [hb, removeNeighbor, neighborsOf]
      · simp [ha, hb, neighborsOf]
  · simp only [hc, ne_eq, not_false_eq_true, if_true, true_and]
    rw [neighborsOf_modify]
    by_cases hb : b = r
    · subst hb
      rw [mapGet_modify]
      by_cases ha : a = b
      · subst ha
        simp [removeNeighbor, neighborsOf, List.filter_filter, mapGet_modify, pushNeighbor]
      · simp [ha, removeNeighbor, neighborsOf, mapGet_modify, pushNeighbor]
    · rw [neighborsOf_modify]
      by_cases ha : a = r
      · subst ha
        simp [hb, removeNeighbor, neighborsOf, mapGet_modify, pushNeighbor]
      · simp [ha, hb, neighborsOf_modify]

theorem mapHas_updateTopology (t : Topology) (a b : String) (c : Int) (r : String) :
    mapHas (updateTopology t a b c) r = (decide (a = r) || decide (b = r) || mapHas t r) := by
  unfold updateTopology
  simp only []
  rw [mapHas_forEachRouter]
  by_cases hc : c = -1
  · simp only [hc, ne_eq, not_true_eq_false, if_false]
    rw [mapHas_modify, mapHas_modify]
    cases decide (a = r) <;> cases decide (b = r) <;> simp
  · simp only [hc, ne_eq, not_false_eq_true, if_true]
    rw [mapHas_modify, mapHas_modify, mapHas_modify, mapHas_modify]
    cases decide (a = r) <;> cases decide (b = r) <;> simp

/-- The LSDB of a router `r` of the updated topology. -/
theorem lsdbOf_updateTopology (t : Topology) (a b : String) (c : Int) (r : String)
    (hr : mapHas (updateTopology t a b c) r = true) :
    lsdbOf (updateTopology t a b c) r =
      if c = -1 then mapErase (mapErase (lsdbOf t r) (a, b)) (b, a)
      else mapAssign (mapAssign (lsdbOf t r) (a, b) c) (b, a) c := by
  have hr2 := hr
  unfold updateTopology at hr ⊢
  simp only [] at hr ⊢
  rw [mapHas_forEachRouter] at hr
  rw [lsdbOf_forEachRouter _ _ _ hr]
  have key : ∀ (s : Topology), lsdbOf s r = lsdbOf t r →
      ((if c = -1 then eraseLink a b else setLink a b c) (mapGet s r Router.fresh)).lsdb
        = if c = -1 then mapErase (mapErase (lsdbOf t r) (a, b)) (b, a)
          else mapAssign (mapAssign (lsdbOf t r) (a, b) c) (b, a) c := by
    intro s hs
    by_cases hc : c = -1
    · simp only [hc, if_true, eraseLink]; rw [← hs]; rfl
    · simp only [hc, if_false, setLink]; rw [← hs]; rfl
  apply key
  have h1 : ∀ n x, (removeNeighbor n x).lsdb = x.lsdb := fun _ _ => rfl
  have h2 : ∀ e x, (pushNeighbor e x).lsdb = x.lsdb := fun _ _ => rfl
  by_cases hc : c = -1
  · simp only [hc, ne_eq, not_true_eq_false, if_false]
    rw [lsdbOf_modify _ _ _ _ (h1 _), lsdbOf_modify _ _ _ _ (h1 _)]
  · simp only [hc, ne_eq, not_false_eq_true, if_true]
    rw [lsdbOf_modify _ _ _ _ (h2 _), lsdbOf_modify _ _ _ _ (h2 _),
      lsdbOf_modify _ _ _ _ (h1 _), lsdbOf_modify _ _ _ _ (h1 _)]

theorem lsdbOf_of_not_has (t : Topology) (r : String) (h : ¬ mapHas t r = true) :
    lsdbOf t r = [] := by
  have hn : mapFind t r = none := by simpa [mapHas] using h
  simp [lsdbOf, mapGet, hn, Router.fresh]

theorem neighborsOf_of_not_has (t : Topology) (r : String) (h : ¬ mapHas t r = true) :
    neighborsOf t r = [] := by
  have hn : mapFind t r = none := by simpa [mapHas] using h
  simp [neighborsOf, mapGet, hn, Router.fresh]

theorem lsdbOf_updateTopology_remove (t : Topology) (a b : String) (r : String) :
    lsdbOf (updateTopology t a b (-1)) r = mapErase (mapErase (lsdbOf t r) (a, b)) (b, a) := by
  by_cases hr : mapHas (updateTopology t a b (-1)) r = true
  · rw [lsdbOf_updateTopology _ _ _ _ _ hr]; simp
  · rw [lsdbOf_of_not_has _ _ hr]
    rw [mapHas_updateTopology] at hr
    have : ¬ mapHas t r = true := by
      intro h; apply hr; simp [h]
    rw [lsdbOf_of_not_has _ _ this]
    rfl

/-- C5: after the command `(a, b, c)` with `a ≠ b` and `c ≠ -1`, the neighbor list of
`a` holds exactly one edge to `b`, of cost `c`, the neighbor list of `b` holds exactly
one edge to `a`, of cost `c`, and the LSDB of every router of the topology maps both
`(a, b)` and `(b, a)` to `c`. -/
theorem updateTopology_sets_link (t : Topology) (a b : String) (c : Int)
    (hab : a ≠ b) (hc : c ≠ -1) :
    (neighborsOf (updateTopology t a b c) a).filter (fun e => decide (e.dest = b)) = [⟨b, c⟩] ∧
    (neighborsOf (updateTopology t a b c) b).filter (fun e => decide (e.dest = a)) = [⟨a, c⟩] ∧
    ∀ r, mapHas (updateTopology t a b c) r = true →
      mapFind (lsdbOf (updateTopology t a b c) r) (a, b) = some c ∧
      mapFind (lsdbOf (updateTopology t a b c) r) (b, a) = some c := by
  have hba : ¬ b = a := fun h => hab h.symm
  refine ⟨?_, ?_, ?_⟩
  · rw [neighborsOf_updateTopology]
    simp only [hc, hba, hab, ne_eq, not_false_eq_true, and_self, and_false, if_true, if_false,
      List.append_nil, List.filter_append, decide_True, decide_False, Bool.true_and,
      Bool.false_and, Bool.not_false, List.filter_filter]
    simp
  · rw [neighborsOf_updateTopology]
    simp only [hc, hba, hab, ne_eq, not_false_eq_true, and_self, and_false, if_true, if_false,
      List.append_nil, List.filter_append, decide_True, decide_False, Bool.true_and,
      Bool.false_and, Bool.not_false, List.filter_filter, List.nil_append]
    simp
  · intro r hr
    rw [lsdbOf_updateTopology _ _ _ _ _ hr]
    simp only [hc, if_false]
    rw [mapFind_assign, mapFind_assign, mapFind_assign]
    by_cases h : (b, a) = (a, b) <;> simp [h]

/-- C6: after the command `(a, b, -1)` the neighbor list of `a` holds no edge to `b`,
the neighbor list of `b` holds no edge to `a`, no LSDB has an entry for `(a, b)` or
`(b, a)`, and every other edge (in its order) and every other LSDB entry is as before. -/
theorem updateTopology_removes_link (t : Topology) (a b : String) :
    (∀ e ∈ neighborsOf (updateTopology t a b (-1)) a, e.dest ≠ b) ∧
    (∀ e ∈ neighborsOf (updateTopology t a b (-1)) b, e.dest ≠ a) ∧
    (∀ r, mapFind (lsdbOf (updateTopology t a b (-1)) r) (a, b) = none ∧
      mapFind (lsdbOf (updateTopology t a b (-1)) r) (b, a) = none) ∧
    (∀ r, neighborsOf (updateTopology t a b (-1)) r =
      (neighborsOf t r).filter
        (fun e => !decide ((r = a ∧ e.dest = b) ∨ (r = b ∧ e.dest = a)))) ∧
    (∀ r k, k ≠ (a, b) → k ≠ (b, a) →
      mapFind (lsdbOf (updateTopology t a b (-1)) r) k = mapFind (lsdbOf t r) k) := by
  have hnb : ∀ r, neighborsOf (updateTopology t a b (-1)) r =
      (neighborsOf t r).filter
        (fun e => !decide ((r = a ∧ e.dest = b) ∨ (r = b ∧ e.dest = a))) := by
    intro r
    rw [neighborsOf_updateTopology]
    simp only [ne_eq, not_true_eq_false, false_and, if_false, List.append_nil,
      List.filter_filter]
    congr 1
    funext e
    by_cases h1 : a = r <;> by_cases h2 : b = r <;> by_cases h3 : e.dest = b <;>
      by_cases h4 : e.dest = a <;> simp [h1, h2, h3, h4, eq_comm]
  refine ⟨?_, ?_, ?_, hnb, ?_⟩
  · intro e he
    rw [hnb] at he
    simp only [List.mem_filter] at he
    intro h
    simp [h] at he
  · intro e he
    rw [hnb] at he
    simp only [List.mem_filter] at he
    intro h
    simp [h] at he
  · intro r
    rw [lsdbOf_updateTopology_remove]
    constructor
    · rw [mapFind_erase, mapFind_erase]; by_cases h : (b, a) = (a, b) <;> simp [h]
    · rw [mapFind_erase]; simp
  · intro r k h1 h2
    rw [lsdbOf_updateTopology_remove, mapFind_erase, mapFind_erase]
    have h1' : ¬ (a, b) = k := fun h => h1 h.symm
    have h2' : ¬ (b, a) = k := fun h => h2 h.symm
    simp [h1', h2']

section MapAlgebra
variable {κ υ : Type} [DecidableEq κ]

theorem mapModify_mapModify (m : List (κ × υ)) (k : κ) (d : υ) (f g : υ → υ) :
    mapModify (mapModify m k d f) k d g = mapModify m k d (fun x => g (f x)) ∨
      (mapHas m k = false ∧ mapModify (mapModify m k d f) k d g = m ++ [(k, g (f d))]) := by
  induction m with
  | nil => right; simp [mapModify, mapHas, mapFind]
  | cons p rest ih =>
    obtain ⟨k1, v1⟩ := p
    by_cases h : k1 = k
    · left; simp [mapModify, h]
    · rcases ih with ih | ⟨ih1, ih2⟩
      · left; simp [mapModify, h, ih]
      · right
        refine ⟨?_, ?_⟩
        · simpa [mapHas, mapFind, h] using ih1
        · simp [mapModify, h, ih2]

theorem mapModify_of_not_has (m : List (κ × υ)) (k : κ) (d : υ) (f : υ → υ)
    (h : mapHas m k = false) : mapModify m k d f = m ++ [(k, f d)] := by
  induction m with
  | nil => simp [mapModify]
  | cons p rest ih =>
    obtain ⟨k1, v1⟩ := p
    have h1 : ¬ k1 = k := by
      intro e; simp [mapHas, mapFind, e] at h
    have h2 : mapHas rest k = false := by simpa [mapHas, mapFind, h1] using h
    simp [mapModify, h1, ih h2]

/-- Two changes through `m[k]` in a row amount to one. -/
theorem mapModify_twice (m : List (κ × υ)) (k : κ) (d : υ) (f g : υ → υ) :
    mapModify (mapModify m k d f) k d g = mapModify m k d (fun x => g (f x)) := by
  rcases mapModify_mapModify m k d f g with h | ⟨h1, h2⟩
  · exact h
  · rw [h2, mapModify_of_not_has _ _ _ _ h1]

/-- Changes through two different keys commute once one of the keys is present. -/
theorem mapModify_comm (m : List (κ × υ)) (k k2 : κ) (d : υ) (f g : υ → υ)
    (hne : k ≠ k2) (hk : mapHas m k = true ∨ mapHas m k2 = true) :
    mapModify (mapModify m k d f) k2 d g = mapModify (mapModify m k2 d g) k d f := by
  induction m with
  | nil => simp [mapHas, mapFind] at hk
  | cons p rest ih =>
    obtain ⟨k1, v1⟩ := p
    by_cases h1 : k1 = k
    · subst h1
      simp [mapModify, hne]
    · by_cases h2 : k1 = k2
      · subst h2
        simp [mapModify, h1]
      · have hk2 : mapHas rest k = true ∨ mapHas rest k2 = true := by
          simpa [mapHas, mapFind, h1, h2] using hk
        simp [mapModify, h1, h2, ih hk2]

theorem mapAssign_of_find (m : List (κ × υ)) (k : κ) (v : υ) (h : mapFind m k = some v) :
    mapAssign m k v = m := by
  induction m with
  | nil => simp [mapFind] at h
  | cons p rest ih =>
    obtain ⟨k1, v1⟩ := p
    by_cases h1 : k1 = k
    · simp only [mapFind, h1, if_true, Option.some.injEq] at h
      simp [mapAssign, h1, h]
    · simp only [mapFind, h1, if_false] at h
      simp [mapAssign, h1, ih h]

end MapAlgebra

theorem mapModify_forEachRouter (L f : Router → Router) (t : Topology) (k : String)
    (hk : mapHas t k = true) (hc : ∀ x, f (L x) = L (f x)) :
    mapModify (forEachRouter L t) k Router.fresh f
      = forEachRouter L (mapModify t k Router.fresh f) := by
  induction t with
  | nil => simp [mapHas, mapFind] at hk
  | cons p rest ih =>
    obtain ⟨k1, v1⟩ := p
    by_cases h1 : k1 = k
    · simp [forEachRouter, mapModify, h1, hc]
    · have hk2 : mapHas rest k = true := by simpa [mapHas, mapFind, h1] using hk
      have := ih hk2
      simp only [forEachRouter] at this
      simp [forEachRouter, mapModify, h1, this]

theorem forEachRouter_twice (L : Router → Router) (hL : ∀ x, L (L x) = L x) (t : Topology) :
    forEachRouter L (forEachRouter L t) = forEachRouter L t := by
  simp [forEachRouter, List.map_map, Function.comp_def, hL]

theorem setLink_twice (a b : String) (c : Int) (x : Router) :
    setLink a b c (setLink a b c x) = setLink a b c x := by
  have h1 : mapFind (mapAssign (mapAssign x.lsdb (a, b) c) (b, a) c) (a, b) = some c := by
    rw [mapFind_assign, mapFind_assign]; by_cases h : (b, a) = (a, b) <;> simp [h]
  have h2 : mapFind (mapAssign (mapAssign x.lsdb (a, b) c) (b, a) c) (b, a) = some c := by
    rw [mapFind_assign]; simp
  simp only [setLink]
  rw [mapAssign_of_find _ _ _ h1, mapAssign_of_find _ _ _ h2]

theorem eraseLink_twice (a b : String) (x : Router) :
    eraseLink a b (eraseLink a b x) = eraseLink a b x := by
  simp only [eraseLink, mapErase, List.filter_filter]
  congr 1
  apply List.filter_congr
  intro p _
  by_cases h1 : p.1 = (a, b) <;> by_cases h2 : p.1 = (b, a) <;> simp [h1, h2]

theorem linkChange_twice (n : String) (c : Int) (x : Router) :
    linkChange n c (linkChange n c x) = linkChange n c x := by
  by_cases hc : c = -1
  · simp [linkChange, hc, removeNeighbor, List.filter_filter]
  · simp [linkChange, hc, removeNeighbor, pushNeighbor, List.filter_filter, List.filter_append]

theorem loopChange_twice (n : String) (c : Int) (x : Router) :
    loopChange n c (loopChange n c x) = loopChange n c x := by
  by_cases hc : c = -1
  · simp [loopChange, hc, removeNeighbor, List.filter_filter]
  · simp [loopChange, hc, removeNeighbor, pushNeighbor, List.filter_filter, List.filter_append]

/-- The update of one command as one change at each endpoint followed by the LSDB loop. -/
theorem updateTopology_normal (t : Topology) (a b : String) (c : Int) :
    updateTopology t a b c =
      forEachRouter (if c = -1 then eraseLink a b else setLink a b c)
        (if a = b then mapModify t a Router.fresh (loopChange a c)
         else mapModify (mapModify t a Router.fresh (linkChange b c)) b Router.fresh
           (linkChange a c)) := by
  unfold updateTopology
  simp only []
  congr 1
  by_cases hab : a = b
  · subst hab
    by_cases hc : c = -1
    · simp only [hc, ne_eq, not_true_eq_false, if_false, if_true]
      rw [mapModify_twice]
      congr 1
    · simp only [hc, ne_eq, not_false_eq_true, if_true]
      rw [mapModify_twice, mapModify_twice, mapModify_twice]
      congr 1
      funext x; simp [loopChange, hc]
  · simp only [hab, if_false]
    by_cases hc : c = -1
    · simp only [hc, ne_eq, not_true_eq_false, if_false]
      have e1 : removeNeighbor b = linkChange b (-1) := by funext x; simp [linkChange]
      have e2 : removeNeighbor a = linkChange a (-1) := by funext x; simp [linkChange]
      rw [e1, e2]
    · simp only [hc, ne_eq, not_false_eq_true, if_true]
      have hba : b ≠ a := fun h => hab h.symm
      rw [mapModify_comm _ b a _ _ _ hba (Or.inr (by rw [mapHas_modify]; simp)),
        mapModify_twice, mapModify_twice]
      congr 1
      · congr 1; funext x; simp [linkChange, hc]
      · funext x; simp [linkChange, hc]

/-- C7: applying the command `(a, b, c)` twice in a row gives exactly the state that
applying it once gives (same routers, same neighbor lists in the same order, same
LSDBs). -/
theorem updateTopology_idempotent (t : Topology) (a b : String) (c : Int) :
    updateTopology (updateTopology t a b c) a b c = updateTopology t a b c := by
  have hL : ∀ x, (if c = -1 then eraseLink a b else setLink a b c)
      ((if c = -1 then eraseLink a b else setLink a b c) x)
        = (if c = -1 then eraseLink a b else setLink a b c) x := by
    intro x
    by_cases hc : c = -1
    · simp only [hc, if_true]; exact eraseLink_twice a b x
    · simp only [hc, if_false]; exact setLink_twice a b c x
  have hcl : ∀ n x, linkChange n c ((if c = -1 then eraseLink a b else setLink a b c) x)
      = (if c = -1 then eraseLink a b else setLink a b c) (linkChange n c x) := by
    intro n x
    by_cases hc : c = -1 <;>
      simp [hc, linkChange, eraseLink, setLink, removeNeighbor, pushNeighbor]
  have hcl2 : ∀ n x, loopChange n c ((if c = -1 then eraseLink a b else setLink a b c) x)
      = (if c = -1 then eraseLink a b else setLink a b c) (loopChange n c x) := by
    intro n x
    by_cases hc : c = -1 <;>
      simp [hc, loopChange, eraseLink, setLink, removeNeighbor, pushNeighbor]
  rw [updateTopology_normal (updateTopology t a b c), updateTopology_normal t]
  by_cases hab : a = b
  · subst hab
    simp only [if_true]
    rw [mapModify_forEachRouter _ _ _ _ (by rw [mapHas_modify]; simp) (hcl2 a),
      forEachRouter_twice _ hL, mapModify_twice]
    congr 2
    funext x; exact loopChange_twice a c x
  · simp only [hab, if_false]
    have hba : b ≠ a := fun h => hab h.symm
    rw [mapModify_forEachRouter _ _ _ _
        (by rw [mapHas_modify, mapHas_modify]; simp) (hcl b),
      mapModify_forEachRouter _ _ _ _
        (by rw [mapHas_modify, mapHas_modify, mapHas_modify]; simp) (hcl a),
      forEachRouter_twice _ hL]
    congr 1
    rw [mapModify_comm (mapModify t a Router.fresh (linkChange b c)) b a _ _ _ hba
        (Or.inr (by rw [mapHas_modify]; simp)),
      mapModify_twice, mapModify_twice]
    congr 2
    · funext x; exact linkChange_twice b c x
    · funext x; exact linkChange_twice a c x

/-! ## Loops of `dijkstra`: invariant rules and the frame -/

theorem foldl_relaxEdge_induct (u : String) (P : Search → Prop) (es : List Edge)
    (hstep : ∀ st e, e ∈ es → P st → P (relaxEdge u st e)) :
    ∀ st, P st → P (es.foldl (relaxEdge u) st) := by
  induction es with
  | nil => intro st h; exact h
  | cons e rest ih =>
    intro st h
    simp only [List.foldl_cons]
    apply ih
    · intro st2 e2 he2 h2
      exact hstep st2 e2 (List.mem_cons_of_mem _ he2) h2
    · exact hstep st e (List.mem_cons_self _ _) h

theorem searchLoop_induct (pol : PopPolicy) (P : Search → Prop)
    (hstep : ∀ st, P st → st.pq ≠ [] → P (searchStep pol st)) :
    ∀ (fuel : Nat) (st st2 : Search), P st → searchLoop pol fuel st = some st2 →
      P st2 ∧ st2.pq = [] := by
  intro fuel
  induction fuel with
  | zero => intro st st2 _ h; simp [searchLoop] at h
  | succ n ih =>
    intro st st2 hP h
    by_cases hq : st.pq = []
    · simp only [searchLoop, hq, if_true, Option.some.injEq] at h
      subst h
      exact ⟨hP, hq⟩
    · simp only [searchLoop, hq, if_false] at h
      exact ih _ _ (hstep st hP hq) h

theorem popped_mem (q : List String) (i : Nat) (hq : q ≠ []) :
    q.getD (i % q.length) "" ∈ q := by
  have hlen : 0 < q.length := List.length_pos.mpr hq
  have hi : i % q.length < q.length := Nat.mod_lt _ hlen
  rw [List.getD_eq_getElem _ _ hi]
  exact List.getElem_mem _

theorem relaxEdge_topo (u : String) (st : Search) (e : Edge) :
    (relaxEdge u st e).topo = st.topo := by
  unfold relaxEdge
  simp only []
  split <;> rfl

theorem relaxEdge_pq_subset (u : String) (st : Search) (e : Edge) :
    ∀ x ∈ (relaxEdge u st e).pq, x ∈ st.pq ∨ x = e.dest := by
  intro x hx
  unfold relaxEdge at hx
  simp only [] at hx
  split at hx
  · simpa using hx
  · exact Or.inl hx

theorem neighbors_mapGet_eq (t : Topology) (u : String) :
    (mapGet (mapTouch t u Router.fresh) u Router.fresh).neighbors = neighborsOf t u := by
  rw [mapGet_touch]; rfl

/-- The frontier loop leaves `topology` as it is when every edge leads to a router:
every name on the frontier is then a router. -/
theorem searchStep_topo (pol : PopPolicy) (t : Topology) (hcl : EdgesClosed t) (st : Search)
    (h : st.topo = t ∧ ∀ u ∈ st.pq, mapHas t u = true) (hq : st.pq ≠ []) :
    (searchStep pol st).topo = t ∧ ∀ u ∈ (searchStep pol st).pq, mapHas t u = true := by
  obtain ⟨ht, hpq⟩ := h
  unfold searchStep
  simp only []
  have hu := popped_mem st.pq (pol st.pops st.dist st.pq) hq
  have hut := hpq _ hu
  rw [ht]
  have hes : ∀ e ∈ (mapGet (mapTouch t (st.pq.getD (pol st.pops st.dist st.pq % st.pq.length) "")
      Router.fresh) (st.pq.getD (pol st.pops st.dist st.pq % st.pq.length) "")
      Router.fresh).neighbors, mapHas t e.dest = true := by
    intro e he
    rw [neighbors_mapGet_eq] at he
    exact hcl _ e he
  apply foldl_relaxEdge_induct _ (fun s => s.topo = t ∧ ∀ u ∈ s.pq, mapHas t u = true)
  · intro s e he ⟨h1, h2⟩
    refine ⟨by rw [relaxEdge_topo]; exact h1, ?_⟩
    intro x hx
    rcases relaxEdge_pq_subset _ _ _ x hx with hx | hx
    · exact h2 x hx
    · rw [hx]; exact hes e he
  · refine ⟨mapTouch_of_has _ _ _ hut, ?_⟩
    intro x hx
    exact hpq x (List.mem_of_mem_eraseIdx hx)

theorem search_topo (pol : PopPolicy) (fuel : Nat) (t : Topology) (start : String)
    (hcl : EdgesClosed t) (hs : mapHas t start = true) (st : Search)
    (h : search pol fuel t start = some st) : st.topo = t := by
  unfold search at h
  have := searchLoop_induct pol (fun s => s.topo = t ∧ ∀ u ∈ s.pq, mapHas t u = true)
    (fun s hs hq => searchStep_topo pol t hcl s hs hq) fuel _ _ ?_ h
  · exact this.1.1
  · refine ⟨rfl, ?_⟩
    intro u hu
    simp only [searchStart, List.mem_singleton] at hu
    rw [hu]; exact hs

/-- What the last loop of `dijkstra` leaves unchanged. -/
theorem buildRoutes_frame (prev : List (String × String)) (start : String) (fuel : Nat) :
    ∀ (l : List (String × Int)) (t0 t2 : Topology), mapHas t0 start = true →
      buildRoutes prev start fuel l t0 = some t2 →
      ∀ k, mapHas t2 k = mapHas t0 k ∧ neighborsOf t2 k = neighborsOf t0 k ∧
        lsdbOf t2 k = lsdbOf t0 k ∧ (k ≠ start → routingTable t2 k = routingTable t0 k) := by
  intro l
  induction l with
  | nil =>
    intro t0 t2 _ h k
    simp only [buildRoutes, Option.some.injEq] at h
    subst h
    exact ⟨rfl, rfl, rfl, fun _ => rfl⟩
  | cons p rest ih =>
    obtain ⟨name, d⟩ := p
    intro t0 t2 hs h k
    simp only [buildRoutes] at h
    split at h
    · exact ih t0 t2 hs h k
    · split at h
      · simp at h
      · rename_i hop _
        have hs2 : mapHas (mapModify t0 start Router.fresh (setRoute name hop d)) start = true := by
          rw [mapHas_modify]; simp
        obtain ⟨h1, h2, h3, h4⟩ := ih _ t2 hs2 h k
        refine ⟨?_, ?_, ?_, ?_⟩
        · rw [h1, mapHas_modify]
          by_cases e : start = k
          · subst e; simp [hs]
          · simp [e]
        · rw [h2, neighborsOf_modify]
          by_cases e : start = k
          · subst e; simp [setRoute, neighborsOf]
          · simp [e]
        · rw [h3]; exact lsdbOf_modify _ _ _ (setRoute name hop d) (fun _ => rfl)
        · intro hk
          rw [h4 hk]
          unfold routingTable
          rw [mapGet_modify]
          have : ¬ start = k := fun e => hk e.symm
          simp [this]

/-- The frame of `dijkstra(start)` on a state whose edges all lead to routers: the
routers, the neighbor lists, the LSDBs and the routing tables of the other routers
are unchanged. -/
theorem dijkstra_frame (pol : PopPolicy) (fuel : Nat) (t t2 : Topology) (start : String)
    (hcl : EdgesClosed t) (hs : mapHas t start = true)
    (h : dijkstra pol fuel t start = some t2) :
    ∀ k, mapHas t2 k = mapHas t k ∧ neighborsOf t2 k = neighborsOf t k ∧
      lsdbOf t2 k = lsdbOf t k ∧ (k ≠ start → routingTable t2 k = routingTable t k) := by
  unfold dijkstra at h
  split at h
  · simp at h
  · rename_i st hst
    have htopo := search_topo pol fuel t start hcl hs st hst
    rw [htopo] at h
    have hs2 : mapHas (mapModify t start Router.fresh resetTable) start = true := by
      rw [mapHas_modify]; simp
    intro k
    obtain ⟨h1, h2, h3, h4⟩ := buildRoutes_frame _ _ _ _ _ _ hs2 h k
    refine ⟨?_, ?_, ?_, ?_⟩
    · rw [h1, mapHas_modify]
      by_cases e : start = k
      · subst e; simp [hs]
      · simp [e]
    · rw [h2, neighborsOf_modify]
      by_cases e : start = k
      · subst e; simp [resetTable, neighborsOf]
      · simp [e]
    · rw [h3]; exact lsdbOf_modify _ _ _ resetTable (fun _ => rfl)
    · intro hk
      rw [h4 hk]
      unfold routingTable
      rw [mapGet_modify]
      have : ¬ start = k := fun e => hk e.symm
      simp [this]

/-! ## Invariants of the reachable states -/

theorem neighborsOf_addLink (t : Topology) (a b : String) (c : Int) (r : String) :
    neighborsOf (addLink t a b c) r =
      neighborsOf t r ++ (if a = r then [⟨b, c⟩] else []) ++ (if b = r then [⟨a, c⟩] else []) := by
  unfold addLink
  simp only []
  rw [neighborsOf_forEachRouter (setLink a b c) (fun _ => rfl), neighborsOf_modify]
  by_cases hb : b = r
  · subst hb
    rw [mapGet_modify]
    by_cases ha : a = b
    · subst ha; simp [pushNeighbor, neighborsOf]
    · simp [ha, pushNeighbor, neighborsOf]
  · rw [neighborsOf_modify]
    by_cases ha : a = r
    · subst ha; simp [hb, pushNeighbor, neighborsOf]
    · simp [ha, hb]

theorem mapHas_addLink (t : Topology) (a b : String) (c : Int) (r : String) :
    mapHas (addLink t a b c) r = (decide (a = r) || decide (b = r) || mapHas t r) := by
  unfold addLink
  simp only []
  rw [mapHas_forEachRouter, mapHas_modify, mapHas_modify]
  cases decide (a = r) <;> cases decide (b = r) <;> simp

theorem lsdbOf_addLink (t : Topology) (a b : String) (c : Int) (r : String)
    (hr : mapHas (addLink t a b c) r = true) :
    lsdbOf (addLink t a b c) r = mapAssign (mapAssign (lsdbOf t r) (a, b) c) (b, a) c := by
  unfold addLink at hr ⊢
  simp only [] at hr ⊢
  rw [mapHas_forEachRouter] at hr
  rw [lsdbOf_forEachRouter _ _ _ hr]
  have : lsdbOf (mapModify (mapModify t a Router.fresh (pushNeighbor ⟨b, c⟩)) b Router.fresh
      (pushNeighbor ⟨a, c⟩)) r = lsdbOf t r := by
    rw [lsdbOf_modify _ _ _ (pushNeighbor ⟨a, c⟩) (fun _ => rfl),
      lsdbOf_modify _ _ _ (pushNeighbor ⟨b, c⟩) (fun _ => rfl)]
  simp only [setLink]
  rw [← this]; rfl

theorem declared_empty (names : List String) :
    ∀ t : Topology, (∀ r, neighborsOf t r = [] ∧ lsdbOf t r = [] ∧ routingTable t r = []) →
      ∀ r, neighborsOf (names.foldl declareRouter t) r = [] ∧
        lsdbOf (names.foldl declareRouter t) r = [] ∧
        routingTable (names.foldl declareRouter t) r = [] := by
  induction names with
  | nil => intro t h; exact h
  | cons n rest ih =>
    intro t h
    simp only [List.foldl_cons]
    apply ih
    intro r
    have := h r
    unfold neighborsOf lsdbOf routingTable mapGet declareRouter at *
    rw [mapFind_assign]
    by_cases e : n = r
    · simp [e]
    · simpa [e] using this

/-- The three store invariants, bundled. -/
theorem storeInv_declared (names : List String) :
    EdgesClosed (names.foldl declareRouter []) ∧ LsdbSymmetric (names.foldl declareRouter []) ∧
      LsdbBacked (names.foldl declareRouter []) := by
  have h := declared_empty names [] (by intro r; exact ⟨rfl, rfl, rfl⟩)
  refine ⟨?_, ?_, ?_⟩
  · intro r e he; rw [(h r).1] at he; simp at he
  · intro r X Y; rw [(h r).2.1]; rfl
  · intro r X Y hh; rw [(h r).2.1] at hh; simp [mapHas, mapFind] at hh

theorem pair_swap_eq (a b X Y : String) : ((b, a) = (X, Y)) = ((a, b) = (Y, X)) := by
  simp only [Prod.mk.injEq, eq_iff_iff]
  constructor <;> (rintro ⟨h1, h2⟩; exact ⟨h2, h1⟩)

theorem lsdb_sym_assign (l : List ((String × String) × Int)) (a b : String) (c : Int)
    (h : ∀ X Y, mapFind l (X, Y) = mapFind l (Y, X)) (X Y : String) :
    mapFind (mapAssign (mapAssign l (a, b) c) (b, a) c) (X, Y)
      = mapFind (mapAssign (mapAssign l (a, b) c) (b, a) c) (Y, X) := by
  rw [mapFind_assign, mapFind_assign, mapFind_assign, mapFind_assign, h X Y]
  simp only [pair_swap_eq a b Y X, ← pair_swap_eq a b X Y]
  by_cases h1 : (a, b) = (X, Y) <;> by_cases h2 : (b, a) = (X, Y) <;> simp [h1, h2]

theorem lsdb_sym_erase (l : List ((String × String) × Int)) (a b : String)
    (h : ∀ X Y, mapFind l (X, Y) = mapFind l (Y, X)) (X Y : String) :
    mapFind (mapErase (mapErase l (a, b)) (b, a)) (X, Y)
      = mapFind (mapErase (mapErase l (a, b)) (b, a)) (Y, X) := by
  rw [mapFind_erase, mapFind_erase, mapFind_erase, mapFind_erase, h X Y]
  simp only [pair_swap_eq a b Y X, ← pair_swap_eq a b X Y]
  by_cases h1 : (a, b) = (X, Y) <;> by_cases h2 : (b, a) = (X, Y) <;> simp [h1, h2]

theorem storeInv_addLink (t : Topology) (a b : String) (c : Int)
    (h : EdgesClosed t ∧ LsdbSymmetric t ∧ LsdbBacked t) :
    EdgesClosed (addLink t a b c) ∧ LsdbSymmetric (addLink t a b c) ∧
      LsdbBacked (addLink t a b c) := by
  obtain ⟨h1, h2, h3⟩ := h
  refine ⟨?_, ?_, ?_⟩
  · intro r e he
    rw [neighborsOf_addLink] at he
    rw [mapHas_addLink]
    simp only [List.mem_append] at he
    rcases he with (he | he) | he
    · have := h1 r e he
      simp [this]
    · by_cases e1 : a = r
      · rw [if_pos e1, List.mem_singleton] at he
        subst he; simp
      · simp [e1] at he
    · by_cases e1 : b = r
      · rw [if_pos e1, List.mem_singleton] at he
        subst he; simp
      · simp [e1] at he
  · intro r X Y
    by_cases hr : mapHas (addLink t a b c) r = true
    · rw [lsdbOf_addLink _ _ _ _ _ hr]
      exact lsdb_sym_assign _ a b c (h2 r) X Y
    · rw [lsdbOf_of_not_has _ _ hr]; rfl
  · intro r X Y hh
    by_cases hr : mapHas (addLink t a b c) r = true
    · rw [lsdbOf_addLink _ _ _ _ _ hr, mapHas_assign, mapHas_assign] at hh
      rw [neighborsOf_addLink]
      by_cases k1 : (a, b) = (X, Y)
      · simp only [Prod.mk.injEq] at k1
        refine ⟨⟨b, c⟩, ?_, k1.2⟩
        simp [k1.1]
      · by_cases k2 : (b, a) = (X, Y)
        · simp only [Prod.mk.injEq] at k2
          refine ⟨⟨a, c⟩, ?_, k2.2⟩
          simp [k2.1]
        · simp only [k1, k2, decide_False, Bool.false_or] at hh
          obtain ⟨e, he, hd⟩ := h3 r X Y hh
          exact ⟨e, by simp [he], hd⟩
    · rw [lsdbOf_of_not_has _ _ hr] at hh
      simp [mapHas, mapFind] at hh

theorem mapHas_erase (l : List ((String × String) × Int)) (k k2 : String × String) :
    mapHas (mapErase l k) k2 = (!decide (k = k2) && mapHas l k2) := by
  unfold mapHas
  rw [mapFind_erase]
  by_cases h : k = k2 <;> simp [h]

theorem edge_survives_update (t : Topology) (a b : String) (c : Int) (X : String) (e : Edge)
    (he : e ∈ neighborsOf t X) (k1 : a = X → ¬ e.dest = b) (k2 : b = X → ¬ e.dest = a) :
    e ∈ neighborsOf (updateTopology t a b c) X := by
  rw [neighborsOf_updateTopology]
  simp only [List.mem_append, List.mem_filter]
  left; left
  refine ⟨⟨he, ?_⟩, ?_⟩
  · by_cases e1 : a = X
    · have := k1 e1; simp [this]
    · simp [e1]
  · by_cases e1 : b = X
    · have := k2 e1; simp [this]
    · simp [e1]

theorem storeInv_updateTopology (t : Topology) (a b : String) (c : Int)
    (h : EdgesClosed t ∧ LsdbSymmetric t ∧ LsdbBacked t) :
    EdgesClosed (updateTopology t a b c) ∧ LsdbSymmetric (updateTopology t a b c) ∧
      LsdbBacked (updateTopology t a b c) := by
  obtain ⟨h1, h2, h3⟩ := h
  refine ⟨?_, ?_, ?_⟩
  · intro r e he
    rw [neighborsOf_updateTopology] at he
    rw [mapHas_updateTopology]
    simp only [List.mem_append, List.mem_filter] at he
    rcases he with (he | he) | he
    · have := h1 r e he.1.1
      simp [this]
    · by_cases e1 : c ≠ -1 ∧ a = r
      · rw [if_pos e1, List.mem_singleton] at he
        subst he; simp
      · simp [e1] at he
    · by_cases e1 : c ≠ -1 ∧ b = r
      · rw [if_pos e1, List.mem_singleton] at he
        subst he; simp
      · simp [e1] at he
  · intro r X Y
    by_cases hr : mapHas (updateTopology t a b c) r = true
    · rw [lsdbOf_updateTopology _ _ _ _ _ hr]
      by_cases hc : c = -1
      · simp only [hc, if_true]; exact lsdb_sym_erase _ a b (h2 r) X Y
      · simp only [hc, if_false]; exact lsdb_sym_assign _ a b c (h2 r) X Y
    · rw [lsdbOf_of_not_has _ _ hr]; rfl
  · intro r X Y hh
    by_cases hr : mapHas (updateTopology t a b c) r = true
    · rw [lsdbOf_updateTopology _ _ _ _ _ hr] at hh
      by_cases hc : c = -1
      · simp only [hc, if_true] at hh
        rw [mapHas_erase, mapHas_erase] at hh
        simp only [Bool.and_eq_true, Bool.not_eq_true', decide_eq_false_iff_not] at hh
        obtain ⟨k2, k1, hh⟩ := hh
        obtain ⟨e, he, hd⟩ := h3 r X Y hh
        simp only [Prod.mk.injEq, not_and] at k1 k2
        refine ⟨e, ?_, hd⟩
        rw [hc]
        apply edge_survives_update _ _ _ _ _ _ he
        · intro e1 e2; exact k1 e1 (by rw [← hd, e2])
        · intro e1 e2; exact k2 e1 (by rw [← hd, e2])
      · simp only [hc, if_false] at hh
        rw [mapHas_assign, mapHas_assign] at hh
        by_cases k1 : (a, b) = (X, Y)
        · simp only [Prod.mk.injEq] at k1
          refine ⟨⟨b, c⟩, ?_, k1.2⟩
          rw [neighborsOf_updateTopology]
          simp [k1.1, hc]
        · by_cases k2 : (b, a) = (X, Y)
          · simp only [Prod.mk.injEq] at k2
            refine ⟨⟨a, c⟩, ?_, k2.2⟩
            rw [neighborsOf_updateTopology]
            simp [k2.1, hc]
          · simp only [k1, k2, decide_False, Bool.false_or] at hh
            obtain ⟨e, he, hd⟩ := h3 r X Y hh
            simp only [Prod.mk.injEq, not_and] at k1 k2
            refine ⟨e, ?_, hd⟩
            apply edge_survives_update _ _ _ _ _ _ he
            · intro e1 e2; exact k1 e1 (by rw [← hd, e2])
            · intro e1 e2; exact k2 e1 (by rw [← hd, e2])
    · rw [lsdbOf_of_not_has _ _ hr] at hh
      simp [mapHas, mapFind] at hh

theorem storeInv_dijkstra (pol : PopPolicy) (fuel : Nat) (t t2 : Topology) (start : String)
    (hs : mapHas t start = true) (hd : dijkstra pol fuel t start = some t2)
    (h : EdgesClosed t ∧ LsdbSymmetric t ∧ LsdbBacked t) :
    EdgesClosed t2 ∧ LsdbSymmetric t2 ∧ LsdbBacked t2 := by
  obtain ⟨h1, h2, h3⟩ := h
  have fr := dijkstra_frame pol fuel t t2 start h1 hs hd
  refine ⟨?_, ?_, ?_⟩
  · intro r e he
    rw [(fr r).2.1] at he
    rw [(fr e.dest).1]
    exact h1 r e he
  · intro r X Y
    rw [(fr r).2.2.1]; exact h2 r X Y
  · intro r X Y hh
    rw [(fr r).2.2.1] at hh
    rw [(fr X).2.1]
    exact h3 r X Y hh

theorem storeInv_links (links : List (String × String × Int)) :
    ∀ t : Topology, (EdgesClosed t ∧ LsdbSymmetric t ∧ LsdbBacked t) →
      EdgesClosed (links.foldl (fun t l => addLink t l.1 l.2.1 l.2.2) t) ∧
      LsdbSymmetric (links.foldl (fun t l => addLink t l.1 l.2.1 l.2.2) t) ∧
      LsdbBacked (links.foldl (fun t l => addLink t l.1 l.2.1 l.2.2) t) := by
  induction links with
  | nil => intro t h; exact h
  | cons l rest ih =>
    intro t h
    simp only [List.foldl_cons]
    exact ih _ (storeInv_addLink t _ _ _ h)

/-- Every reachable state has closed edges and symmetric, edge-backed LSDBs. -/
theorem storeInv_of_reachable (t : Topology) (h : Reachable t) :
    EdgesClosed t ∧ LsdbSymmetric t ∧ LsdbBacked t := by
  induction h with
  | init names links =>
    exact storeInv_links links _ (storeInv_declared names)
  | update a b c _ ih => exact storeInv_updateTopology _ a b c ih
  | route pol fuel r _ hr hd ih => exact storeInv_dijkstra pol fuel _ _ r hr hd ih

/-! ## Store properties of the reachable states -/

section EraseLemmas
variable {κ υ : Type} [DecidableEq κ]

theorem mapErase_assign_same (m : List (κ × υ)) (k : κ) (v : υ) :
    mapErase (mapAssign m k v) k = mapErase m k := by
  induction m with
  | nil => simp [mapAssign, mapErase]
  | cons p rest ih =>
    obtain ⟨k1, v1⟩ := p
    simp only [mapErase] at ih
    by_cases h : k1 = k
    · simp [mapAssign, mapErase, h]
    · simp [mapAssign, mapErase, h, ih]

theorem mapErase_assign_other (m : List (κ × υ)) (k k2 : κ) (v : υ) (hne : k ≠ k2) :
    mapErase (mapAssign m k v) k2 = mapAssign (mapErase m k2) k v := by
  induction m with
  | nil => simp [mapAssign, mapErase, hne]
  | cons p rest ih =>
    obtain ⟨k1, v1⟩ := p
    simp only [mapErase] at ih
    by_cases h : k1 = k
    · subst h
      simp [mapAssign, mapErase, hne]
    · by_cases h2 : k1 = k2
      · subst h2
        simp [mapAssign, mapErase, h, ih]
      · simp [mapAssign, mapErase, h, h2, ih]

theorem mapErase_of_not_has (m : List (κ × υ)) (k : κ) (h : mapHas m k = false) :
    mapErase m k = m := by
  induction m with
  | nil => simp [mapErase]
  | cons p rest ih =>
    obtain ⟨k1, v1⟩ := p
    have h1 : ¬ k1 = k := by
      intro e; simp [mapHas, mapFind, e] at h
    have h2 : mapHas rest k = false := by simpa [mapHas, mapFind, h1] using h
    have := ih h2
    simp only [mapErase] at this
    simp [mapErase, h1, this]

end EraseLemmas

theorem lsdb_roundtrip (l : List ((String × String) × Int)) (a b : String) (c : Int)
    (h1 : mapHas l (a, b) = false) (h2 : mapHas l (b, a) = false) :
    mapErase (mapErase (mapAssign (mapAssign l (a, b) c) (b, a) c) (a, b)) (b, a) = l := by
  by_cases e : (b, a) = (a, b)
  · rw [e, mapErase_assign_same, mapErase_assign_same, mapErase_of_not_has _ _ h1,
      mapErase_of_not_has _ _ h1]
  · rw [mapErase_assign_other _ _ _ _ e, mapErase_assign_same, mapErase_assign_same,
      mapErase_of_not_has _ _ h1, mapErase_of_not_has _ _ h2]

theorem lsdb_absent_of_no_edge (t : Topology) (hb : LsdbBacked t) (a b r : String)
    (hno : ∀ e ∈ neighborsOf t a, e.dest ≠ b) : mapHas (lsdbOf t r) (a, b) = false := by
  cases h : mapHas (lsdbOf t r) (a, b)
  · rfl
  · obtain ⟨e, he, hd⟩ := hb r a b h
    exact absurd hd (hno e he)

theorem reachable_of_declared (names : List String) (t : Topology)
    (h : ReachableDeclared names t) : Reachable t := by
  induction h with
  | init links _ => exact Reachable.init names links
  | update a b c _ _ _ ih => exact Reachable.update a b c ih
  | route pol fuel r _ hr hd ih => exact Reachable.route pol fuel r ih hr hd

theorem mapHas_declared (names : List String) :
    ∀ (t : Topology) (r : String),
      mapHas (names.foldl declareRouter t) r = (decide (r ∈ names) || mapHas t r) := by
  induction names with
  | nil => intro t r; simp
  | cons n rest ih =>
    intro t r
    simp only [List.foldl_cons]
    rw [ih, declareRouter, mapHas_assign]
    by_cases h1 : r ∈ rest <;> by_cases h2 : n = r <;> simp [h1, h2, eq_comm]

/-- With every name declared, the routers are the declared names and all of them
hold the same LSDB. -/
theorem declared_lsdb_equal (names : List String) (t : Topology)
    (h : ReachableDeclared names t) :
    (∀ r, mapHas t r = decide (r ∈ names)) ∧
      ∀ r1 r2, mapHas t r1 = true → mapHas t r2 = true → lsdbOf t r1 = lsdbOf t r2 := by
  induction h with
  | init links hl =>
    unfold readTopology
    have base : (∀ r, mapHas (names.foldl declareRouter []) r = decide (r ∈ names)) ∧
        ∀ r1 r2, mapHas (names.foldl declareRouter []) r1 = true →
          mapHas (names.foldl declareRouter []) r2 = true →
          lsdbOf (names.foldl declareRouter []) r1 = lsdbOf (names.foldl declareRouter []) r2 := by
      refine ⟨fun r => by rw [mapHas_declared]; simp [mapHas, mapFind], ?_⟩
      intro r1 r2 _ _
      have := declared_empty names [] (by intro r; exact ⟨rfl, rfl, rfl⟩)
      rw [(this r1).2.1, (this r2).2.1]
    revert base
    generalize names.foldl declareRouter [] = t0
    induction links generalizing t0 with
    | nil => intro base; exact base
    | cons l rest ih =>
      intro base
      simp only [List.foldl_cons]
      apply ih
      · intro l2 hl2; exact hl l2 (List.mem_cons_of_mem _ hl2)
      · obtain ⟨m1, m2⟩ := hl l (List.mem_cons_self _ _)
        obtain ⟨b1, b2⟩ := base
        have hh : ∀ r, mapHas (addLink t0 l.1 l.2.1 l.2.2) r = mapHas t0 r := by
          intro r
          rw [mapHas_addLink, b1]
          by_cases e1 : l.1 = r
          · subst e1; simp [m1]
          · by_cases e2 : l.2.1 = r
            · subst e2; simp [m2]
            · simp [e1, e2]
        refine ⟨fun r => by rw [hh, b1], ?_⟩
        intro r1 r2 h1 h2
        rw [lsdbOf_addLink _ _ _ _ _ h1, lsdbOf_addLink _ _ _ _ _ h2]
        rw [hh] at h1 h2
        rw [b2 r1 r2 h1 h2]
  | @update t0 a b c _ m1 m2 ih =>
    obtain ⟨b1, b2⟩ := ih
    have hh : ∀ r, mapHas (updateTopology t0 a b c) r = mapHas t0 r := by
      intro r
      rw [mapHas_updateTopology, b1]
      by_cases e1 : a = r
      · subst e1; simp [m1]
      · by_cases e2 : b = r
        · subst e2; simp [m2]
        · simp [e1, e2]
    refine ⟨fun r => by rw [hh, b1], ?_⟩
    intro r1 r2 h1 h2
    rw [lsdbOf_updateTopology _ _ _ _ _ h1, lsdbOf_updateTopology _ _ _ _ _ h2]
    rw [hh] at h1 h2
    rw [b2 r1 r2 h1 h2]
  | @route t0 t2 pol fuel r hprev hr hd ih =>
    obtain ⟨b1, b2⟩ := ih
    have hcl := (storeInv_of_reachable _ (reachable_of_declared names _ hprev)).1
    have fr := dijkstra_frame pol fuel _ _ r hcl hr hd
    refine ⟨fun x => by rw [(fr x).1, b1], ?_⟩
    intro r1 r2 h1 h2
    rw [(fr r1).1] at h1
    rw [(fr r2).1] at h2
    rw [(fr r1).2.2.1, (fr r2).2.2.1]
    exact b2 r1 r2 h1 h2

/-! ## Arithmetic and map facts used by the search -/

theorem wrapInt_of_range (x : Int) (h1 : -2147483648 ≤ x) (h2 : x < 2147483648) :
    wrapInt x = x := by
  unfold wrapInt; omega

section MapFacts
variable {κ υ : Type} [DecidableEq κ]

theorem mapGet_assign (m : List (κ × υ)) (k k2 : κ) (v d : υ) :
    mapGet (mapAssign m k v) k2 d = if k = k2 then v else mapGet m k2 d := by
  unfold mapGet
  rw [mapFind_assign]
  by_cases h : k = k2 <;> simp [h]

theorem length_mapAssign_le (m : List (κ × υ)) (k : κ) (v : υ) :
    (mapAssign m k v).length ≤ m.length + 1 := by
  induction m with
  | nil => simp [mapAssign]
  | cons p rest ih =>
    obtain ⟨k1, v1⟩ := p
    by_cases h1 : k1 = k
    · simp [mapAssign, h1]
    · simp [mapAssign, h1]; omega

theorem mem_mapAssign (m : List (κ × υ)) (k : κ) (v : υ) (p : κ × υ)
    (h : p ∈ mapAssign m k v) : p ∈ m ∨ p = (k, v) := by
  induction m with
  | nil => simp [mapAssign] at h; exact Or.inr h
  | cons q rest ih =>
    obtain ⟨k1, v1⟩ := q
    by_cases h1 : k1 = k
    · simp only [mapAssign, h1, if_true, List.mem_cons] at h
      rcases h with h | h
      · exact Or.inr h
      · exact Or.inl (List.mem_cons_of_mem _ h)
    · simp only [mapAssign, h1, if_false, List.mem_cons] at h
      rcases h with h | h
      · exact Or.inl (h ▸ List.mem_cons_self _ _)
      · rcases ih h with h2 | h2
        · exact Or.inl (List.mem_cons_of_mem _ h2)
        · exact Or.inr h2

theorem mapHas_iff_mem_keys (m : List (κ × υ)) (k : κ) :
    mapHas m k = true ↔ k ∈ m.map Prod.fst := by
  induction m with
  | nil => simp [mapHas, mapFind]
  | cons p rest ih =>
    obtain ⟨k1, v1⟩ := p
    by_cases h1 : k1 = k
    · simp [mapHas, mapFind, h1]
    · have : ¬ k = k1 := fun e => h1 e.symm
      simp only [mapHas, mapFind, h1, if_false, List.map_cons, List.mem_cons, this, false_or]
      exact ih

theorem nodup_keys_mapAssign (m : List (κ × υ)) (k : κ) (v : υ)
    (h : (m.map Prod.fst).Nodup) : ((mapAssign m k v).map Prod.fst).Nodup := by
  induction m with
  | nil => simp [mapAssign]
  | cons p rest ih =>
    obtain ⟨k1, v1⟩ := p
    simp only [List.map_cons, List.nodup_cons] at h
    by_cases h1 : k1 = k
    · simp only [mapAssign, h1, if_true, List.map_cons, List.nodup_cons]
      rw [← h1]; exact h
    · simp only [mapAssign, h1, if_false, List.map_cons, List.nodup_cons]
      refine ⟨?_, ih h.2⟩
      intro hm
      rw [← mapHas_iff_mem_keys, mapHas_assign] at hm
      have : ¬ k = k1 := fun e => h1 e.symm
      simp only [this, decide_False, Bool.false_or] at hm
      rw [mapHas_iff_mem_keys] at hm
      exact h.1 hm

theorem mapFind_of_mem_nodup (m : List (κ × υ)) (k : κ) (v : υ)
    (h : (m.map Prod.fst).Nodup) (hm : (k, v) ∈ m) : mapFind m k = some v := by
  induction m with
  | nil => simp at hm
  | cons p rest ih =>
    obtain ⟨k1, v1⟩ := p
    simp only [List.map_cons, List.nodup_cons] at h
    simp only [List.mem_cons, Prod.mk.injEq] at hm
    rcases hm with ⟨e1, e2⟩ | hm
    · simp [mapFind, e1, e2]
    · have : ¬ k1 = k := by
        intro e
        apply h.1
        rw [e]
        exact List.mem_map_of_mem Prod.fst hm
      simp [mapFind, this, ih h.2 hm]

theorem mem_of_mapFind (m : List (κ × υ)) (k : κ) (v : υ) (h : mapFind m k = some v) :
    (k, v) ∈ m := by
  induction m with
  | nil => simp [mapFind] at h
  | cons p rest ih =>
    obtain ⟨k1, v1⟩ := p
    by_cases h1 : k1 = k
    · simp only [mapFind, h1, if_true, Option.some.injEq] at h
      simp [h1, h]
    · simp only [mapFind, h1, if_false] at h
      exact List.mem_cons_of_mem _ (ih h)

end MapFacts

theorem distSum_assign (m : List (String × Int)) (k : String) (v old : Int)
    (h : mapFind m k = some old) :
    distSum (mapAssign m k v) = distSum m - old + v := by
  induction m with
  | nil => simp [mapFind] at h
  | cons p rest ih =>
    obtain ⟨k1, v1⟩ := p
    by_cases h1 : k1 = k
    · simp only [mapFind, h1, if_true, Option.some.injEq] at h
      subst h
      simp only [mapAssign, h1, if_true, distSum, List.map_cons, List.sum_cons]
      ring
    · simp only [mapFind, h1, if_false] at h
      have := ih h
      unfold distSum at this ⊢
      simp only [mapAssign, h1, if_false, List.map_cons, List.sum_cons, this]
      ring

theorem distSum_nonneg (m : List (String × Int)) (h : ∀ p ∈ m, 0 ≤ p.2) : 0 ≤ distSum m := by
  induction m with
  | nil => simp [distSum]
  | cons p rest ih =>
    have h1 := h p (List.mem_cons_self _ _)
    have h2 := ih (fun q hq => h q (List.mem_cons_of_mem _ hq))
    unfold distSum at h2 ⊢
    simp only [List.map_cons, List.sum_cons]
    omega

/-! ## The initial maps of `dijkstra` -/

theorem initDist_fold (t : Topology) :
    ∀ acc : List (String × Int),
      (∀ k, mapFind (t.foldl (fun d p => mapAssign d p.1 INT_MAX) acc) k
        = if mapHas t k then some INT_MAX else mapFind acc k) ∧
      (t.foldl (fun d p => mapAssign d p.1 INT_MAX) acc).length ≤ acc.length + t.length ∧
      ((acc.map Prod.fst).Nodup →
        ((t.foldl (fun d p => mapAssign d p.1 INT_MAX) acc).map Prod.fst).Nodup) ∧
      (∀ q ∈ t.foldl (fun d p => mapAssign d p.1 INT_MAX) acc, q ∈ acc ∨ q.2 = INT_MAX) := by
  induction t with
  | nil =>
    intro acc
    refine ⟨fun k => by simp [mapHas, mapFind], by simp, fun h => h, fun q hq => Or.inl hq⟩
  | cons p rest ih =>
    intro acc
    obtain ⟨k1, r1⟩ := p
    simp only [List.foldl_cons]
    obtain ⟨i1, i2, i3, i4⟩ := ih (mapAssign acc k1 INT_MAX)
    refine ⟨?_, ?_, ?_, ?_⟩
    · intro k
      rw [i1, mapFind_assign]
      by_cases e : k1 = k
      · simp [mapHas, mapFind, e]
      · simp [mapHas, mapFind, e]
    · have := length_mapAssign_le acc k1 INT_MAX
      simp only [List.length_cons]
      omega
    · intro hn; exact i3 (nodup_keys_mapAssign _ _ _ hn)
    · intro q hq
      rcases i4 q hq with h | h
      · rcases mem_mapAssign _ _ _ _ h with h2 | h2
        · exact Or.inl h2
        · right; rw [h2]
      · exact Or.inr h

theorem initPrev_fold (t : Topology) :
    ∀ acc : List (String × String), (∀ k, mapGet acc k "" = "") →
      ∀ k, mapGet (t.foldl (fun d p => mapAssign d p.1 "") acc) k "" = "" := by
  induction t with
  | nil => intro acc h; exact h
  | cons p rest ih =>
    intro acc h
    simp only [List.foldl_cons]
    apply ih
    intro k
    rw [mapGet_assign]
    by_cases e : p.1 = k <;> simp [e, h k]

theorem mapGet_initPrev (t : Topology) (k : String) : mapGet (initPrev t) k "" = "" :=
  initPrev_fold t [] (fun _ => rfl) k

/-! ## One relaxation -/

theorem dist_nonneg (m : List (String × Int)) (h : ∀ p ∈ m, 0 ≤ p.2) (k : String) :
    0 ≤ mapGet m k 0 := by
  unfold mapGet
  cases hf : mapFind m k with
  | none => simp
  | some v => exact h _ (mem_of_mapFind m k v hf)

theorem mapFind_of_has (m : List (String × Int)) (k : String) (h : mapHas m k = true) :
    mapFind m k = some (mapGet m k 0) := by
  unfold mapHas at h
  unfold mapGet
  cases hf : mapFind m k with
  | none => simp [hf] at h
  | some v => simp

/-- A finite distance plus the cost of an edge of that router stays below `INT_MAX`. -/
theorem dist_add_cost_lt {t : Topology} {start : String} {cur : Option String}
    {st : Search} (ctx : SearchCtx t start) (inv : SearchInv t start cur st)
    (u : String) (hu : mapHas t u = true) (hfin : mapGet st.dist u 0 ≠ INT_MAX)
    (e : Edge) (he : e ∈ neighborsOf t u) :
    mapGet st.dist u 0 + e.cost < INT_MAX := by
  obtain ⟨es, w1, w2, w3, w4, _⟩ := inv.sound u hu hfin
  have := ctx.bound es w1 w4 e (by rw [w2]; exact he)
  rw [w3] at this
  exact this

/-- Under the invariant, relaxing an edge of `u` either changes nothing or gives
`improved`. -/
theorem relaxEdge_eq {t : Topology} {start : String} {cur : Option String}
    {st : Search} (ctx : SearchCtx t start) (inv : SearchInv t start cur st)
    (u : String) (hu : mapHas t u = true) (hfin : mapGet st.dist u 0 ≠ INT_MAX)
    (e : Edge) (he : e ∈ neighborsOf t u) :
    relaxEdge u st e =
      if mapGet st.dist u 0 + e.cost < mapGet st.dist e.dest 0 then improved u st e else st := by
  have hv : mapHas t e.dest = true := ctx.closed u e he
  have hc := ctx.cost u e he
  have hr := dist_add_cost_lt ctx inv u hu hfin e he
  have h0 := dist_nonneg st.dist inv.nonneg u
  have hw : wrapInt (mapGet st.dist u 0 + e.cost) = mapGet st.dist u 0 + e.cost := by
    apply wrapInt_of_range
    · omega
    · simp only [INT_MAX] at hr; omega
  have t1 : mapTouch st.dist u 0 = st.dist :=
    mapTouch_of_has _ _ _ (by rw [inv.keys]; exact hu)
  have t2 : mapTouch st.dist e.dest 0 = st.dist :=
    mapTouch_of_has _ _ _ (by rw [inv.keys]; exact hv)
  unfold relaxEdge improved
  simp only [t1, t2, hw]

theorem prevChain_below {t : Topology} {start : String} {cur : Option String}
    {st : Search} (ctx : SearchCtx t start) (inv : SearchInv t start cur st)
    (v w : String) (bnd : Int) (hb : bnd < mapGet st.dist v 0) (x : String)
    (hch : PrevChain st.prev start x) :
    mapHas t x = true → mapGet st.dist x 0 ≠ INT_MAX → mapGet st.dist x 0 ≤ bnd →
      PrevChain (mapAssign st.prev v w) start x := by
  induction hch with
  | here => intro _ _ _; exact PrevChain.here
  | step x hx _ ih =>
    intro hx1 hx2 hx3
    obtain ⟨p1, p2, e2, he2, _, hle⟩ := inv.pedge x hx1 hx2 hx
    have hc2 := ctx.cost _ e2 he2
    have hne : ¬ v = x := by
      intro e; rw [e] at hb; omega
    apply PrevChain.step x hx
    rw [mapGet_assign]
    simp only [hne, if_false]
    exact ih p1 p2 (by omega)

theorem prevChain_assign {t : Topology} {start : String} {cur : Option String}
    {st : Search} (inv : SearchInv t start cur st)
    (v w : String) (hw : PrevChain (mapAssign st.prev v w) start w) (x : String)
    (hch : PrevChain st.prev start x) :
    mapHas t x = true → mapGet st.dist x 0 ≠ INT_MAX →
      PrevChain (mapAssign st.prev v w) start x := by
  induction hch with
  | here => intro _ _; exact PrevChain.here
  | step x hx _ ih =>
    intro hx1 hx2
    obtain ⟨p1, p2, _⟩ := inv.pedge x hx1 hx2 hx
    apply PrevChain.step x hx
    rw [mapGet_assign]
    by_cases hne : v = x
    · rw [if_pos hne]; exact hw
    · rw [if_neg hne]; exact ih p1 p2

theorem isWalk_append (t : Topology) (es : List Edge) (e : Edge) :
    ∀ s, isWalk t s es = true → e ∈ neighborsOf t (walkEnd s es) →
      isWalk t s (es ++ [e]) = true ∧ walkEnd s (es ++ [e]) = e.dest := by
  induction es with
  | nil => intro s _ h; simp [isWalk, walkEnd] at h ⊢; exact h
  | cons a rest ih =>
    intro s h1 h2
    simp only [isWalk, Bool.and_eq_true, decide_eq_true_eq] at h1
    simp only [walkEnd] at h2
    have := ih a.dest h1.2 h2
    simp only [List.cons_append, isWalk, Bool.and_eq_true, decide_eq_true_eq, walkEnd]
    exact ⟨⟨h1.1, this.1⟩, this.2⟩

theorem walkCost_append (es : List Edge) (e : Edge) :
    walkCost (es ++ [e]) = walkCost es + e.cost := by
  simp [walkCost]

/-- A successful relaxation keeps the invariant. -/
theorem improved_inv {t : Topology} {start : String} {st : Search}
    (ctx : SearchCtx t start) (u : String) (inv : SearchInv t start (some u) st)
    (hu : mapHas t u = true) (hfin : mapGet st.dist u 0 ≠ INT_MAX)
    (e : Edge) (he : e ∈ neighborsOf t u)
    (hlt : mapGet st.dist u 0 + e.cost < mapGet st.dist e.dest 0) :
    SearchInv t start (some u) (improved u st e) := by
  have hv : mapHas t e.dest = true := ctx.closed u e he
  have hc := ctx.cost u e he
  have hr := dist_add_cost_lt ctx inv u hu hfin e he
  have h0 := dist_nonneg st.dist inv.nonneg u
  have hvd : mapHas st.dist e.dest = true := by rw [inv.keys]; exact hv
  have hvu : ¬ e.dest = u := by
    intro h; rw [h] at hlt; omega
  have hvs : ¬ e.dest = start := by
    intro h; rw [h, inv.start0] at hlt; omega
  have hD : ∀ x, mapGet (improved u st e).dist x 0
      = if e.dest = x then mapGet st.dist u 0 + e.cost else mapGet st.dist x 0 := by
    intro x; simp only [improved]; rw [mapGet_assign]
  have hP : ∀ x, mapGet (improved u st e).prev x ""
      = if e.dest = x then u else mapGet st.prev x "" := by
    intro x; simp only [improved]; rw [mapGet_assign]
  have hmono : ∀ x, mapGet (improved u st e).dist x 0 ≤ mapGet st.dist x 0 := by
    intro x; rw [hD]
    by_cases h : e.dest = x
    · simp only [h, if_true]; rw [← h]; omega
    · simp only [h, if_false]; exact le_refl _
  have hfinx : ∀ x, mapHas t x = true → mapGet st.dist x 0 ≠ INT_MAX →
      mapGet (improved u st e).dist x 0 ≠ INT_MAX := by
    intro x _ hx; rw [hD]
    by_cases h : e.dest = x
    · simp only [h, if_true]; omega
    · simp only [h, if_false]; exact hx
  have hDu : mapGet (improved u st e).dist u 0 = mapGet st.dist u 0 := by
    rw [hD]; simp [hvu]
  have hchu : PrevChain (mapAssign st.prev e.dest u) start u :=
    prevChain_below ctx inv e.dest u (mapGet st.dist u 0) (by omega) u
      (inv.chain u hu hfin) hu hfin (le_refl _)
  refine
    { topo := inv.topo
      keys := ?_
      nodup := ?_
      nonneg := ?_
      pq_has := ?_
      pq_fin := ?_
      start0 := ?_
      sound := ?_
      closed := ?_
      pedge := ?_
      chain := ?_ }
  · intro k
    simp only [improved]
    rw [mapHas_assign, inv.keys]
    by_cases h : e.dest = k
    · rw [← h, hv]; simp
    · simp [h]
  · simp only [improved]
    exact nodup_keys_mapAssign _ _ _ inv.nodup
  · intro p hp
    simp only [improved] at hp
    rcases mem_mapAssign _ _ _ _ hp with h | h
    · exact inv.nonneg p h
    · rw [h]; simp only; omega
  · intro x hx
    simp only [improved, List.mem_append, List.mem_singleton] at hx
    rcases hx with hx | hx
    · exact inv.pq_has x hx
    · rw [hx]; exact hv
  · intro x hx
    simp only [improved, List.mem_append, List.mem_singleton] at hx
    rcases hx with hx | hx
    · exact hfinx x (inv.pq_has x hx) (inv.pq_fin x hx)
    · rw [hx, hD]; simp only [if_true]; omega
  · rw [hD]; simp only [hvs, if_false]; exact inv.start0
  · intro x hx1 hx2
    by_cases h : e.dest = x
    · obtain ⟨es, w1, w2, w3, w4, w5⟩ := inv.sound u hu hfin
      have he2 : e ∈ neighborsOf t (walkEnd start es) := by rw [w2]; exact he
      obtain ⟨a1, a2⟩ := isWalk_append t es e start w1 he2
      have hnodes : walkNodes start (es ++ [e]) = walkNodes start es ++ [e.dest] := by
        simp [walkNodes]
      have hnot : e.dest ∉ walkNodes start es := by
        intro hm
        have := w5 e.dest hm
        omega
      refine ⟨es ++ [e], a1, by rw [a2, h], ?_, ?_, ?_⟩
      · rw [walkCost_append, w3, hD]; simp [h]
      · rw [hnodes, List.nodup_append]
        refine ⟨w4, by simp, ?_⟩
        intro y hy1 hy2
        simp only [List.mem_singleton] at hy2
        rw [hy2] at hy1
        exact hnot hy1
      · intro y hy
        rw [hnodes, List.mem_append, List.mem_singleton] at hy
        rw [hD x]; simp only [h, if_true]
        rcases hy with hy | hy
        · have := w5 y hy
          have := hmono y
          omega
        · rw [hy, hD]; simp
    · rw [hD] at hx2; simp only [h, if_false] at hx2
      obtain ⟨es, w1, w2, w3, w4, w5⟩ := inv.sound x hx1 hx2
      refine ⟨es, w1, w2, ?_, w4, ?_⟩
      · rw [hD]; simp only [h, if_false]; exact w3
      · intro y hy
        have := w5 y hy
        have := hmono y
        rw [hD x]; simp only [h, if_false]
        omega
  · intro x hx1 hx2 hx3 hx4 e2 he2
    simp only [improved, List.mem_append, List.mem_singleton, not_or] at hx3
    have hxv : ¬ e.dest = x := fun h => hx3.2 h.symm
    rw [hD] at hx2; simp only [hxv, if_false] at hx2
    have := inv.closed x hx1 hx2 hx3.1 hx4 e2 he2
    have := hmono e2.dest
    rw [hD x]; simp only [hxv, if_false]
    omega
  · intro x hx1 hx2 hx3
    by_cases h : e.dest = x
    · rw [hP]; simp only [h, if_true]
      refine ⟨hu, by rw [hDu]; exact hfin, e, he, h, ?_⟩
      rw [hDu, hD]; simp [h]
    · rw [hD] at hx2; simp only [h, if_false] at hx2
      obtain ⟨p1, p2, e2, q1, q2, q3⟩ := inv.pedge x hx1 hx2 hx3
      rw [hP]; simp only [h, if_false]
      refine ⟨p1, hfinx _ p1 p2, e2, q1, q2, ?_⟩
      have := hmono (mapGet st.prev x "")
      rw [hD x]; simp only [h, if_false]
      omega
  · intro x hx1 hx2
    simp only [improved]
    by_cases h : e.dest = x
    · rw [← h]
      apply PrevChain.step e.dest hvs
      rw [mapGet_assign]; simp only [if_true]
      exact hchu
    · rw [hD] at hx2; simp only [h, if_false] at hx2
      exact prevChain_assign inv e.dest u hchu x (inv.chain x hx1 hx2) hx1 hx2

/-! ## The frontier loop -/

theorem relaxEdge_step {t : Topology} {start : String} {st : Search}
    (ctx : SearchCtx t start) (u : String) (inv : SearchInv t start (some u) st)
    (hu : mapHas t u = true) (hfin : mapGet st.dist u 0 ≠ INT_MAX)
    (e : Edge) (he : e ∈ neighborsOf t u) :
    SearchInv t start (some u) (relaxEdge u st e) ∧
    mapGet (relaxEdge u st e).dist u 0 = mapGet st.dist u 0 ∧
    (∀ x, mapGet (relaxEdge u st e).dist x 0 ≤ mapGet st.dist x 0) ∧
    mapGet (relaxEdge u st e).dist e.dest 0 ≤ mapGet st.dist u 0 + e.cost ∧
    searchMeasure (relaxEdge u st e) ≤ searchMeasure st := by
  rw [relaxEdge_eq ctx inv u hu hfin e he]
  by_cases hlt : mapGet st.dist u 0 + e.cost < mapGet st.dist e.dest 0
  · rw [if_pos hlt]
    have hc := ctx.cost u e he
    have hvu : ¬ e.dest = u := by
      intro h; rw [h] at hlt; omega
    have hvd : mapHas st.dist e.dest = true := by
      rw [inv.keys]; exact ctx.closed u e he
    have hD : ∀ x, mapGet (improved u st e).dist x 0
        = if e.dest = x then mapGet st.dist u 0 + e.cost else mapGet st.dist x 0 := by
      intro x; simp only [improved]; rw [mapGet_assign]
    refine ⟨improved_inv ctx u inv hu hfin e he hlt, ?_, ?_, ?_, ?_⟩
    · rw [hD]; simp [hvu]
    · intro x; rw [hD]
      by_cases h : e.dest = x
      · simp only [h, if_true]; rw [← h]; omega
      · simp only [h, if_false]; exact le_refl _
    · rw [hD]; simp
    · unfold searchMeasure
      simp only [improved]
      rw [distSum_assign _ _ _ _ (mapFind_of_has st.dist e.dest hvd)]
      simp only [List.length_append, List.length_singleton, Nat.cast_add, Nat.cast_one]
      omega
  · rw [if_neg hlt]
    exact ⟨inv, rfl, fun _ => le_refl _, by omega, le_refl _⟩

/-- Relaxing a list of edges of `u`, one after the other. -/
theorem relaxAll {t : Topology} {start : String}
    (ctx : SearchCtx t start) (u : String) (hu : mapHas t u = true) :
    ∀ (es : List Edge) (st : Search), (∀ e ∈ es, e ∈ neighborsOf t u) →
      SearchInv t start (some u) st → mapGet st.dist u 0 ≠ INT_MAX →
      SearchInv t start (some u) (es.foldl (relaxEdge u) st) ∧
      mapGet (es.foldl (relaxEdge u) st).dist u 0 = mapGet st.dist u 0 ∧
      (∀ x, mapGet (es.foldl (relaxEdge u) st).dist x 0 ≤ mapGet st.dist x 0) ∧
      (∀ e ∈ es, mapGet (es.foldl (relaxEdge u) st).dist e.dest 0
        ≤ mapGet st.dist u 0 + e.cost) ∧
      searchMeasure (es.foldl (relaxEdge u) st) ≤ searchMeasure st := by
  intro es
  induction es with
  | nil =>
    intro st _ inv _
    exact ⟨inv, rfl, fun _ => le_refl _, fun e he => by simp at he, le_refl _⟩
  | cons e rest ih =>
    intro st hes inv hfin
    simp only [List.foldl_cons]
    obtain ⟨i1, i2, i3, i4, i5⟩ :=
      relaxEdge_step ctx u inv hu hfin e (hes e (List.mem_cons_self _ _))
    obtain ⟨j1, j2, j3, j4, j5⟩ := ih (relaxEdge u st e)
      (fun e2 h2 => hes e2 (List.mem_cons_of_mem _ h2)) i1 (by rw [i2]; exact hfin)
    refine ⟨j1, by rw [j2, i2], fun x => le_trans (j3 x) (i3 x), ?_, le_trans j5 i5⟩
    intro e2 he2
    simp only [List.mem_cons] at he2
    rcases he2 with h | h
    · rw [h]; exact le_trans (j3 _) i4
    · have := j4 e2 h; rw [i2] at this; exact this

theorem mem_eraseIdx_of_ne (q : List String) (i : Nat) (hi : i < q.length) (x : String)
    (hx : x ∈ q) (hne : x ≠ q[i]) : x ∈ q.eraseIdx i := by
  rw [List.mem_eraseIdx_iff_getElem]
  obtain ⟨j, hj, hjx⟩ := List.getElem_of_mem hx
  refine ⟨j, hj, ?_, hjx⟩
  intro e
  subst e
  exact hne hjx.symm

/-- One iteration of the frontier loop keeps the invariant and lowers the measure. -/
theorem searchStep_inv {t : Topology} {start : String}
    (ctx : SearchCtx t start) (pol : PopPolicy) (st : Search)
    (inv : SearchInv t start none st) (hq : st.pq ≠ []) :
    SearchInv t start none (searchStep pol st) ∧
      searchMeasure (searchStep pol st) ≤ searchMeasure st - 1 := by
  have hlen : 0 < st.pq.length := List.length_pos.mpr hq
  have hi : pol st.pops st.dist st.pq % st.pq.length < st.pq.length := Nat.mod_lt _ hlen
  have hmem := popped_mem st.pq (pol st.pops st.dist st.pq) hq
  have hget : st.pq.getD (pol st.pops st.dist st.pq % st.pq.length) ""
      = st.pq[pol st.pops st.dist st.pq % st.pq.length] := List.getD_eq_getElem _ _ hi
  unfold searchStep
  simp only []
  generalize hu0 : st.pq.getD (pol st.pops st.dist st.pq % st.pq.length) "" = u at hmem hget
  have hu : mapHas t u = true := inv.pq_has u hmem
  have hfin : mapGet st.dist u 0 ≠ INT_MAX := inv.pq_fin u hmem
  have ht1 : mapTouch st.topo u Router.fresh = t := by
    rw [inv.topo]; exact mapTouch_of_has _ _ _ hu
  have hnb : (mapGet (mapTouch st.topo u Router.fresh) u Router.fresh).neighbors
      = neighborsOf t u := by
    rw [ht1]; rfl
  rw [hnb, ht1]
  have inv0 : SearchInv t start (some u)
      { st with topo := t, pq := st.pq.eraseIdx (pol st.pops st.dist st.pq % st.pq.length),
                pops := st.pops + 1 } :=
    { topo := rfl
      keys := inv.keys
      nodup := inv.nodup
      nonneg := inv.nonneg
      pq_has := fun x hx => inv.pq_has x (List.mem_of_mem_eraseIdx hx)
      pq_fin := fun x hx => inv.pq_fin x (List.mem_of_mem_eraseIdx hx)
      start0 := inv.start0
      sound := inv.sound
      closed := by
        intro x hx1 hx2 hx3 hx4 e he
        have hxu : x ≠ u := fun h => hx4 (by rw [h])
        have hx5 : x ∉ st.pq := by
          intro hx
          apply hx3
          apply mem_eraseIdx_of_ne _ _ hi x hx
          rw [← hget]; exact hxu
        exact inv.closed x hx1 hx2 hx5 (by simp) e he
      pedge := inv.pedge
      chain := inv.chain }
  obtain ⟨j1, j2, _, j4, j5⟩ := relaxAll ctx u hu (neighborsOf t u) _ (fun e he => he) inv0 hfin
  constructor
  · exact
      { topo := j1.topo
        keys := j1.keys
        nodup := j1.nodup
        nonneg := j1.nonneg
        pq_has := j1.pq_has
        pq_fin := j1.pq_fin
        start0 := j1.start0
        sound := j1.sound
        closed := by
          intro x hx1 hx2 hx3 _ e he
          by_cases hxu : x = u
          · subst hxu
            have := j4 e he
            rw [j2]; exact this
          · exact j1.closed x hx1 hx2 hx3 (by simpa using hxu) e he
        pedge := j1.pedge
        chain := j1.chain }
  · refine le_trans j5 ?_
    unfold searchMeasure
    simp only []
    rw [List.length_eraseIdx_of_lt hi]
    have : (st.pq.length - 1 : Nat) = (st.pq.length : Int) - 1 := by omega
    rw [this]
    omega

/-- The state with which the loop begins satisfies the invariant. -/
theorem searchStart_inv {t : Topology} {start : String}
    (ctx : SearchCtx t start) : SearchInv t start none (searchStart t start) := by
  obtain ⟨f1, f2, f3, f4⟩ := initDist_fold t []
  have hf : ∀ k, mapFind (initDist t) k = if mapHas t k then some INT_MAX else none := by
    intro k; have := f1 k; simpa [mapFind] using this
  have hhas : mapHas (initDist t) start = true := by
    unfold mapHas; rw [hf]; simp [ctx.hstart]
  have hD : ∀ x, mapGet (searchStart t start).dist x 0
      = if start = x then 0 else if mapHas t x then INT_MAX else 0 := by
    intro x
    simp only [searchStart]
    rw [mapGet_assign]
    by_cases h : start = x
    · simp [h]
    · simp only [h, if_false, mapGet, hf]
      by_cases h2 : mapHas t x = true <;> simp [h2]
  have honly : ∀ x, mapHas t x = true → mapGet (searchStart t start).dist x 0 ≠ INT_MAX →
      x = start := by
    intro x hx1 hx2
    rw [hD] at hx2
    by_cases h : start = x
    · exact h.symm
    · simp [h, hx1] at hx2
  exact
    { topo := rfl
      keys := by
        intro k
        simp only [searchStart]
        rw [mapHas_assign]
        by_cases h : start = k
        · rw [← h, ctx.hstart]; simp
        · simp only [h, decide_False, Bool.false_or, mapHas, hf]
          by_cases h2 : (mapFind t k).isSome = true <;> simp [h2, mapHas]
      nodup := by
        simp only [searchStart]
        exact nodup_keys_mapAssign _ _ _ (f3 (by simp))
      nonneg := by
        intro p hp
        simp only [searchStart] at hp
        rcases mem_mapAssign _ _ _ _ hp with h | h
        · rcases f4 p h with h2 | h2
          · simp at h2
          · rw [h2]; decide
        · rw [h]
      pq_has := by
        intro x hx
        simp only [searchStart, List.mem_singleton] at hx
        rw [hx]; exact ctx.hstart
      pq_fin := by
        intro x hx
        simp only [searchStart, List.mem_singleton] at hx
        rw [hx, hD]; simp
      start0 := by rw [hD]; simp
      sound := by
        intro x hx1 hx2
        have := honly x hx1 hx2
        subst this
        refine ⟨[], rfl, rfl, ?_, by simp [walkNodes], ?_⟩
        · rw [hD]; simp [walkCost]
        · intro y hy
          simp only [walkNodes, List.map_nil, List.mem_singleton] at hy
          rw [hy]
      closed := by
        intro x hx1 hx2 hx3 _ e he
        have := honly x hx1 hx2
        subst this
        simp [searchStart] at hx3
      pedge := by
        intro x hx1 hx2 hx3
        exact absurd (honly x hx1 hx2) hx3
      chain := by
        intro x hx1 hx2
        have := honly x hx1 hx2
        subst this
        exact PrevChain.here }

theorem searchMeasure_nonneg {t : Topology} {start : String} {st : Search}
    (inv : SearchInv t start none st) : 0 ≤ searchMeasure st := by
  have := distSum_nonneg st.dist inv.nonneg
  unfold searchMeasure
  omega

/-- With fuel above the measure the frontier loop runs to its end. -/
theorem searchLoop_total {t : Topology} {start : String}
    (ctx : SearchCtx t start) (pol : PopPolicy) :
    ∀ (fuel : Nat) (st : Search), SearchInv t start none st →
      searchMeasure st < (fuel : Int) →
      ∃ st2, searchLoop pol fuel st = some st2 ∧ SearchInv t start none st2 ∧
        st2.pq = [] := by
  intro fuel
  induction fuel with
  | zero =>
    intro st inv h
    have := searchMeasure_nonneg inv
    simp at h
    omega
  | succ n ih =>
    intro st inv h
    by_cases hq : st.pq = []
    · exact ⟨st, by simp [searchLoop, hq], inv, hq⟩
    · obtain ⟨i1, i2⟩ := searchStep_inv ctx pol st inv hq
      have : searchMeasure (searchStep pol st) < (n : Int) := by
        push_cast at h; omega
      obtain ⟨st2, h1, h2, h3⟩ := ih _ i1 this
      exact ⟨st2, by simp [searchLoop, hq, h1], h2, h3⟩

/-- The search part of `dijkstra` returns for every large enough fuel, in a state that
satisfies the invariant and has an empty frontier. -/
theorem search_total {t : Topology} {start : String}
    (ctx : SearchCtx t start) (pol : PopPolicy) :
    ∃ fuel0 : Nat, ∀ fuel, fuel0 ≤ fuel →
      ∃ st, search pol fuel t start = some st ∧ SearchInv t start none st ∧ st.pq = [] := by
  refine ⟨(searchMeasure (searchStart t start)).toNat + 1, ?_⟩
  intro fuel hf
  have inv := searchStart_inv ctx
  have h0 := searchMeasure_nonneg inv
  have : searchMeasure (searchStart t start) < (fuel : Int) := by omega
  exact searchLoop_total ctx pol fuel _ inv this

/-! ## The distances when the search has ended -/

/-- When the frontier is empty, the distance of the end of a path is at most the
distance of its start plus the cost of the path. -/
theorem final_walk_le {t : Topology} {start : String} {st : Search}
    (ctx : SearchCtx t start) (inv : SearchInv t start none st) (hq : st.pq = []) :
    ∀ (es : List Edge) (s : String), mapHas t s = true → mapGet st.dist s 0 ≠ INT_MAX →
      isWalk t s es = true →
      mapHas t (walkEnd s es) = true ∧ mapGet st.dist (walkEnd s es) 0 ≠ INT_MAX ∧
        mapGet st.dist (walkEnd s es) 0 ≤ mapGet st.dist s 0 + walkCost es := by
  intro es
  induction es with
  | nil =>
    intro s h1 h2 _
    simp only [walkEnd, walkCost, List.map_nil, List.sum_nil, add_zero]
    exact ⟨h1, h2, le_refl _⟩
  | cons e rest ih =>
    intro s h1 h2 hw
    simp only [isWalk, Bool.and_eq_true, decide_eq_true_eq] at hw
    have hcl := inv.closed s h1 h2 (by rw [hq]; simp) (by simp) e hw.1
    have hv := ctx.closed s e hw.1
    have hr := dist_add_cost_lt ctx inv s h1 h2 e hw.1
    have hfin : mapGet st.dist e.dest 0 ≠ INT_MAX := by omega
    obtain ⟨i1, i2, i3⟩ := ih e.dest hv hfin hw.2
    simp only [walkEnd, walkCost, List.map_cons, List.sum_cons]
    refine ⟨i1, i2, ?_⟩
    unfold walkCost at i3
    omega

/-- When the search has ended, every router reachable from `start` has a finite
distance, and that distance is the least cost of a path from `start`. -/
theorem final_shortest {t : Topology} {start : String} {st : Search}
    (ctx : SearchCtx t start) (inv : SearchInv t start none st) (hq : st.pq = [])
    (d : String) (hd : CanReach t start d) :
    mapHas t d = true ∧ mapGet st.dist d 0 ≠ INT_MAX ∧
      IsShortest t start d (mapGet st.dist d 0) := by
  have h0 : mapGet st.dist start 0 ≠ INT_MAX := by rw [inv.start0]; decide
  obtain ⟨es, w1, w2⟩ := hd
  have := final_walk_le ctx inv hq es start ctx.hstart h0 w1
  rw [w2] at this
  obtain ⟨i1, i2, _⟩ := this
  obtain ⟨es0, u1, u2, u3, _⟩ := inv.sound d i1 i2
  refine ⟨i1, i2, ⟨⟨es0, u1, u2, u3⟩, ?_⟩⟩
  intro es2 v1 v2
  have := final_walk_le ctx inv hq es2 start ctx.hstart h0 v1
  rw [v2, inv.start0] at this
  omega

/-- A router with a finite distance is reachable. -/
theorem reach_of_finite {t : Topology} {start : String} {st : Search}
    (inv : SearchInv t start none st) (d : String) (h1 : mapHas t d = true)
    (h2 : mapGet st.dist d 0 ≠ INT_MAX) : CanReach t start d := by
  obtain ⟨es, w1, w2, _⟩ := inv.sound d h1 h2
  exact ⟨es, w1, w2⟩

/-- When the search has ended, the edge from the predecessor is tight. -/
theorem final_pedge {t : Topology} {start : String} {st : Search}
    (inv : SearchInv t start none st) (hq : st.pq = [])
    (v : String) (h1 : mapHas t v = true) (h2 : mapGet st.dist v 0 ≠ INT_MAX)
    (h3 : v ≠ start) :
    mapHas t (mapGet st.prev v "") = true ∧
    mapGet st.dist (mapGet st.prev v "") 0 ≠ INT_MAX ∧
    ∃ e ∈ neighborsOf t (mapGet st.prev v ""), e.dest = v ∧
      mapGet st.dist (mapGet st.prev v "") 0 + e.cost = mapGet st.dist v 0 := by
  obtain ⟨p1, p2, e, q1, q2, q3⟩ := inv.pedge v h1 h2 h3
  refine ⟨p1, p2, e, q1, q2, ?_⟩
  have := inv.closed _ p1 p2 (by rw [hq]; simp) (by simp) e q1
  rw [q2] at this
  omega

/-! ## The walk back to the next hop -/

theorem nextHop_succ (prev : List (String × String)) (start : String) :
    ∀ (f : Nat) (h N : String), nextHop prev start f h = some N →
      nextHop prev start (f + 1) h = some N := by
  intro f
  induction f with
  | zero => intro h N hh; simp [nextHop] at hh
  | succ n ih =>
    intro h N hh
    rw [nextHop] at hh ⊢
    split at hh
    · rename_i hc
      rw [if_pos hc]
      exact ih _ _ hh
    · rename_i hc
      rw [if_neg hc]
      exact hh

theorem nextHop_mono (prev : List (String × String)) (start : String) (f : Nat)
    (h N : String) (hh : nextHop prev start f h = some N) :
    ∀ f2, f ≤ f2 → nextHop prev start f2 h = some N := by
  intro f2 hle
  induction hle with
  | refl => exact hh
  | step _ ih => exact nextHop_succ prev start _ h N ih

/-- The walk back over `prev` ends, for every router with a finite distance. -/
theorem nextHop_exists {t : Topology} {start : String} {st : Search}
    (inv : SearchInv t start none st) (v : String) (hch : PrevChain st.prev start v) :
    mapHas t v = true → mapGet st.dist v 0 ≠ INT_MAX → v ≠ start →
      ∃ f N, nextHop st.prev start f v = some N := by
  induction hch with
  | here => intro _ _ h; exact absurd rfl h
  | step v hv _ ih =>
    intro h1 h2 _
    obtain ⟨p1, p2, _⟩ := inv.pedge v h1 h2 hv
    by_cases hp : mapGet st.prev v "" = start
    · refine ⟨1, v, ?_⟩
      simp [nextHop, hp]
    · by_cases hne : mapGet st.prev v "" = ""
      · refine ⟨1, v, ?_⟩
        simp [nextHop, hne]
      · obtain ⟨f, N, hN⟩ := ih p1 p2 hp
        refine ⟨f + 1, N, ?_⟩
        rw [nextHop]
        rw [if_pos ⟨hp, hne⟩]
        exact hN

/-- What the walk back returns when no router with a finite distance other than
`start` has the empty name: a router `N` whose predecessor is `start` and from which a
path of cost `dist[v] - dist[N]` leads to `v`. -/
theorem nextHop_spec {t : Topology} {start : String} {st : Search}
    (inv : SearchInv t start none st) (hq : st.pq = [])
    (hnamed : ∀ v, mapHas t v = true → mapGet st.dist v 0 ≠ INT_MAX → v = start ∨ v ≠ "") :
    ∀ (f : Nat) (v N : String), nextHop st.prev start f v = some N →
      mapHas t v = true → mapGet st.dist v 0 ≠ INT_MAX → v ≠ start →
      mapHas t N = true ∧ mapGet st.dist N 0 ≠ INT_MAX ∧ N ≠ start ∧
      mapGet st.prev N "" = start ∧
      ∃ es, isWalk t N es = true ∧ walkEnd N es = v ∧
        walkCost es = mapGet st.dist v 0 - mapGet st.dist N 0 := by
  intro f
  induction f with
  | zero => intro v N hh; simp [nextHop] at hh
  | succ n ih =>
    intro v N hh h1 h2 h3
    obtain ⟨p1, p2, e, q1, q2, q3⟩ := final_pedge inv hq v h1 h2 h3
    rw [nextHop] at hh
    split at hh
    · rename_i hc
      obtain ⟨i1, i2, i3, i4, es, w1, w2, w3⟩ := ih _ N hh p1 p2 hc.1
      have he2 : e ∈ neighborsOf t (walkEnd N es) := by rw [w2]; exact q1
      obtain ⟨a1, a2⟩ := isWalk_append t es e N w1 he2
      refine ⟨i1, i2, i3, i4, es ++ [e], a1, by rw [a2, q2], ?_⟩
      rw [walkCost_append, w3]
      omega
    · rename_i hc
      simp only [Option.some.injEq] at hh
      subst hh
      have hp : mapGet st.prev v "" = start := by
        by_contra hne
        rcases hnamed _ p1 p2 with h | h
        · exact hne h
        · exact hc ⟨hne, h⟩
      refine ⟨h1, h2, h3, hp, [], rfl, rfl, ?_⟩
      simp [walkCost]

/-! ## The routing table that `dijkstra` builds -/

theorem routingTable_setRoute (t : Topology) (start name hop : String) (d : Int)
    (k : String) :
    mapFind (routingTable (mapModify t start Router.fresh (setRoute name hop d)) start) k
      = if name = k then some (hop, d) else mapFind (routingTable t start) k := by
  unfold routingTable
  rw [mapGet_modify]
  simp only [if_true, setRoute]
  rw [mapFind_assign]

theorem routingTable_resetTable (t : Topology) (start : String) (k : String) :
    mapFind (routingTable (mapModify t start Router.fresh resetTable) start) k
      = (mapFind (routingTable t start) k).map (fun _ => ("", INT_MAX)) := by
  unfold routingTable
  rw [mapGet_modify]
  simp only [if_true, resetTable]
  generalize (mapGet t start Router.fresh).routing_table = tbl
  induction tbl with
  | nil => simp [mapFind]
  | cons p rest ih =>
    obtain ⟨k1, v1⟩ := p
    by_cases h : k1 = k <;> simp [mapFind, h, ih]

/-- The entries of the table after the last loop of `dijkstra`. -/
theorem buildRoutes_find (prev : List (String × String)) (start : String) (fuel : Nat) :
    ∀ (l : List (String × Int)) (t0 t2 : Topology), (l.map Prod.fst).Nodup →
      buildRoutes prev start fuel l t0 = some t2 →
      ∀ k, mapFind (routingTable t2 start) k =
        match mapFind l k with
        | some d =>
          if d = INT_MAX ∨ k = start then mapFind (routingTable t0 start) k
          else (nextHop prev start fuel k).map (fun hop => (hop, d))
        | none => mapFind (routingTable t0 start) k := by
  intro l
  induction l with
  | nil =>
    intro t0 t2 _ h k
    simp only [buildRoutes, Option.some.injEq] at h
    subst h
    simp [mapFind]
  | cons p rest ih =>
    obtain ⟨name, d⟩ := p
    intro t0 t2 hn h k
    simp only [List.map_cons, List.nodup_cons] at hn
    have hrest : ∀ x, name = x → mapFind rest x = none := by
      intro x hx
      cases hf : mapFind rest x with
      | none => rfl
      | some v =>
        exfalso; apply hn.1
        rw [hx]
        exact List.mem_map_of_mem Prod.fst (mem_of_mapFind rest x v hf)
    simp only [buildRoutes] at h
    by_cases hc : d = INT_MAX ∨ name = start
    · rw [if_pos hc] at h
      rw [ih t0 t2 hn.2 h k]
      by_cases hk : name = k
      · subst hk
        simp [mapFind, hrest name rfl, hc]
      · simp [mapFind, hk]
    · rw [if_neg hc] at h
      cases hnh : nextHop prev start fuel name with
      | none => simp [hnh] at h
      | some hop =>
        simp only [hnh] at h
        rw [ih _ t2 hn.2 h k]
        by_cases hk : name = k
        · subst hk
          simp [mapFind, hrest name rfl, hc, hnh, routingTable_setRoute]
        · simp only [mapFind, hk, if_false]
          rw [routingTable_setRoute]
          simp [hk]

theorem buildRoutes_total (prev : List (String × String)) (start : String) (fuel : Nat) :
    ∀ (l : List (String × Int)) (t0 : Topology),
      (∀ p ∈ l, ¬ (p.2 = INT_MAX ∨ p.1 = start) →
        ∃ hop, nextHop prev start fuel p.1 = some hop) →
      ∃ t2, buildRoutes prev start fuel l t0 = some t2 := by
  intro l
  induction l with
  | nil => intro t0 _; exact ⟨t0, rfl⟩
  | cons p rest ih =>
    obtain ⟨name, d⟩ := p
    intro t0 h
    have hrest : ∀ p ∈ rest, ¬ (p.2 = INT_MAX ∨ p.1 = start) →
        ∃ hop, nextHop prev start fuel p.1 = some hop :=
      fun p hp => h p (List.mem_cons_of_mem _ hp)
    simp only [buildRoutes]
    by_cases hc : d = INT_MAX ∨ name = start
    · rw [if_pos hc]; exact ih t0 hrest
    · rw [if_neg hc]
      obtain ⟨hop, hh⟩ := h (name, d) (List.mem_cons_self _ _) hc
      simp only [hh]
      exact ih _ hrest

theorem searchLoop_mono (pol : PopPolicy) :
    ∀ (f : Nat) (st st2 : Search), searchLoop pol f st = some st2 →
      ∀ f2, f ≤ f2 → searchLoop pol f2 st = some st2 := by
  intro f
  induction f with
  | zero => intro st st2 h; simp [searchLoop] at h
  | succ n ih =>
    intro st st2 h f2 hle
    obtain ⟨m, rfl⟩ : ∃ m, f2 = m + 1 := ⟨f2 - 1, by omega⟩
    by_cases hq : st.pq = []
    · simp only [searchLoop, hq, if_true] at h ⊢; exact h
    · simp only [searchLoop, hq, if_false] at h ⊢
      exact ih _ _ h m (by omega)

/-- A fuel that suffices for the walk back of every entry of a list. -/
theorem nextHop_common_fuel {t : Topology} {start : String} {st : Search}
    (inv : SearchInv t start none st) :
    ∀ (l : List (String × Int)), (∀ p ∈ l, mapFind st.dist p.1 = some p.2) →
      ∃ F : Nat, ∀ fuel, F ≤ fuel → ∀ p ∈ l, ¬ (p.2 = INT_MAX ∨ p.1 = start) →
        ∃ hop, nextHop st.prev start fuel p.1 = some hop := by
  intro l
  induction l with
  | nil => intro _; exact ⟨0, fun _ _ p hp => by simp at hp⟩
  | cons q rest ih =>
    intro hl
    obtain ⟨F, hF⟩ := ih (fun p hp => hl p (List.mem_cons_of_mem _ hp))
    by_cases hc : q.2 = INT_MAX ∨ q.1 = start
    · refine ⟨F, ?_⟩
      intro fuel hf p hp hpc
      simp only [List.mem_cons] at hp
      rcases hp with h | h
      · rw [h] at hpc; exact absurd hc hpc
      · exact hF fuel hf p h hpc
    · have hq := hl q (List.mem_cons_self _ _)
      have hhas : mapHas t q.1 = true := by
        rw [← inv.keys]; simp [mapHas, hq]
      have hget : mapGet st.dist q.1 0 = q.2 := by simp [mapGet, hq]
      have hfin : mapGet st.dist q.1 0 ≠ INT_MAX := by
        rw [hget]; exact fun h => hc (Or.inl h)
      have hne : q.1 ≠ start := fun h => hc (Or.inr h)
      obtain ⟨f, N, hN⟩ := nextHop_exists inv q.1 (inv.chain q.1 hhas hfin) hhas hfin hne
      refine ⟨max F f, ?_⟩
      intro fuel hf p hp hpc
      simp only [List.mem_cons] at hp
      rcases hp with h | h
      · rw [h]
        exact ⟨N, nextHop_mono _ _ f _ N hN fuel (le_trans (le_max_right _ _) hf)⟩
      · exact hF fuel (le_trans (le_max_left _ _) hf) p h hpc

/-! ## `dijkstra` as a whole -/

theorem neighborsOf_mem (t : Topology) (r : String) (e : Edge) (he : e ∈ neighborsOf t r) :
    ∃ p ∈ t, e ∈ p.2.neighbors := by
  unfold neighborsOf mapGet at he
  cases hf : mapFind t r with
  | none => simp [hf, Router.fresh] at he
  | some x =>
    simp only [hf, Option.getD_some] at he
    exact ⟨(r, x), mem_of_mapFind t r x hf, he⟩

/-- The assumptions of the analysis hold in a reachable state without negative costs
in which no sum can overflow. -/
theorem searchCtx_of_reachable (t : Topology) (S : String) (hr : Reachable t)
    (hS : mapHas t S = true)
    (hcost : ∀ p ∈ t, ∀ e ∈ p.2.neighbors, 0 ≤ e.cost)
    (hover : NoOverflow t S) : SearchCtx t S :=
  { closed := (storeInv_of_reachable t hr).1
    hstart := hS
    cost := by
      intro r e he
      obtain ⟨p, hp, hpe⟩ := neighborsOf_mem t r e he
      exact hcost p hp e hpe
    bound := hover }

theorem walkNodes_has (t : Topology) (hcl : EdgesClosed t) (es : List Edge) :
    ∀ s, mapHas t s = true → isWalk t s es = true →
      ∀ x ∈ walkNodes s es, mapHas t x = true := by
  induction es with
  | nil =>
    intro s hs _ x hx
    simp only [walkNodes, List.map_nil, List.mem_singleton] at hx
    rw [hx]; exact hs
  | cons e rest ih =>
    intro s hs hw x hx
    simp only [isWalk, Bool.and_eq_true, decide_eq_true_eq] at hw
    simp only [walkNodes, List.map_cons, List.mem_cons] at hx
    rcases hx with hx | hx
    · rw [hx]; exact hs
    · apply ih e.dest (hcl s e hw.1) hw.2
      simp only [walkNodes, List.mem_cons]
      exact hx

theorem walkCost_le (t : Topology) (M : Int)
    (hcost : ∀ r, ∀ e ∈ neighborsOf t r, e.cost ≤ M) (es : List Edge) :
    ∀ s, isWalk t s es = true → walkCost es ≤ (es.length : Int) * M := by
  induction es with
  | nil => intro s _; simp [walkCost]
  | cons e rest ih =>
    intro s hw
    simp only [isWalk, Bool.and_eq_true, decide_eq_true_eq] at hw
    have h1 := hcost s e hw.1
    have h2 := ih e.dest hw.2
    unfold walkCost at h2 ⊢
    simp only [List.map_cons, List.sum_cons, List.length_cons, Nat.cast_add, Nat.cast_one]
    linarith

/-- A bound that rules out overflow: the edges lead to routers, every cost lies between
0 and `M`, and the number of routers times `M` is below `INT_MAX`. -/
theorem noOverflow_of_bound (t : Topology) (S : String) (M : Int) (hcl : EdgesClosed t)
    (hS : mapHas t S = true)
    (hcost : ∀ p ∈ t, ∀ e ∈ p.2.neighbors, 0 ≤ e.cost ∧ e.cost ≤ M)
    (hbound : (t.length : Int) * M < 2147483647) : NoOverflow t S := by
  intro es hw hnd e he
  have hc : ∀ r, ∀ e ∈ neighborsOf t r, 0 ≤ e.cost ∧ e.cost ≤ M := by
    intro r e he
    obtain ⟨p, hp, hpe⟩ := neighborsOf_mem t r e he
    exact hcost p hp e hpe
  have hsub : walkNodes S es ⊆ t.map Prod.fst := by
    intro x hx
    rw [← mapHas_iff_mem_keys]
    exact walkNodes_has t hcl es S hS hw x hx
  have hlen := (List.subperm_of_subset hnd hsub).length_le
  simp only [walkNodes, List.length_cons, List.length_map] at hlen
  have h1 := walkCost_le t M (fun r e he => (hc r e he).2) es S hw
  have h2 := hc _ e he
  have hM : 0 ≤ M := le_trans h2.1 h2.2
  have h3 : ((es.length : Int) + 1) * M ≤ (t.length : Int) * M := by
    apply mul_le_mul_of_nonneg_right _ hM
    have : es.length + 1 ≤ t.length := hlen
    exact_mod_cast this
  simp only [INT_MAX]
  linarith

/-- The run of `dijkstra(start)` under the assumptions of the analysis: for every large
enough fuel it returns, its search ends in one and the same state `st`, and the entry
of the routing table of `start` for `k` holds the next hop and the distance of `k`
when `k` is another router with a finite distance, and is the reset of the earlier
entry otherwise. -/
theorem dijkstra_spec {t : Topology} {start : String}
    (ctx : SearchCtx t start) (pol : PopPolicy) :
    ∃ (fuel0 : Nat) (st : Search), SearchInv t start none st ∧ st.pq = [] ∧
      ∀ fuel, fuel0 ≤ fuel →
        search pol fuel t start = some st ∧
        ∃ t2, dijkstra pol fuel t start = some t2 ∧
          ∀ k,
            ((mapHas t k = true ∧ mapGet st.dist k 0 ≠ INT_MAX ∧ k ≠ start) →
              ∃ hop, nextHop st.prev start fuel k = some hop ∧
                mapFind (routingTable t2 start) k = some (hop, mapGet st.dist k 0)) ∧
            (¬ (mapHas t k = true ∧ mapGet st.dist k 0 ≠ INT_MAX ∧ k ≠ start) →
              mapFind (routingTable t2 start) k
                = (mapFind (routingTable t start) k).map (fun _ => ("", INT_MAX))) := by
  obtain ⟨f0, hf0⟩ := search_total ctx pol
  obtain ⟨st, hs, inv, hq⟩ := hf0 f0 (le_refl _)
  obtain ⟨F, hF⟩ := nextHop_common_fuel inv st.dist
    (fun p hp => mapFind_of_mem_nodup st.dist p.1 p.2 inv.nodup hp)
  refine ⟨max f0 F, st, inv, hq, ?_⟩
  intro fuel hfuel
  have hsearch : search pol fuel t start = some st := by
    unfold search at hs ⊢
    exact searchLoop_mono pol f0 _ _ hs fuel (le_trans (le_max_left _ _) hfuel)
  refine ⟨hsearch, ?_⟩
  obtain ⟨t2, ht2⟩ := buildRoutes_total st.prev start fuel st.dist
    (mapModify st.topo start Router.fresh resetTable)
    (hF fuel (le_trans (le_max_right _ _) hfuel))
  refine ⟨t2, by simp only [dijkstra, hsearch]; exact ht2, ?_⟩
  intro k
  rw [buildRoutes_find _ _ _ _ _ _ inv.nodup ht2 k, inv.topo, routingTable_resetTable]
  by_cases hk : mapHas t k = true
  · have hfk := mapFind_of_has st.dist k (by rw [inv.keys]; exact hk)
    rw [hfk]
    by_cases hc : mapGet st.dist k 0 = INT_MAX ∨ k = start
    · dsimp only
      rw [if_pos hc]
      constructor
      · intro h
        rcases hc with h1 | h1
        · exact absurd h1 h.2.1
        · exact absurd h1 h.2.2
      · intro _; rfl
    · dsimp only
      rw [if_neg hc]
      have hc2 : mapGet st.dist k 0 ≠ INT_MAX ∧ k ≠ start :=
        ⟨fun h => hc (Or.inl h), fun h => hc (Or.inr h)⟩
      obtain ⟨hop, hh⟩ := hF fuel (le_trans (le_max_right _ _) hfuel)
        (k, mapGet st.dist k 0) (mem_of_mapFind _ _ _ hfk) hc
      constructor
      · intro _
        exact ⟨hop, hh, by simp only [] at hh; rw [hh]; rfl⟩
      · intro h; exact absurd ⟨hk, hc2⟩ h
  · have hn : mapFind st.dist k = none := by
      have : mapHas st.dist k = false := by rw [inv.keys]; simpa using hk
      simpa [mapHas] using this
    rw [hn]
    constructor
    · intro h; exact absurd h.1 hk
    · intro _; rfl

theorem buildRoutes_self (prev : List (String × String)) (start : String) (fuel : Nat) :
    ∀ (l : List (String × Int)) (t0 t2 : Topology),
      buildRoutes prev start fuel l t0 = some t2 →
      mapFind (routingTable t2 start) start = mapFind (routingTable t0 start) start := by
  intro l
  induction l with
  | nil =>
    intro t0 t2 h
    simp only [buildRoutes, Option.some.injEq] at h
    rw [h]
  | cons p rest ih =>
    obtain ⟨name, d⟩ := p
    intro t0 t2 h
    simp only [buildRoutes] at h
    by_cases hc : d = INT_MAX ∨ name = start
    · rw [if_pos hc] at h; exact ih t0 t2 h
    · rw [if_neg hc] at h
      cases hnh : nextHop prev start fuel name with
      | none => simp [hnh] at h
      | some hop =>
        simp only [hnh] at h
        rw [ih _ t2 h, routingTable_setRoute]
        have : ¬ name = start := fun e => hc (Or.inr e)
        simp [this]

theorem routingTable_modify (t : Topology) (k r : String) (f : Router → Router)
    (hf : ∀ x, (f x).routing_table = x.routing_table) :
    routingTable (mapModify t k Router.fresh f) r = routingTable t r := by
  unfold routingTable
  rw [mapGet_modify]
  by_cases h : k = r
  · subst h; simp [hf]
  · simp [h]

theorem routingTable_addLink (t : Topology) (a b : String) (c : Int) (r : String) :
    routingTable (addLink t a b c) r = routingTable t r := by
  unfold addLink
  simp only []
  rw [routingTable_forEachRouter (setLink a b c) (fun _ => rfl),
    routingTable_modify _ _ _ (pushNeighbor ⟨a, c⟩) (fun _ => rfl),
    routingTable_modify _ _ _ (pushNeighbor ⟨b, c⟩) (fun _ => rfl)]

theorem routingTable_updateTopology (t : Topology) (a b : String) (c : Int) (r : String) :
    routingTable (updateTopology t a b c) r = routingTable t r := by
  rw [updateTopology_normal]
  have hL : ∀ x : Router,
      ((if c = -1 then eraseLink a b else setLink a b c) x).routing_table = x.routing_table := by
    intro x; by_cases hc : c = -1 <;> simp [hc, eraseLink, setLink]
  rw [routingTable_forEachRouter _ hL]
  have h1 : ∀ n x, (linkChange n c x).routing_table = x.routing_table := by
    intro n x
    by_cases hc : c = -1 <;> simp [linkChange, hc, removeNeighbor, pushNeighbor]
  have h2 : ∀ n x, (loopChange n c x).routing_table = x.routing_table := by
    intro n x
    by_cases hc : c = -1 <;> simp [loopChange, hc, removeNeighbor, pushNeighbor]
  by_cases hab : a = b
  · rw [if_pos hab, routingTable_modify _ _ _ (loopChange a c) (h2 a)]
  · rw [if_neg hab, routingTable_modify _ _ _ (linkChange a c) (h1 a),
      routingTable_modify _ _ _ (linkChange b c) (h1 b)]

/-- In every reachable state no routing table holds an entry for its own router. -/
theorem no_self_route (t : Topology) (h : Reachable t) (R : String) :
    mapFind (routingTable t R) R = none := by
  induction h with
  | init names links =>
    unfold readTopology
    have base : ∀ r, routingTable (names.foldl declareRouter []) r = [] :=
      fun r => (declared_empty names [] (by intro r; exact ⟨rfl, rfl, rfl⟩) r).2.2
    have : ∀ (ls : List (String × String × Int)) (t0 : Topology),
        (∀ r, routingTable t0 r = []) →
        ∀ r, routingTable (ls.foldl (fun t l => addLink t l.1 l.2.1 l.2.2) t0) r = [] := by
      intro ls
      induction ls with
      | nil => intro t0 h0; exact h0
      | cons l rest ih =>
        intro t0 h0
        simp only [List.foldl_cons]
        apply ih
        intro r; rw [routingTable_addLink]; exact h0 r
    rw [this links _ base R]; rfl
  | update a b c _ ih => rw [routingTable_updateTopology]; exact ih
  | @route t0 t2 pol fuel r hprev hr hd ih =>
    by_cases hR : R = r
    · subst hR
      unfold dijkstra at hd
      cases hs : search pol fuel t0 R with
      | none => simp [hs] at hd
      | some st =>
        simp only [hs] at hd
        rw [buildRoutes_self _ _ _ _ _ _ hd]
        have htopo := search_topo pol fuel t0 R (storeInv_of_reachable t0 hprev).1 hr st hs
        rw [htopo, routingTable_resetTable, ih]
        rfl
    · have fr := dijkstra_frame pol fuel t0 t2 r (storeInv_of_reachable t0 hprev).1 hr hd
      rw [(fr R).2.2.2 hR]; exact ih

/-! ## Declarations, removals and symmetric edges -/

theorem mapFind_declared (names : List String) (n : String) :
    ∀ acc : Topology, mapFind (names.foldl declareRouter acc) n =
      if n ∈ names then
        some { name := n, neighbors := [], lsdb := [], routing_table := [] }
      else mapFind acc n := by
  induction names with
  | nil => intro acc; simp
  | cons x rest ih =>
    intro acc
    simp only [List.foldl_cons]
    rw [ih]
    by_cases h1 : n ∈ rest
    · simp [h1]
    · simp only [h1, if_false, declareRouter]
      rw [mapFind_assign]
      by_cases h2 : x = n
      · subst h2; simp
      · have h3 : ¬ n = x := fun e => h2 e.symm
        simp [h2, h3, h1]

section ModifyFixed
variable {κ υ : Type} [DecidableEq κ]

/-- A change through `m[k]` that leaves the record as it is leaves the map as it is. -/
theorem mapModify_fixed (m : List (κ × υ)) (k : κ) (d : υ) (f : υ → υ)
    (hk : mapHas m k = true) (hf : f (mapGet m k d) = mapGet m k d) :
    mapModify m k d f = m := by
  induction m with
  | nil => simp [mapHas, mapFind] at hk
  | cons p rest ih =>
    obtain ⟨k1, v1⟩ := p
    by_cases h1 : k1 = k
    · simp only [mapGet, mapFind, h1, if_true, Option.getD_some] at hf
      simp [mapModify, h1, hf]
    · have hk2 : mapHas rest k = true := by simpa [mapHas, mapFind, h1] using hk
      have hf2 : f (mapGet rest k d) = mapGet rest k d := by
        simpa [mapGet, mapFind, h1] using hf
      simp [mapModify, h1, ih hk2 hf2]

end ModifyFixed

theorem removeNeighbor_fixed (n : String) (x : Router) (h : ∀ e ∈ x.neighbors, e.dest ≠ n) :
    removeNeighbor n x = x := by
  have : x.neighbors.filter (fun e => !decide (e.dest = n)) = x.neighbors := by
    rw [List.filter_eq_self]
    intro e he
    simp [h e he]
  simp only [removeNeighbor, this]

theorem eraseLink_fixed (a b : String) (x : Router) (h1 : mapHas x.lsdb (a, b) = false)
    (h2 : mapHas x.lsdb (b, a) = false) : eraseLink a b x = x := by
  simp only [eraseLink]
  rw [mapErase_of_not_has _ _ h1, mapErase_of_not_has _ _ h2]

theorem mem_neighborsOf_addLink (t : Topology) (a b : String) (c : Int) (A : String)
    (e : Edge) :
    e ∈ neighborsOf (addLink t a b c) A ↔
      e ∈ neighborsOf t A ∨ (a = A ∧ e = ⟨b, c⟩) ∨ (b = A ∧ e = ⟨a, c⟩) := by
  rw [neighborsOf_addLink]
  simp only [List.mem_append]
  by_cases h1 : a = A <;> by_cases h2 : b = A <;> simp [h1, h2]

theorem mem_neighborsOf_updateTopology (t : Topology) (a b : String) (c : Int) (A : String)
    (e : Edge) :
    e ∈ neighborsOf (updateTopology t a b c) A ↔
      (e ∈ neighborsOf t A ∧ ¬ (a = A ∧ e.dest = b) ∧ ¬ (b = A ∧ e.dest = a)) ∨
      (c ≠ -1 ∧ a = A ∧ e = ⟨b, c⟩) ∨ (c ≠ -1 ∧ b = A ∧ e = ⟨a, c⟩) := by
  rw [neighborsOf_updateTopology]
  simp only [List.mem_append, List.mem_filter]
  by_cases h1 : a = A <;> by_cases h2 : b = A <;> by_cases h3 : c = -1 <;>
    simp [h1, h2, h3, and_assoc]

theorem edgeSymmetric_addLink (t : Topology) (a b : String) (c : Int)
    (h : EdgeSymmetric t) : EdgeSymmetric (addLink t a b c) := by
  intro A B k
  rw [mem_neighborsOf_addLink, mem_neighborsOf_addLink, h A B k]
  simp only [Edge.mk.injEq]
  constructor
  · rintro (h1 | ⟨h1, h2, h3⟩ | ⟨h1, h2, h3⟩)
    · exact Or.inl h1
    · exact Or.inr (Or.inr ⟨h2.symm, h1.symm, h3⟩)
    · exact Or.inr (Or.inl ⟨h2.symm, h1.symm, h3⟩)
  · rintro (h1 | ⟨h1, h2, h3⟩ | ⟨h1, h2, h3⟩)
    · exact Or.inl h1
    · exact Or.inr (Or.inr ⟨h2.symm, h1.symm, h3⟩)
    · exact Or.inr (Or.inl ⟨h2.symm, h1.symm, h3⟩)

theorem edgeSymmetric_updateTopology (t : Topology) (a b : String) (c : Int)
    (h : EdgeSymmetric t) : EdgeSymmetric (updateTopology t a b c) := by
  intro A B k
  rw [mem_neighborsOf_updateTopology, mem_neighborsOf_updateTopology, h A B k]
  simp only [Edge.mk.injEq]
  constructor
  · rintro (⟨h1, h2, h3⟩ | ⟨h0, h1, h2, h3⟩ | ⟨h0, h1, h2, h3⟩)
    · refine Or.inl ⟨h1, ?_, ?_⟩
      · rintro ⟨e1, e2⟩; exact h3 ⟨e2.symm, e1.symm⟩
      · rintro ⟨e1, e2⟩; exact h2 ⟨e2.symm, e1.symm⟩
    · exact Or.inr (Or.inr ⟨h0, h2.symm, h1.symm, h3⟩)
    · exact Or.inr (Or.inl ⟨h0, h2.symm, h1.symm, h3⟩)
  · rintro (⟨h1, h2, h3⟩ | ⟨h0, h1, h2, h3⟩ | ⟨h0, h1, h2, h3⟩)
    · refine Or.inl ⟨h1, ?_, ?_⟩
      · rintro ⟨e1, e2⟩; exact h3 ⟨e2.symm, e1.symm⟩
      · rintro ⟨e1, e2⟩; exact h2 ⟨e2.symm, e1.symm⟩
    · exact Or.inr (Or.inr ⟨h0, h2.symm, h1.symm, h3⟩)
    · exact Or.inr (Or.inl ⟨h0, h2.symm, h1.symm, h3⟩)

/-- In every reachable state every edge has its mirror edge. -/
theorem edgeSymmetric_of_reachable (t : Topology) (h : Reachable t) : EdgeSymmetric t := by
  induction h with
  | init names links =>
    unfold readTopology
    have base : EdgeSymmetric (names.foldl declareRouter []) := by
      intro A B k
      have e := declared_empty names [] (by intro r; exact ⟨rfl, rfl, rfl⟩)
      rw [(e A).1, (e B).1]
      simp
    have : ∀ (ls : List (String × String × Int)) (t0 : Topology), EdgeSymmetric t0 →
        EdgeSymmetric (ls.foldl (fun t l => addLink t l.1 l.2.1 l.2.2) t0) := by
      intro ls
      induction ls with
      | nil => intro t0 h0; exact h0
      | cons l rest ih =>
        intro t0 h0
        simp only [List.foldl_cons]
        exact ih _ (edgeSymmetric_addLink t0 _ _ _ h0)
    exact this links _ base
  | update a b c _ ih => exact edgeSymmetric_updateTopology _ a b c ih
  | @route t0 t2 pol fuel r hprev hr hd ih =>
    have fr := dijkstra_frame pol fuel t0 t2 r (storeInv_of_reachable t0 hprev).1 hr hd
    intro A B k
    rw [(fr A).2.1, (fr B).2.1]
    exact ih A B k

/-! ## Edges and LSDB entries when every name is declared -/

theorem edgesRecorded_of_declared (names : List String) (t : Topology)
    (h : ReachableDeclared names t) : EdgesRecorded t := by
  induction h with
  | init links hl =>
    unfold readTopology
    have hkeys : ∀ r, mapHas (names.foldl declareRouter []) r = decide (r ∈ names) :=
      fun r => by rw [mapHas_declared]; simp [mapHas, mapFind]
    have base : EdgesRecorded (names.foldl declareRouter []) := by
      intro r _ X e he
      have e0 := declared_empty names [] (by intro r; exact ⟨rfl, rfl, rfl⟩)
      rw [(e0 X).1] at he
      simp at he
    revert hkeys base
    generalize names.foldl declareRouter [] = t0
    induction links generalizing t0 with
    | nil => intro _ base; exact base
    | cons l rest ih =>
      intro hkeys base
      simp only [List.foldl_cons]
      obtain ⟨m1, m2⟩ := hl l (List.mem_cons_self _ _)
      have hh : ∀ r, mapHas (addLink t0 l.1 l.2.1 l.2.2) r = mapHas t0 r := by
        intro r
        rw [mapHas_addLink, hkeys]
        by_cases e1 : l.1 = r
        · subst e1; simp [m1]
        · by_cases e2 : l.2.1 = r
          · subst e2; simp [m2]
          · simp [e1, e2]
      apply ih
      · intro l2 hl2; exact hl l2 (List.mem_cons_of_mem _ hl2)
      · intro r; rw [hh, hkeys]
      · intro r hr X e he
        rw [lsdbOf_addLink _ _ _ _ _ hr, mapHas_assign, mapHas_assign]
        rw [hh] at hr
        rw [mem_neighborsOf_addLink] at he
        rcases he with he | ⟨e1, e2⟩ | ⟨e1, e2⟩
        · simp [base r hr X e he]
        · simp [e1, e2]
        · simp [e1, e2]
  | @update t0 a b c hprev m1 m2 ih =>
    have hkeys := (declared_lsdb_equal names t0 hprev).1
    have hh : ∀ r, mapHas (updateTopology t0 a b c) r = mapHas t0 r := by
      intro r
      rw [mapHas_updateTopology, hkeys]
      by_cases e1 : a = r
      · subst e1; simp [m1]
      · by_cases e2 : b = r
        · subst e2; simp [m2]
        · simp [e1, e2]
    intro r hr X e he
    rw [lsdbOf_updateTopology _ _ _ _ _ hr]
    rw [hh] at hr
    rw [mem_neighborsOf_updateTopology] at he
    by_cases hc : c = -1
    · simp only [hc, if_true]
      rw [mapHas_erase, mapHas_erase]
      rcases he with ⟨he, n1, n2⟩ | ⟨h0, _⟩ | ⟨h0, _⟩
      · have k1 : ¬ (a, b) = (X, e.dest) := by
          intro q; simp only [Prod.mk.injEq] at q; exact n1 ⟨q.1, q.2.symm⟩
        have k2 : ¬ (b, a) = (X, e.dest) := by
          intro q; simp only [Prod.mk.injEq] at q; exact n2 ⟨q.1, q.2.symm⟩
        simp [k1, k2, ih r hr X e he]
      · exact absurd hc h0
      · exact absurd hc h0
    · simp only [hc, if_false]
      rw [mapHas_assign, mapHas_assign]
      rcases he with ⟨he, _, _⟩ | ⟨_, e1, e2⟩ | ⟨_, e1, e2⟩
      · simp [ih r hr X e he]
      · simp [e1, e2]
      · simp [e1, e2]
  | @route t0 t2 pol fuel r hprev hr hd ih =>
    have hcl := (storeInv_of_reachable _ (reachable_of_declared names _ hprev)).1
    have fr := dijkstra_frame pol fuel _ _ r hcl hr hd
    intro x hx X e he
    rw [(fr x).1] at hx
    rw [(fr X).2.1] at he
    rw [(fr x).2.2.1]
    exact ih x hx X e he

/-! ## Frames of a command -/

/-- The loop over the selected routers keeps the state reachable and changes nothing
but the routing tables of the selected routers. -/
theorem recompute_frame (pol : PopPolicy) (fuel : Nat) :
    ∀ (sel : List String) (t t2 : Topology), Reachable t →
      recompute pol fuel sel t = some t2 →
      Reachable t2 ∧ ∀ k, mapHas t2 k = mapHas t k ∧ neighborsOf t2 k = neighborsOf t k ∧
        lsdbOf t2 k = lsdbOf t k ∧ (k ∉ sel → routingTable t2 k = routingTable t k) := by
  intro sel
  induction sel with
  | nil =>
    intro t t2 hr h
    simp only [recompute, Option.some.injEq] at h
    subst h
    exact ⟨hr, fun k => ⟨rfl, rfl, rfl, fun _ => rfl⟩⟩
  | cons r rest ih =>
    intro t t2 hr h
    simp only [recompute] at h
    by_cases hh : mapHas t r = true
    · rw [if_pos hh] at h
      cases hd : dijkstra pol fuel t r with
      | none => simp [hd] at h
      | some t1 =>
        simp only [hd] at h
        have fr := dijkstra_frame pol fuel t t1 r (storeInv_of_reachable t hr).1 hh hd
        obtain ⟨i1, i2⟩ := ih t1 t2 (Reachable.route pol fuel r hr hh hd) h
        refine ⟨i1, fun k => ?_⟩
        obtain ⟨j1, j2, j3, j4⟩ := i2 k
        obtain ⟨f1, f2, f3, f4⟩ := fr k
        refine ⟨by rw [j1, f1], by rw [j2, f2], by rw [j3, f3], ?_⟩
        intro hk
        simp only [List.mem_cons, not_or] at hk
        rw [j4 hk.2, f4 hk.1]
    · rw [if_neg hh] at h
      obtain ⟨i1, i2⟩ := ih t t2 hr h
      refine ⟨i1, fun k => ?_⟩
      obtain ⟨j1, j2, j3, j4⟩ := i2 k
      refine ⟨j1, j2, j3, ?_⟩
      intro hk
      simp only [List.mem_cons, not_or] at hk
      exact j4 hk.2

/-! ## The distance map has one entry per key -/

section TouchLemmas
variable {κ υ : Type} [DecidableEq κ]

end TouchLemmas

theorem prevWalk_cost (t : Topology) (dist : List (String × Int))
    (prev : List (String × String)) (start v : String) (es : List Edge)
    (h : PrevWalk t dist prev start v es) :
    isWalk t start es = true ∧ walkEnd start es = v ∧
      walkCost es = mapGet dist v 0 - mapGet dist start 0 := by
  induction h with
  | here => simp [isWalk, walkEnd, walkCost]
  | step v e es _ _ he hd hc ih =>
    obtain ⟨i1, i2, i3⟩ := ih
    have he2 : e ∈ neighborsOf t (walkEnd start es) := by rw [i2]; exact he
    obtain ⟨a1, a2⟩ := isWalk_append t es e start i1 he2
    refine ⟨a1, by rw [a2, hd], ?_⟩
    rw [walkCost_append, i3]
    omega

/-- When the search has ended, every router with a finite distance has its
predecessor path. -/
theorem prevWalk_exists {t : Topology} {start : String} {st : Search}
    (inv : SearchInv t start none st) (hq : st.pq = []) (v : String)
    (hch : PrevChain st.prev start v) :
    mapHas t v = true → mapGet st.dist v 0 ≠ INT_MAX →
      ∃ es, PrevWalk t st.dist st.prev start v es := by
  induction hch with
  | here => intro _ _; exact ⟨[], PrevWalk.here⟩
  | step v hv _ ih =>
    intro h1 h2
    obtain ⟨p1, p2, e, q1, q2, q3⟩ := final_pedge inv hq v h1 h2 hv
    obtain ⟨es, hes⟩ := ih p1 p2
    exact ⟨es ++ [e], PrevWalk.step v e es hv hes q1 q2 q3.symm⟩

/-! ## A predecessor map with a cycle -/

theorem nextHop_sampleWrap (fuel : Nat) :
    nextHop sampleWrapEnd.prev "A" fuel "B" = none ∧
      nextHop sampleWrapEnd.prev "A" fuel "C" = none := by
  induction fuel with
  | zero => exact ⟨rfl, rfl⟩
  | succ n ih =>
    constructor
    · have hp : mapGet sampleWrapEnd.prev "B" "" = "C" := by decide
      rw [nextHop]
      simp only [hp]
      rw [if_pos (by decide)]
      exact ih.2
    · have hp : mapGet sampleWrapEnd.prev "C" "" = "B" := by decide
      rw [nextHop]
      simp only [hp]
      rw [if_pos (by decide)]
      exact ih.1

theorem search_sampleWrap (fuel : Nat) (st : Search)
    (h : search minPolicy fuel sampleWrap "A" = some st) : st = sampleWrapEnd := by
  have h10 : search minPolicy 10 sampleWrap "A" = some sampleWrapEnd := by decide
  unfold search at h h10
  have a := searchLoop_mono minPolicy fuel _ _ h (max fuel 10) (le_max_left _ _)
  have b := searchLoop_mono minPolicy 10 _ _ h10 (max fuel 10) (le_max_right _ _)
  rw [a] at b
  exact Option.some.inj b

/-! ## The lookups of the search -/

theorem wrapInt_le (x : Int) : wrapInt x ≤ INT_MAX := by
  unfold wrapInt
  simp only [INT_MAX]
  omega

theorem searchStart_keys (t : Topology) (S : String) (k : String) :
    mapHas (searchStart t S).dist k = (decide (S = k) || mapHas t k) := by
  simp only [searchStart]
  rw [mapHas_assign]
  congr 1
  unfold mapHas initDist
  rw [(initDist_fold t []).1 k]
  cases h : (mapFind t k).isSome <;> simp [mapHas, mapFind, h]

theorem searchStart_lookup (t : Topology) (S : String) (hS : mapHas t S = true) :
    LookupInv t (searchStart t S) := by
  refine ⟨rfl, ?_, ?_, ?_⟩
  · intro k
    rw [searchStart_keys]
    by_cases h : S = k
    · rw [← h, hS]; simp
    · simp [h]
  · intro k
    simp only [searchStart]
    rw [mapGet_assign]
    by_cases h : S = k
    · simp [h]
    · simp only [h, if_false]
      unfold mapGet
      cases hf : mapFind (initDist t) k with
      | none => simp
      | some v =>
        rcases (initDist_fold t []).2.2.2 (k, v) (mem_of_mapFind _ _ _ hf) with q | q
        · simp at q
        · simp only [Option.getD_some]; simp only at q; rw [q]
  · intro u hu
    simp only [searchStart, List.mem_singleton] at hu
    subst hu
    refine ⟨hS, ?_⟩
    simp only [searchStart]
    rw [mapGet_assign]
    simp

/-- One test of an edge of a router `u` with a finite distance: both lookups find
their key, and the state after it is again fine. -/
theorem relaxEdge_lookup (t : Topology) (hcl : EdgesClosed t) (u : String) (st : Search)
    (inv : LookupInv t st) (hu : mapHas t u = true) (hfin : mapGet st.dist u 0 < INT_MAX)
    (e : Edge) (he : e ∈ neighborsOf t u) :
    (mapHas st.dist u = true ∧ mapHas st.dist e.dest = true) ∧
    LookupInv t (relaxEdge u st e) ∧ mapGet (relaxEdge u st e).dist u 0 < INT_MAX := by
  have hv : mapHas t e.dest = true := hcl u e he
  have k1 : mapHas st.dist u = true := by rw [inv.keys]; exact hu
  have k2 : mapHas st.dist e.dest = true := by rw [inv.keys]; exact hv
  refine ⟨⟨k1, k2⟩, ?_⟩
  have t1 : mapTouch st.dist u 0 = st.dist := mapTouch_of_has _ _ _ k1
  have t2 : mapTouch st.dist e.dest 0 = st.dist := mapTouch_of_has _ _ _ k2
  unfold relaxEdge
  simp only [t1, t2]
  by_cases hlt : wrapInt (mapGet st.dist u 0 + e.cost) < mapGet st.dist e.dest 0
  · rw [if_pos hlt]
    have hle := inv.le e.dest
    have hD : ∀ x, mapGet (mapAssign st.dist e.dest (wrapInt (mapGet st.dist u 0 + e.cost))) x 0
        = if e.dest = x then wrapInt (mapGet st.dist u 0 + e.cost) else mapGet st.dist x 0 := by
      intro x; rw [mapGet_assign]
    refine ⟨⟨inv.topo, ?_, ?_, ?_⟩, ?_⟩
    · intro k
      simp only []
      rw [mapHas_assign, inv.keys]
      by_cases h : e.dest = k
      · rw [← h, hv]; simp
      · simp [h]
    · intro k
      simp only []
      rw [hD]
      by_cases h : e.dest = k
      · rw [if_pos h]; omega
      · rw [if_neg h]; exact inv.le k
    · intro x hx
      simp only [List.mem_append, List.mem_singleton] at hx
      simp only []
      rw [hD]
      rcases hx with hx | hx
      · refine ⟨(inv.pq_ok x hx).1, ?_⟩
        by_cases h : e.dest = x
        · rw [if_pos h]; omega
        · rw [if_neg h]; exact (inv.pq_ok x hx).2
      · subst hx
        refine ⟨hv, ?_⟩
        rw [if_pos rfl]; omega
    · simp only []
      rw [hD]
      by_cases h : e.dest = u
      · rw [if_pos h]; omega
      · rw [if_neg h]; exact hfin
  · rw [if_neg hlt]
    exact ⟨⟨inv.topo, inv.keys, inv.le, inv.pq_ok⟩, hfin⟩

theorem relaxTrace_foldl (u : String) :
    ∀ (es : List Edge) (st : Search) (P : Search → Prop),
      (∀ ev ∈ relaxTrace u st es, P ev.2.1 → P (relaxEdge u ev.2.1 ev.2.2)) → P st →
      P (es.foldl (relaxEdge u) st) := by
  intro es
  induction es with
  | nil => intro st P _ h; exact h
  | cons e rest ih =>
    intro st P hstep h
    simp only [List.foldl_cons]
    apply ih
    · intro ev hev hp
      exact hstep ev (by simp only [relaxTrace, List.mem_cons]; exact Or.inr hev) hp
    · exact hstep (u, st, e) (by simp [relaxTrace]) h

/-- The tests of the edges of a popped router `u`. -/
theorem relaxTrace_lookup (t : Topology) (hcl : EdgesClosed t) (u : String)
    (hu : mapHas t u = true) :
    ∀ (es : List Edge) (st : Search), (∀ e ∈ es, e ∈ neighborsOf t u) →
      LookupInv t st → mapGet st.dist u 0 < INT_MAX →
      (∀ ev ∈ relaxTrace u st es,
        ev.2.1.topo = t ∧ mapHas t ev.2.2.dest = true ∧ mapHas ev.2.1.dist ev.1 = true ∧
        mapHas ev.2.1.dist ev.2.2.dest = true ∧ mapGet ev.2.1.dist ev.1 0 < INT_MAX) ∧
      LookupInv t (es.foldl (relaxEdge u) st) := by
  intro es
  induction es with
  | nil =>
    intro st _ inv _
    exact ⟨fun ev hev => by simp [relaxTrace] at hev, inv⟩
  | cons e rest ih =>
    intro st hes inv hfin
    have he := hes e (List.mem_cons_self _ _)
    obtain ⟨⟨k1, k2⟩, i1, i2⟩ := relaxEdge_lookup t hcl u st inv hu hfin e he
    obtain ⟨j1, j2⟩ := ih (relaxEdge u st e)
      (fun e2 h2 => hes e2 (List.mem_cons_of_mem _ h2)) i1 i2
    refine ⟨?_, by simp only [List.foldl_cons]; exact j2⟩
    intro ev hev
    simp only [relaxTrace, List.mem_cons] at hev
    rcases hev with hev | hev
    · subst hev
      exact ⟨inv.topo, hcl u e he, k1, k2, hfin⟩
    · exact j1 ev hev

/-- One iteration of the frontier loop: the popped router has a finite distance, the
tests of its edges find their keys, and the next state is fine. -/
theorem searchStep_lookup (t : Topology) (hcl : EdgesClosed t) (pol : PopPolicy)
    (st : Search) (inv : LookupInv t st) (hq : st.pq ≠ []) :
    (mapHas t (st.pq.getD (pol st.pops st.dist st.pq % st.pq.length) "") = true ∧
      mapGet st.dist (st.pq.getD (pol st.pops st.dist st.pq % st.pq.length) "") 0
        < INT_MAX) ∧
    (∀ ev ∈ stepTrace pol st,
      ev.2.1.topo = t ∧ mapHas t ev.2.2.dest = true ∧ mapHas ev.2.1.dist ev.1 = true ∧
      mapHas ev.2.1.dist ev.2.2.dest = true ∧ mapGet ev.2.1.dist ev.1 0 < INT_MAX) ∧
    LookupInv t (searchStep pol st) := by
  have hmem := popped_mem st.pq (pol st.pops st.dist st.pq) hq
  unfold stepTrace searchStep
  simp only []
  generalize st.pq.getD (pol st.pops st.dist st.pq % st.pq.length) "" = u at hmem
  obtain ⟨hu, hfin⟩ := inv.pq_ok u hmem
  have ht1 : mapTouch st.topo u Router.fresh = t := by
    rw [inv.topo]; exact mapTouch_of_has _ _ _ hu
  have hnb : (mapGet (mapTouch st.topo u Router.fresh) u Router.fresh).neighbors
      = neighborsOf t u := by
    rw [ht1]; rfl
  rw [hnb, ht1]
  have inv0 : LookupInv t
      { st with topo := t, pq := st.pq.eraseIdx (pol st.pops st.dist st.pq % st.pq.length),
                pops := st.pops + 1 } :=
    ⟨rfl, inv.keys, inv.le, fun x hx => inv.pq_ok x (List.mem_of_mem_eraseIdx hx)⟩
  exact ⟨⟨hu, hfin⟩, relaxTrace_lookup t hcl u hu (neighborsOf t u) _ (fun e he => he) inv0 hfin⟩

/-- All tests and all pops of the frontier loop. -/
theorem searchTrace_lookup (t : Topology) (hcl : EdgesClosed t) (pol : PopPolicy) :
    ∀ (fuel : Nat) (st : Search), LookupInv t st →
      (∀ ev ∈ searchTrace pol fuel st,
        ev.2.1.topo = t ∧ mapHas t ev.2.2.dest = true ∧ mapHas ev.2.1.dist ev.1 = true ∧
        mapHas ev.2.1.dist ev.2.2.dest = true ∧ mapGet ev.2.1.dist ev.1 0 < INT_MAX) ∧
      (∀ p ∈ popTrace pol fuel st,
        mapHas p.2.dist p.1 = true ∧ mapGet p.2.dist p.1 0 < INT_MAX) := by
  intro fuel
  induction fuel with
  | zero => intro st _; simp [searchTrace, popTrace]
  | succ n ih =>
    intro st inv
    by_cases hq : st.pq = []
    · simp [searchTrace, popTrace, hq]
    · obtain ⟨i1, i2, i3⟩ := searchStep_lookup t hcl pol st inv hq
      obtain ⟨j1, j2⟩ := ih (searchStep pol st) i3
      constructor
      · intro ev hev
        simp only [searchTrace, hq, if_false, List.mem_append] at hev
        rcases hev with hev | hev
        · exact i2 ev hev
        · exact j1 ev hev
      · intro p hp
        simp only [popTrace, hq, if_false, List.mem_cons] at hp
        rcases hp with hp | hp
        · subst hp
          exact ⟨by rw [inv.keys]; exact i1.1, i1.2⟩
        · exact j2 p hp

theorem searchStart_value (t : Topology) (S : String) (k : String)
    (hk : mapHas t k = true) :
    mapGet (searchStart t S).dist k 0 = if k = S then 0 else INT_MAX := by
  simp only [searchStart]
  rw [mapGet_assign]
  by_cases h : S = k
  · simp [h]
  · have h2 : ¬ k = S := fun q => h q.symm
    rw [if_neg h, if_neg h2]
    have hk2 : mapHas (initDist t) k = true := by
      have := searchStart_keys t S k
      simp only [searchStart] at this
      rw [mapHas_assign] at this
      simp only [h, decide_False, Bool.false_or] at this
      rw [this, hk]
    unfold mapHas at hk2
    unfold mapGet
    cases hf : mapFind (initDist t) k with
    | none => rw [hf] at hk2; simp at hk2
    | some v =>
      rcases (initDist_fold t []).2.2.2 (k, v) (mem_of_mapFind _ _ _ hf) with q | q
      · simp at q
      · simp only [Option.getD_some]; simp only at q; rw [q]

/-! ## The empty name, and runs that end in one state -/

/-- When no edge leads to the empty name, the empty name is reachable from no router
with a name. -/
theorem not_canReach_empty (t : Topology) (S : String) (hS : S ≠ "")
    (h : ∀ p ∈ t, ∀ e ∈ p.2.neighbors, e.dest ≠ "") : ¬ CanReach t S "" := by
  rintro ⟨es, h1, h2⟩
  induction es generalizing S with
  | nil => exact hS h2
  | cons e rest ih =>
    simp only [isWalk, Bool.and_eq_true, decide_eq_true_eq] at h1
    obtain ⟨p, hp, hpe⟩ := neighborsOf_mem t S e h1.1
    exact ih e.dest (h p hp e hpe) h1.2 h2

theorem walkCost_nonneg (t : Topology) (hcost : ∀ r, ∀ e ∈ neighborsOf t r, 0 ≤ e.cost)
    (es : List Edge) : ∀ s, isWalk t s es = true → 0 ≤ walkCost es := by
  induction es with
  | nil => intro s _; simp [walkCost]
  | cons e rest ih =>
    intro s hw
    simp only [isWalk, Bool.and_eq_true, decide_eq_true_eq] at hw
    have h1 := hcost s e hw.1
    have h2 := ih e.dest hw.2
    unfold walkCost at h2 ⊢
    simp only [List.map_cons, List.sum_cons]
    omega

/-- Witness for C5: the command `(A, C, 7)` on the sample triangle. -/
theorem updateTopology_sets_link_witness :
    ("A" ≠ "C" ∧ (7 : Int) ≠ -1) ∧
    ((neighborsOf (updateTopology sampleTriangle "A" "C" 7) "A").filter
        (fun e => decide (e.dest = "C")) = [⟨"C", 7⟩] ∧
      (neighborsOf (updateTopology sampleTriangle "A" "C" 7) "C").filter
        (fun e => decide (e.dest = "A")) = [⟨"A", 7⟩] ∧
      ∀ r, mapHas (updateTopology sampleTriangle "A" "C" 7) r = true →
        mapFind (lsdbOf (updateTopology sampleTriangle "A" "C" 7) r) ("A", "C") = some 7 ∧
        mapFind (lsdbOf (updateTopology sampleTriangle "A" "C" 7) r) ("C", "A") = some 7) :=
  ⟨⟨by decide, by decide⟩,
    updateTopology_sets_link sampleTriangle "A" "C" 7 (by decide) (by decide)⟩

/-- C4 fails as stated: after the initial links `A-B = 1` and `A-C = 2`, where `C` was
not declared, routers `A` and `C` are both in the topology but the LSDB of `A` has the
entry `(A, B)` and the LSDB of `C` has not. -/
theorem lsdb_differs_for_undeclared_router :
    mapHas sampleUndeclared "A" = true ∧ mapHas sampleUndeclared "C" = true ∧
    mapFind (lsdbOf sampleUndeclared "A") ("A", "B") = some 1 ∧
    mapFind (lsdbOf sampleUndeclared "C") ("A", "B") = none := by
  decide

/-- C4, amended: when every name used by an initial link or a command is a declared
router, then after each initial link, each command update and each recomputation any
two routers of the topology have the same LSDB. -/
theorem lsdb_identical_when_declared (names : List String) (t : Topology)
    (h : ReachableDeclared names t) (r1 r2 : String)
    (h1 : mapHas t r1 = true) (h2 : mapHas t r2 = true) :
    lsdbOf t r1 = lsdbOf t r2 ∧ ∀ k, mapFind (lsdbOf t r1) k = mapFind (lsdbOf t r2) k := by
  have := (declared_lsdb_equal names t h).2 r1 r2 h1 h2
  exact ⟨this, fun k => by rw [this]⟩

/-- Witness for the amended C4: the sample triangle after the command `(A, B, -1)`. -/
theorem lsdb_identical_when_declared_witness :
    ReachableDeclared ["A", "B", "C"] (updateTopology sampleTriangle "A" "B" (-1)) ∧
    mapHas (updateTopology sampleTriangle "A" "B" (-1)) "A" = true ∧
    mapHas (updateTopology sampleTriangle "A" "B" (-1)) "C" = true ∧
    (lsdbOf (updateTopology sampleTriangle "A" "B" (-1)) "A"
        = lsdbOf (updateTopology sampleTriangle "A" "B" (-1)) "C" ∧
      ∀ k, mapFind (lsdbOf (updateTopology sampleTriangle "A" "B" (-1)) "A") k
        = mapFind (lsdbOf (updateTopology sampleTriangle "A" "B" (-1)) "C") k) :=
  have hr : ReachableDeclared ["A", "B", "C"] (updateTopology sampleTriangle "A" "B" (-1)) :=
    ReachableDeclared.update "A" "B" (-1)
      (ReachableDeclared.init [("A", "B", 1), ("B", "C", 1), ("A", "C", 5)] (by decide))
      (by decide) (by decide)
  ⟨hr, by decide, by decide,
    lsdb_identical_when_declared ["A", "B", "C"] _ hr "A" "C" (by decide) (by decide)⟩

/-- C8: in a reachable state without a link between `a` and `b`, the command
`(a, b, c)` with `c ≠ -1` followed by the command `(a, b, -1)` leaves every router of
the state before the add with its neighbor list and its LSDB. -/
theorem update_then_remove_restores (t : Topology) (a b : String) (c : Int)
    (h : Reachable t) (hab : ∀ e ∈ neighborsOf t a, e.dest ≠ b)
    (hba : ∀ e ∈ neighborsOf t b, e.dest ≠ a) (hc : c ≠ -1) (r : String)
    (hr : mapHas t r = true) :
    neighborsOf (updateTopology (updateTopology t a b c) a b (-1)) r = neighborsOf t r ∧
    lsdbOf (updateTopology (updateTopology t a b c) a b (-1)) r = lsdbOf t r := by
  have hb := (storeInv_of_reachable t h).2.2
  have hr1 : mapHas (updateTopology t a b c) r = true := by
    rw [mapHas_updateTopology, hr]; simp
  constructor
  · rw [neighborsOf_updateTopology, neighborsOf_updateTopology]
    simp only [ne_eq, not_true_eq_false, false_and, if_false, List.append_nil, hc,
      not_false_eq_true, true_and, List.filter_append, List.filter_filter]
    have e0 : (neighborsOf t r).filter (fun e =>
        ((!(decide (b = r) && decide (e.dest = a))) && !(decide (a = r) && decide (e.dest = b)))
          && ((!(decide (b = r) && decide (e.dest = a)))
            && !(decide (a = r) && decide (e.dest = b)))) = neighborsOf t r := by
      rw [List.filter_eq_self]
      intro e he
      by_cases e1 : a = r
      · by_cases e2 : b = r
        · have k1 := hab e (e1 ▸ he)
          have k2 := hba e (e2 ▸ he)
          simp [k1, k2]
        · have k1 := hab e (e1 ▸ he)
          simp [e2, k1]
      · by_cases e2 : b = r
        · have k2 := hba e (e2 ▸ he)
          simp [e1, k2]
        · simp [e1, e2]
    by_cases e1 : a = r <;> by_cases e2 : b = r <;> simp [e1, e2] <;> simpa [e1, e2] using e0
  · rw [lsdbOf_updateTopology_remove, lsdbOf_updateTopology _ _ _ _ _ hr1]
    simp only [hc, if_false]
    exact lsdb_roundtrip _ a b c (lsdb_absent_of_no_edge t hb a b r hab)
      (lsdb_absent_of_no_edge t hb b a r hba)

/-- Witness for C8: the link `B-C = 4` added to and removed from the one-link sample,
seen from router `A`. -/
theorem update_then_remove_restores_witness :
    (Reachable sampleOneLink ∧ (∀ e ∈ neighborsOf sampleOneLink "B", e.dest ≠ "C") ∧
      (∀ e ∈ neighborsOf sampleOneLink "C", e.dest ≠ "B") ∧ (4 : Int) ≠ -1 ∧
      mapHas sampleOneLink "A" = true) ∧
    (neighborsOf (updateTopology (updateTopology sampleOneLink "B" "C" 4) "B" "C" (-1)) "A"
        = neighborsOf sampleOneLink "A" ∧
      lsdbOf (updateTopology (updateTopology sampleOneLink "B" "C" 4) "B" "C" (-1)) "A"
        = lsdbOf sampleOneLink "A") :=
  have hr : Reachable sampleOneLink := Reachable.init _ _
  ⟨⟨hr, by decide, by decide, by decide, by decide⟩,
    update_then_remove_restores sampleOneLink "B" "C" 4 hr (by decide) (by decide)
      (by decide) "A" (by decide)⟩

/-- C9: in every reachable state the LSDB of every router maps `(X, Y)` to `c` if and
only if it maps `(Y, X)` to `c`. -/
theorem lsdb_symmetric_of_reachable (t : Topology) (h : Reachable t) (R X Y : String)
    (c : Int) :
    mapFind (lsdbOf t R) (X, Y) = some c ↔ mapFind (lsdbOf t R) (Y, X) = some c := by
  rw [(storeInv_of_reachable t h).2.1 R X Y]

/-- Witness for C9: the entry `(A, C)` of the LSDB of `B` in the sample triangle. -/
theorem lsdb_symmetric_of_reachable_witness :
    Reachable sampleTriangle ∧
    (mapFind (lsdbOf sampleTriangle "B") ("A", "C") = some 5 ↔
      mapFind (lsdbOf sampleTriangle "B") ("C", "A") = some 5) :=
  have hr : Reachable sampleTriangle := Reachable.init _ _
  ⟨hr, lsdb_symmetric_of_reachable sampleTriangle hr "B" "A" "C" 5⟩

/-! ## Claims on the shortest-path computation -/

/-- C1 fails as stated: with the single link `A-B = 2147483647` all costs are
non-negative, the only sum that the search of `dijkstra(A)` computes is
`0 + 2147483647`, which does not overflow, and the least cost of a path from `A` to
`B` is 2147483647; but that is the value that stands for "unreachable", and
`dijkstra(A)` stores no routing-table entry for `B`.  (A router is also reachable from
itself, at cost 0, and never gets an entry in its own table: in the sample triangle
`dijkstra(A)` stores none for `A`.) -/
theorem heavy_link_cost_not_stored :
    (∀ p ∈ sampleHeavy, ∀ e ∈ p.2.neighbors, 0 ≤ e.cost) ∧
    mapHas sampleHeavy "A" = true ∧
    (search minPolicy 10 sampleHeavy "A").isSome = true ∧
    (searchTrace minPolicy 10 (searchStart sampleHeavy "A")).map
        (fun ev => mapGet ev.2.1.dist ev.1 0 + ev.2.2.cost) = [2147483647] ∧
    IsShortest sampleHeavy "A" "B" 2147483647 ∧
    (dijkstra minPolicy 10 sampleHeavy "A").map
        (fun s => mapFind (routingTable s "A") "B") = some none ∧
    CanReach sampleTriangle "A" "A" ∧
    (dijkstra minPolicy 20 sampleTriangle "A").map
        (fun s => mapFind (routingTable s "A") "A") = some none := by
  refine ⟨by decide, by decide, by decide, by decide, ⟨⟨[⟨"B", 2147483647⟩], by decide,
    by decide, by decide⟩, ?_⟩, by decide, ⟨[], by decide, by decide⟩, by decide⟩
  intro es h1 h2
  cases es with
  | nil => simp [walkEnd] at h2
  | cons e rest =>
    simp only [isWalk, Bool.and_eq_true, decide_eq_true_eq] at h1
    have hn : neighborsOf sampleHeavy "A" = [⟨"B", 2147483647⟩] := by decide
    rw [hn, List.mem_singleton] at h1
    have hc : ∀ r, ∀ e ∈ neighborsOf sampleHeavy r, 0 ≤ e.cost := by
      intro r e2 he2
      obtain ⟨p, hp, hpe⟩ := neighborsOf_mem sampleHeavy r e2 he2
      exact (by decide : ∀ p ∈ sampleHeavy, ∀ e ∈ p.2.neighbors, 0 ≤ e.cost) p hp e2 hpe
    have h3 := walkCost_nonneg sampleHeavy hc rest e.dest h1.2
    have h4 : e.cost = 2147483647 := by rw [h1.1]
    unfold walkCost at h3 ⊢
    simp only [List.map_cons, List.sum_cons]
    omega

/-- C1, amended: in a reachable state without negative edge costs in which every path
sum stays below 2147483647 (`NoOverflow`), `dijkstra(S)` returns for every large enough
fuel and under every pop policy; the distance it computes for each router `D`
reachable from `S` is the least total cost of a path from `S` to `D` in the neighbor
lists (for parallel edges the cheapest counts, a path being any sequence of edges),
and for `D ≠ S` that distance is the cost stored in the routing-table entry of `D`. -/
theorem dijkstra_cost_is_shortest (pol : PopPolicy) (t : Topology) (S : String)
    (hr : Reachable t) (hS : mapHas t S = true)
    (hcost : ∀ p ∈ t, ∀ e ∈ p.2.neighbors, 0 ≤ e.cost) (hover : NoOverflow t S) :
    ∃ fuel0 : Nat, ∀ fuel, fuel0 ≤ fuel →
      ∃ st t2, search pol fuel t S = some st ∧ dijkstra pol fuel t S = some t2 ∧
        ∀ D, CanReach t S D →
          IsShortest t S D (mapGet st.dist D 0) ∧
          (D ≠ S → ∃ hop, mapFind (routingTable t2 S) D = some (hop, mapGet st.dist D 0)) := by
  have ctx := searchCtx_of_reachable t S hr hS hcost hover
  obtain ⟨fuel0, st, inv, hq, h⟩ := dijkstra_spec ctx pol
  refine ⟨fuel0, fun fuel hf => ?_⟩
  obtain ⟨h1, t2, h2, h3⟩ := h fuel hf
  refine ⟨st, t2, h1, h2, ?_⟩
  intro D hD
  obtain ⟨d1, d2, d3⟩ := final_shortest ctx inv hq D hD
  refine ⟨d3, fun hne => ?_⟩
  obtain ⟨hop, _, hh⟩ := (h3 D).1 ⟨d1, d2, hne⟩
  exact ⟨hop, hh⟩

/-- Witness for the amended C1: the sample triangle queried at `A` (cost 2 for `C`, over `B`), and
the same after the link `A-B` is removed (cost 6 for `B`, over `C`). -/
theorem dijkstra_cost_is_shortest_witness :
    (Reachable sampleTriangle ∧ mapHas sampleTriangle "A" = true ∧
      (∀ p ∈ sampleTriangle, ∀ e ∈ p.2.neighbors, 0 ≤ e.cost) ∧
      NoOverflow sampleTriangle "A") ∧
    (∃ fuel0 : Nat, ∀ fuel, fuel0 ≤ fuel →
      ∃ st t2, search minPolicy fuel sampleTriangle "A" = some st ∧
        dijkstra minPolicy fuel sampleTriangle "A" = some t2 ∧
        ∀ D, CanReach sampleTriangle "A" D →
          IsShortest sampleTriangle "A" D (mapGet st.dist D 0) ∧
          (D ≠ "A" →
            ∃ hop, mapFind (routingTable t2 "A") D = some (hop, mapGet st.dist D 0))) ∧
    (dijkstra minPolicy 20 sampleTriangle "A").map (fun s => routingTable s "A")
      = some [("B", ("B", 1)), ("C", ("B", 2))] ∧
    sampleTriangleCut.map (fun s => routingTable s "A")
      = some [("B", ("C", 6)), ("C", ("C", 5))] :=
  have hr : Reachable sampleTriangle := Reachable.init _ _
  have ho : NoOverflow sampleTriangle "A" :=
    noOverflow_of_bound sampleTriangle "A" 5 (storeInv_of_reachable _ hr).1 (by decide)
      (by decide) (by decide)
  ⟨⟨hr, by decide, by decide, ho⟩,
    dijkstra_cost_is_shortest minPolicy sampleTriangle "A" hr (by decide) (by decide) ho,
    by decide, by decide⟩

theorem staleState_unreachable : ¬ CanReach staleState "A" "B" := by
  rintro ⟨es, h1, h2⟩
  cases es with
  | nil => simp [walkEnd] at h2
  | cons e rest =>
    have hn : neighborsOf staleState "A" = [] := by decide
    simp [isWalk, hn] at h1

/-- C2 fails as stated: after the commands `A B 1 A` and `A B -1 A` on routers `A`, `B`
with the link `A-B = 1`, the routing table of `A` still has an entry for `B`, reset
to the empty next hop and cost 2147483647, although `B` is no longer reachable. -/
theorem stale_route_remains :
    sampleStale = some staleState ∧
    mapFind (routingTable staleState "A") "B" = some ("", 2147483647) ∧
    ¬ CanReach staleState "A" "B" :=
  ⟨by decide, by decide, staleState_unreachable⟩

/-- C2, amended: in a reachable state without negative edge costs in which no path sum
overflows (`NoOverflow`), after `dijkstra(S)` the routing table of `S` has an entry for
`D` with a cost other than 2147483647 if and only if `D ≠ S` and `D` is reachable from
`S`; for every other `D` an entry of an earlier recomputation is not removed but reset
to the empty next hop and the cost 2147483647. -/
theorem route_entry_iff_reachable (pol : PopPolicy) (t : Topology) (S : String)
    (hr : Reachable t) (hS : mapHas t S = true)
    (hcost : ∀ p ∈ t, ∀ e ∈ p.2.neighbors, 0 ≤ e.cost) (hover : NoOverflow t S) :
    ∃ fuel0 : Nat, ∀ fuel, fuel0 ≤ fuel →
      ∃ t2, dijkstra pol fuel t S = some t2 ∧
        ∀ D,
          ((∃ hop c, mapFind (routingTable t2 S) D = some (hop, c) ∧ c ≠ 2147483647) ↔
            (D ≠ S ∧ CanReach t S D)) ∧
          (¬ (D ≠ S ∧ CanReach t S D) →
            mapFind (routingTable t2 S) D
              = (mapFind (routingTable t S) D).map (fun _ => ("", 2147483647))) := by
  have ctx := searchCtx_of_reachable t S hr hS hcost hover
  obtain ⟨fuel0, st, inv, hq, h⟩ := dijkstra_spec ctx pol
  refine ⟨fuel0, fun fuel hf => ?_⟩
  obtain ⟨_, t2, h2, h3⟩ := h fuel hf
  refine ⟨t2, h2, ?_⟩
  intro D
  have hiff : (mapHas t D = true ∧ mapGet st.dist D 0 ≠ INT_MAX ∧ D ≠ S) ↔
      (D ≠ S ∧ CanReach t S D) := by
    constructor
    · rintro ⟨a1, a2, a3⟩
      exact ⟨a3, reach_of_finite inv D a1 a2⟩
    · rintro ⟨a1, a2⟩
      obtain ⟨d1, d2, _⟩ := final_shortest ctx inv hq D a2
      exact ⟨d1, d2, a1⟩
  constructor
  · constructor
    · rintro ⟨hop, c, e1, e2⟩
      by_contra hn
      have := (h3 D).2 (fun hc => hn (hiff.mp hc))
      rw [this] at e1
      cases hf2 : mapFind (routingTable t S) D with
      | none => simp [hf2] at e1
      | some v =>
        simp only [hf2, Option.map_some', Option.some.injEq, Prod.mk.injEq] at e1
        exact e2 e1.2.symm
    · intro hc
      obtain ⟨hop, _, hh⟩ := (h3 D).1 (hiff.mpr hc)
      exact ⟨hop, _, hh, (hiff.mpr hc).2.1⟩
  · intro hn
    exact (h3 D).2 (fun hc => hn (hiff.mp hc))

/-- Witness for the amended C2: the sample triangle queried at `A`. -/
theorem route_entry_iff_reachable_witness :
    (Reachable sampleTriangle ∧ mapHas sampleTriangle "A" = true ∧
      (∀ p ∈ sampleTriangle, ∀ e ∈ p.2.neighbors, 0 ≤ e.cost) ∧
      NoOverflow sampleTriangle "A") ∧
    (∃ fuel0 : Nat, ∀ fuel, fuel0 ≤ fuel →
      ∃ t2, dijkstra minPolicy fuel sampleTriangle "A" = some t2 ∧
        ∀ D,
          ((∃ hop c, mapFind (routingTable t2 "A") D = some (hop, c) ∧ c ≠ 2147483647) ↔
            (D ≠ "A" ∧ CanReach sampleTriangle "A" D)) ∧
          (¬ (D ≠ "A" ∧ CanReach sampleTriangle "A" D) →
            mapFind (routingTable t2 "A") D
              = (mapFind (routingTable sampleTriangle "A") D).map
                  (fun _ => ("", 2147483647)))) :=
  have hr : Reachable sampleTriangle := Reachable.init _ _
  have ho : NoOverflow sampleTriangle "A" :=
    noOverflow_of_bound sampleTriangle "A" 5 (storeInv_of_reachable _ hr).1 (by decide)
      (by decide) (by decide)
  ⟨⟨hr, by decide, by decide, ho⟩,
    route_entry_iff_reachable minPolicy sampleTriangle "A" hr (by decide) (by decide) ho⟩

/-- C3 fails as stated, in two ways.  With the single link `A-B = 2147483647` all costs
are non-negative and `B ≠ A` is reachable from `A`, but `dijkstra(A)` stores no entry,
and so no next hop, for `B`: the path cost equals the value that stands for
"unreachable".  And after the link lines `B C 4`, `A`, `B`, where the one-word lines
link `A` and `B` to the router with the empty name, all costs are non-negative, no
sum comes near 2147483647 and `B` is reachable from `A` over that router; the walk
back from `B` stops at once, because the predecessor of `B` is the empty name, and
`dijkstra(A)` stores the next hop `B` for `B`, although the only edge of `A` leads to
the empty name. -/
theorem heavy_link_has_no_next_hop :
    ((∀ p ∈ sampleHeavy, ∀ e ∈ p.2.neighbors, 0 ≤ e.cost) ∧
      CanReach sampleHeavy "A" "B" ∧
      (dijkstra minPolicy 10 sampleHeavy "A").map
          (fun s => mapFind (routingTable s "A") "B") = some none) ∧
    ((∀ p ∈ sampleShortLine, ∀ e ∈ p.2.neighbors, 0 ≤ e.cost) ∧
      NoOverflow sampleShortLine "A" ∧
      CanReach sampleShortLine "A" "B" ∧
      (search minPolicy 20 sampleShortLine "A").map (fun st => mapGet st.prev "B" "")
        = some "" ∧
      (dijkstra minPolicy 20 sampleShortLine "A").map
          (fun s => mapFind (routingTable s "A") "B") = some (some ("B", 8)) ∧
      neighborsOf sampleShortLine "A" = [⟨"", 4⟩]) :=
  ⟨⟨by decide, ⟨[⟨"B", 2147483647⟩], by decide, by decide⟩, by decide⟩,
    by decide,
    noOverflow_of_bound sampleShortLine "A" 4
      (storeInv_of_reachable _ (Reachable.init _ _)).1 (by decide) (by decide) (by decide),
    ⟨[⟨"", 4⟩, ⟨"B", 4⟩], by decide, by decide⟩, by decide, by decide, by decide⟩

/-- C3, amended: in a reachable state without negative edge costs in which every path
sum stays below 2147483647 (`NoOverflow`), for a router `S` from which the router with
the empty name is not reachable, and for every destination `D ≠ S` reachable from `S`,
the next hop `N` that `dijkstra(S)` stores for `D` is adjacent to `S` and lies on a
shortest path: the neighbor list of `S` has an edge to `N` of a cost `c` such that `c`
plus the shortest-path distance from `N` to `D` is the shortest-path distance from `S`
to `D`. -/
theorem next_hop_on_shortest_path (pol : PopPolicy) (t : Topology) (S : String)
    (hr : Reachable t) (hS : mapHas t S = true)
    (hcost : ∀ p ∈ t, ∀ e ∈ p.2.neighbors, 0 ≤ e.cost) (hover : NoOverflow t S)
    (hname : ¬ CanReach t S "") :
    ∃ fuel0 : Nat, ∀ fuel, fuel0 ≤ fuel →
      ∃ t2, dijkstra pol fuel t S = some t2 ∧
        ∀ D, D ≠ S → CanReach t S D →
          ∃ N cD c dN dS, mapFind (routingTable t2 S) D = some (N, cD) ∧
            (⟨N, c⟩ : Edge) ∈ neighborsOf t S ∧
            IsShortest t N D dN ∧ IsShortest t S D dS ∧ c + dN = dS := by
  have ctx := searchCtx_of_reachable t S hr hS hcost hover
  obtain ⟨fuel0, st, inv, hq, h⟩ := dijkstra_spec ctx pol
  have hnamed : ∀ v, mapHas t v = true → mapGet st.dist v 0 ≠ INT_MAX → v = S ∨ v ≠ "" := by
    intro v hv1 hv2
    right
    intro hv
    rw [hv] at hv1 hv2
    exact hname (reach_of_finite inv "" hv1 hv2)
  refine ⟨fuel0, fun fuel hf => ?_⟩
  obtain ⟨_, t2, h2, h3⟩ := h fuel hf
  refine ⟨t2, h2, ?_⟩
  intro D hne hD
  obtain ⟨d1, d2, d3⟩ := final_shortest ctx inv hq D hD
  obtain ⟨N, hN, hh⟩ := (h3 D).1 ⟨d1, d2, hne⟩
  obtain ⟨n1, n2, n3, n4, es, w1, w2, w3⟩ :=
    nextHop_spec inv hq hnamed fuel D N hN d1 d2 hne
  obtain ⟨_, _, e, q1, q2, q3⟩ := final_pedge inv hq N n1 n2 n3
  rw [n4] at q1 q3
  rw [inv.start0] at q3
  have he : e = ⟨N, e.cost⟩ := by cases e; simp only [Edge.mk.injEq, and_true]; exact q2
  refine ⟨N, mapGet st.dist D 0, e.cost, mapGet st.dist D 0 - mapGet st.dist N 0,
    mapGet st.dist D 0, hh, by rw [← he]; exact q1, ⟨⟨es, w1, w2, w3⟩, ?_⟩, d3, by omega⟩
  intro es2 v1 v2
  have hw : isWalk t S (e :: es2) = true := by
    simp only [isWalk, Bool.and_eq_true, decide_eq_true_eq]
    exact ⟨q1, by rw [q2]; exact v1⟩
  have h0 : mapGet st.dist S 0 ≠ INT_MAX := by rw [inv.start0]; decide
  have := final_walk_le ctx inv hq (e :: es2) S ctx.hstart h0 hw
  simp only [walkEnd, walkCost, List.map_cons, List.sum_cons] at this
  rw [q2, v2, inv.start0] at this
  unfold walkCost
  omega

/-- Witness for the amended C3: the sample triangle queried at `A`, where the next hop
stored for `C` is `B`. -/
theorem next_hop_on_shortest_path_witness :
    (Reachable sampleTriangle ∧ mapHas sampleTriangle "A" = true ∧
      (∀ p ∈ sampleTriangle, ∀ e ∈ p.2.neighbors, 0 ≤ e.cost) ∧
      NoOverflow sampleTriangle "A" ∧ ¬ CanReach sampleTriangle "A" "") ∧
    (∃ fuel0 : Nat, ∀ fuel, fuel0 ≤ fuel →
      ∃ t2, dijkstra minPolicy fuel sampleTriangle "A" = some t2 ∧
        ∀ D, D ≠ "A" → CanReach sampleTriangle "A" D →
          ∃ N cD c dN dS, mapFind (routingTable t2 "A") D = some (N, cD) ∧
            (⟨N, c⟩ : Edge) ∈ neighborsOf sampleTriangle "A" ∧
            IsShortest sampleTriangle N D dN ∧ IsShortest sampleTriangle "A" D dS ∧
            c + dN = dS) ∧
    (dijkstra minPolicy 20 sampleTriangle "A").map
        (fun s => mapFind (routingTable s "A") "C") = some (some ("B", 2)) :=
  have hr : Reachable sampleTriangle := Reachable.init _ _
  have ho : NoOverflow sampleTriangle "A" :=
    noOverflow_of_bound sampleTriangle "A" 5 (storeInv_of_reachable _ hr).1 (by decide)
      (by decide) (by decide)
  have hn : ¬ CanReach sampleTriangle "A" "" :=
    not_canReach_empty sampleTriangle "A" (by decide) (by decide)
  ⟨⟨hr, by decide, by decide, ho, hn⟩,
    next_hop_on_shortest_path minPolicy sampleTriangle "A" hr (by decide) (by decide) ho hn,
    by decide⟩

/-- C10 fails as stated: with the single link `A-B = 1073741824` all costs are
non-negative, but in `dijkstra(A)` the sum `dist[B] + cost` for the edge back to `A`
is 2147483648, which wraps to -2147483648, is smaller than 0 and becomes the distance
of `A` itself. -/
theorem self_distance_overflows :
    (∀ p ∈ sampleOverflow, ∀ e ∈ p.2.neighbors, 0 ≤ e.cost) ∧
    mapHas sampleOverflow "A" = true ∧
    (search minPolicy 10 sampleOverflow "A").map (fun st => mapGet st.dist "A" 0)
      = some (-2147483648) :=
  ⟨by decide, by decide, by decide⟩

/-- C10, amended: in every reachable state the routing table of a router `R` has no
entry whose destination is `R`, neither before a recomputation nor in the state that
any call `dijkstra(R)` returns, whatever the costs; and when no edge cost is negative
and every path sum stays below 2147483647 (`NoOverflow`), `dijkstra(R)` returns for
every large enough fuel and its search computes the distance 0 for `R` itself. -/
theorem self_distance_zero_no_self_route (t : Topology) (R : String)
    (hr : Reachable t) (hR : mapHas t R = true) :
    mapFind (routingTable t R) R = none ∧
    (∀ pol fuel t2, dijkstra pol fuel t R = some t2 →
      mapFind (routingTable t2 R) R = none) ∧
    (∀ pol, (∀ p ∈ t, ∀ e ∈ p.2.neighbors, 0 ≤ e.cost) → NoOverflow t R →
      ∃ fuel0 : Nat, ∀ fuel, fuel0 ≤ fuel →
        ∃ st t2, search pol fuel t R = some st ∧ mapGet st.dist R 0 = 0 ∧
          dijkstra pol fuel t R = some t2) := by
  refine ⟨no_self_route t hr R, ?_, ?_⟩
  · intro pol fuel t2 h2
    exact no_self_route t2 (Reachable.route pol fuel R hr hR h2) R
  · intro pol hcost hover
    have ctx := searchCtx_of_reachable t R hr hR hcost hover
    obtain ⟨fuel0, st, inv, _, h⟩ := dijkstra_spec ctx pol
    refine ⟨fuel0, fun fuel hf => ?_⟩
    obtain ⟨h1, t2, h2, _⟩ := h fuel hf
    exact ⟨st, t2, h1, inv.start0, h2⟩

/-- Witness for the amended C10: the sample triangle queried at `A`, and the sample
with the link `A-B = 1073741824`, where the sum wraps but the table of `A` still has
no entry for `A`. -/
theorem self_distance_zero_no_self_route_witness :
    (Reachable sampleTriangle ∧ mapHas sampleTriangle "A" = true) ∧
    (mapFind (routingTable sampleTriangle "A") "A" = none ∧
      (∀ pol fuel t2, dijkstra pol fuel sampleTriangle "A" = some t2 →
        mapFind (routingTable t2 "A") "A" = none) ∧
      (∀ pol, (∀ p ∈ sampleTriangle, ∀ e ∈ p.2.neighbors, 0 ≤ e.cost) →
        NoOverflow sampleTriangle "A" →
        ∃ fuel0 : Nat, ∀ fuel, fuel0 ≤ fuel →
          ∃ st t2, search pol fuel sampleTriangle "A" = some st ∧
            mapGet st.dist "A" 0 = 0 ∧
            dijkstra pol fuel sampleTriangle "A" = some t2)) ∧
    ((∀ p ∈ sampleTriangle, ∀ e ∈ p.2.neighbors, 0 ≤ e.cost) ∧
      NoOverflow sampleTriangle "A") ∧
    (search minPolicy 20 sampleTriangle "A").map (fun st => mapGet st.dist "A" 0)
      = some 0 ∧
    (dijkstra minPolicy 10 sampleOverflow "A").map
        (fun s => mapFind (routingTable s "A") "A") = some none :=
  have hr : Reachable sampleTriangle := Reachable.init _ _
  have ho : NoOverflow sampleTriangle "A" :=
    noOverflow_of_bound sampleTriangle "A" 5 (storeInv_of_reachable _ hr).1 (by decide)
      (by decide) (by decide)
  ⟨⟨hr, by decide⟩,
    self_distance_zero_no_self_route sampleTriangle "A" hr (by decide),
    ⟨by decide, ho⟩, by decide, by decide⟩

/-! ## Further claims on the topology store -/

/-- C13 fails as stated: in the sample triangle `A` is a router with two edges, and
the declaration `topology["A"] = router` replaces its record by an empty one: the
topology changes, and the neighbor list and the LSDB of `A` are lost. -/
theorem declaration_overwrites_existing_router :
    mapHas sampleTriangle "A" = true ∧
    declareRouter sampleTriangle "A" ≠ sampleTriangle ∧
    neighborsOf sampleTriangle "A" = [⟨"B", 1⟩, ⟨"C", 5⟩] ∧
    neighborsOf (declareRouter sampleTriangle "A") "A" = [] ∧
    lsdbOf sampleTriangle "A" ≠ [] ∧
    lsdbOf (declareRouter sampleTriangle "A") "A" = [] :=
  ⟨by decide, by decide, by decide, by decide, by decide, by decide⟩

/-- C13, amended: a router declaration is an overwrite.  Declaring `n` stores under
`n` the record with the name `n` and an empty neighbor list, LSDB and routing table,
and leaves the record of every other name as it is; so it leaves the topology
unchanged if and only if `n` already has exactly that empty record.  That is the case
whenever the program reads a declaration of a name that is already a router:
declarations come before every link, in a state that declarations alone have built
(`declareAll`). -/
theorem declaration_stores_empty_record (t : Topology) (n : String) :
    mapFind (declareRouter t n) n
      = some { name := n, neighbors := [], lsdb := [], routing_table := [] } ∧
    (∀ k, k ≠ n → mapFind (declareRouter t n) k = mapFind t k) ∧
    (declareRouter t n = t ↔
      mapFind t n = some { name := n, neighbors := [], lsdb := [], routing_table := [] }) ∧
    (∀ names, mapHas (declareAll names) n = true →
      declareRouter (declareAll names) n = declareAll names) := by
  have hfind : mapFind (declareRouter t n) n
      = some { name := n, neighbors := [], lsdb := [], routing_table := [] } := by
    rw [declareRouter, mapFind_assign]; simp
  refine ⟨hfind, ?_, ?_, ?_⟩
  · intro k hk
    rw [declareRouter, mapFind_assign]
    rw [if_neg (fun h => hk h.symm)]
  · constructor
    · intro h
      rw [h] at hfind
      exact hfind
    · intro h
      rw [declareRouter]
      exact mapAssign_of_find _ _ _ h
  · intro names h
    unfold declareAll at h ⊢
    have hn : n ∈ names := by
      rw [mapHas_declared] at h
      simpa [mapHas, mapFind] using h
    rw [declareRouter]
    apply mapAssign_of_find
    rw [mapFind_declared]
    simp [hn]

/-- Witness for the amended C13: the line `A` after the lines `A`, `B` changes
nothing, and the same line after the links of the sample triangle would change the
topology, because the record of `A` is not the empty one there. -/
theorem declaration_stores_empty_record_witness :
    mapHas (declareAll ["A", "B"]) "A" = true ∧
    declareRouter (declareAll ["A", "B"]) "A" = declareAll ["A", "B"] ∧
    mapFind (declareRouter sampleTriangle "A") "B" = mapFind sampleTriangle "B" ∧
    (declareRouter sampleTriangle "A" = sampleTriangle ↔
      mapFind sampleTriangle "A"
        = some { name := "A", neighbors := [], lsdb := [], routing_table := [] }) :=
  ⟨by decide,
    (declaration_stores_empty_record (declareAll ["A", "B"]) "A").2.2.2 ["A", "B"] (by decide),
    (declaration_stores_empty_record sampleTriangle "A").2.1 "B" (by decide),
    (declaration_stores_empty_record sampleTriangle "A").2.2.1⟩

/-- C14: in a reachable state, for routers `a` and `b` without a link between them, the
command `(a, b, -1)` leaves the whole topology unchanged: every name has the record
it had (or none, as before), with its neighbor list, LSDB and routing table. -/
theorem remove_absent_link_unchanged (t : Topology) (a b : String) (hr : Reachable t)
    (ha : mapHas t a = true) (hb : mapHas t b = true)
    (hab : ∀ e ∈ neighborsOf t a, e.dest ≠ b) (hba : ∀ e ∈ neighborsOf t b, e.dest ≠ a)
    (r : String) :
    mapFind (updateTopology t a b (-1)) r = mapFind t r := by
  have hbk := (storeInv_of_reachable t hr).2.2
  unfold updateTopology
  simp only [ne_eq, not_true_eq_false, if_false, if_true]
  have h1 : mapModify t a Router.fresh (removeNeighbor b) = t :=
    mapModify_fixed t a Router.fresh _ ha (removeNeighbor_fixed b _ hab)
  rw [h1]
  have h2 : mapModify t b Router.fresh (removeNeighbor a) = t :=
    mapModify_fixed t b Router.fresh _ hb (removeNeighbor_fixed a _ hba)
  rw [h2, mapFind_forEachRouter]
  cases hf : mapFind t r with
  | none => rfl
  | some x =>
    have hx : lsdbOf t r = x.lsdb := by simp [lsdbOf, mapGet, hf]
    have k1 := lsdb_absent_of_no_edge t hbk a b r hab
    have k2 := lsdb_absent_of_no_edge t hbk b a r hba
    rw [hx] at k1 k2
    simp only [Option.map_some', eraseLink_fixed a b x k1 k2]

/-- Witness for C14: the command `(B, C, -1)` on the one-link sample, seen at `A`. -/
theorem remove_absent_link_unchanged_witness :
    (Reachable sampleOneLink ∧ mapHas sampleOneLink "B" = true ∧
      mapHas sampleOneLink "C" = true ∧
      (∀ e ∈ neighborsOf sampleOneLink "B", e.dest ≠ "C") ∧
      (∀ e ∈ neighborsOf sampleOneLink "C", e.dest ≠ "B")) ∧
    mapFind (updateTopology sampleOneLink "B" "C" (-1)) "A" = mapFind sampleOneLink "A" :=
  have hr : Reachable sampleOneLink := Reachable.init _ _
  ⟨⟨hr, by decide, by decide, by decide, by decide⟩,
    remove_absent_link_unchanged sampleOneLink "B" "C" hr (by decide) (by decide)
      (by decide) (by decide) "A"⟩

/-- C15: in every reachable state the neighbor list of `A` holds an edge to `B` of cost
`c` if and only if the neighbor list of `B` holds an edge to `A` of cost `c`. -/
theorem edges_symmetric_of_reachable (t : Topology) (h : Reachable t) (A B : String)
    (c : Int) :
    (⟨B, c⟩ : Edge) ∈ neighborsOf t A ↔ (⟨A, c⟩ : Edge) ∈ neighborsOf t B :=
  edgeSymmetric_of_reachable t h A B c

/-- Witness for C15: the edge `A-C = 5` of the sample triangle. -/
theorem edges_symmetric_of_reachable_witness :
    Reachable sampleTriangle ∧
    ((⟨"C", 5⟩ : Edge) ∈ neighborsOf sampleTriangle "A" ↔
      (⟨"A", 5⟩ : Edge) ∈ neighborsOf sampleTriangle "C") :=
  have hr : Reachable sampleTriangle := Reachable.init _ _
  ⟨hr, edges_symmetric_of_reachable sampleTriangle hr "A" "C" 5⟩

/-- C20: when every name used by an initial link or a command is a declared router,
then after each initial link, each command update and each recomputation all routers
of the topology have the same LSDB, and the LSDB of every router has an entry for
`(X, Y)` exactly when the neighbor list of `X` holds an edge to `Y`. -/
theorem lsdb_matches_edges_when_declared (names : List String) (t : Topology)
    (h : ReachableDeclared names t) :
    (∀ r1 r2, mapHas t r1 = true → mapHas t r2 = true → lsdbOf t r1 = lsdbOf t r2) ∧
    ∀ r, mapHas t r = true → ∀ X Y,
      (mapHas (lsdbOf t r) (X, Y) = true ↔ ∃ e ∈ neighborsOf t X, e.dest = Y) := by
  refine ⟨(declared_lsdb_equal names t h).2, ?_⟩
  intro r hr X Y
  constructor
  · exact (storeInv_of_reachable t (reachable_of_declared names t h)).2.2 r X Y
  · rintro ⟨e, he, hd⟩
    rw [← hd]
    exact edgesRecorded_of_declared names t h r hr X e he

/-- Witness for C20: the sample triangle after the command `(A, B, -1)`. -/
theorem lsdb_matches_edges_when_declared_witness :
    ReachableDeclared ["A", "B", "C"] (updateTopology sampleTriangle "A" "B" (-1)) ∧
    ((∀ r1 r2, mapHas (updateTopology sampleTriangle "A" "B" (-1)) r1 = true →
        mapHas (updateTopology sampleTriangle "A" "B" (-1)) r2 = true →
        lsdbOf (updateTopology sampleTriangle "A" "B" (-1)) r1
          = lsdbOf (updateTopology sampleTriangle "A" "B" (-1)) r2) ∧
      ∀ r, mapHas (updateTopology sampleTriangle "A" "B" (-1)) r = true → ∀ X Y,
        (mapHas (lsdbOf (updateTopology sampleTriangle "A" "B" (-1)) r) (X, Y) = true ↔
          ∃ e ∈ neighborsOf (updateTopology sampleTriangle "A" "B" (-1)) X, e.dest = Y)) :=
  have hr : ReachableDeclared ["A", "B", "C"] (updateTopology sampleTriangle "A" "B" (-1)) :=
    ReachableDeclared.update "A" "B" (-1)
      (ReachableDeclared.init [("A", "B", 1), ("B", "C", 1), ("A", "C", 5)] (by decide))
      (by decide) (by decide)
  ⟨hr, lsdb_matches_edges_when_declared ["A", "B", "C"] _ hr⟩

/-! ## Further claims on the shortest-path computation -/

/-- C11 fails as stated: with the single link `A-B = 2147483647` all costs are
non-negative and `B` is reachable from `A`, but when the search of `dijkstra(A)` ends
the predecessor of `B` is the empty name, so following the predecessor map from `B`
does not reach `A`; the distance of `B` is still 2147483647. -/
theorem heavy_link_has_no_predecessor :
    (∀ p ∈ sampleHeavy, ∀ e ∈ p.2.neighbors, 0 ≤ e.cost) ∧
    CanReach sampleHeavy "A" "B" ∧
    (search minPolicy 10 sampleHeavy "A").map
        (fun st => (st.pq, mapGet st.prev "B" "", mapGet st.dist "B" 0))
      = some ([], "", 2147483647) :=
  ⟨by decide, ⟨[⟨"B", 2147483647⟩], by decide, by decide⟩, by decide⟩

/-- C11, amended: in a reachable state without negative edge costs in which no path sum
overflows (`NoOverflow`), when the search of `dijkstra(S)` has ended every destination
`D` reachable from `S` has a predecessor path: following the predecessor map from `D`
reaches `S` after finitely many steps, every step from a router `v` to its predecessor
`u` has an edge of cost `c` from `u` to `v` in the neighbor list of `u` with
`dist[v] = dist[u] + c`, and the sum of these costs is the distance computed for
`D`. -/
theorem predecessor_chain_sums_to_distance (pol : PopPolicy) (t : Topology) (S : String)
    (hr : Reachable t) (hS : mapHas t S = true)
    (hcost : ∀ p ∈ t, ∀ e ∈ p.2.neighbors, 0 ≤ e.cost) (hover : NoOverflow t S) :
    ∃ fuel0 : Nat, ∀ fuel, fuel0 ≤ fuel →
      ∃ st, search pol fuel t S = some st ∧
        ∀ D, CanReach t S D →
          ∃ es, PrevWalk t st.dist st.prev S D es ∧
            isWalk t S es = true ∧ walkEnd S es = D ∧
            walkCost es = mapGet st.dist D 0 := by
  have ctx := searchCtx_of_reachable t S hr hS hcost hover
  obtain ⟨fuel0, st, inv, hq, h⟩ := dijkstra_spec ctx pol
  refine ⟨fuel0, fun fuel hf => ⟨st, (h fuel hf).1, ?_⟩⟩
  intro D hD
  obtain ⟨d1, d2, _⟩ := final_shortest ctx inv hq D hD
  obtain ⟨es, hes⟩ := prevWalk_exists inv hq D (inv.chain D d1 d2) d1 d2
  obtain ⟨w1, w2, w3⟩ := prevWalk_cost t st.dist st.prev S D es hes
  refine ⟨es, hes, w1, w2, ?_⟩
  rw [w3, inv.start0]
  omega

/-- Witness for the amended C11: the sample triangle searched from `A`, where the
predecessor of `C` is `B` and the predecessor of `B` is `A`. -/
theorem predecessor_chain_sums_to_distance_witness :
    (Reachable sampleTriangle ∧ mapHas sampleTriangle "A" = true ∧
      (∀ p ∈ sampleTriangle, ∀ e ∈ p.2.neighbors, 0 ≤ e.cost) ∧
      NoOverflow sampleTriangle "A") ∧
    (∃ fuel0 : Nat, ∀ fuel, fuel0 ≤ fuel →
      ∃ st, search minPolicy fuel sampleTriangle "A" = some st ∧
        ∀ D, CanReach sampleTriangle "A" D →
          ∃ es, PrevWalk sampleTriangle st.dist st.prev "A" D es ∧
            isWalk sampleTriangle "A" es = true ∧ walkEnd "A" es = D ∧
            walkCost es = mapGet st.dist D 0) ∧
    (search minPolicy 20 sampleTriangle "A").map
        (fun st => (mapGet st.prev "C" "", mapGet st.prev "B" "", mapGet st.dist "C" 0))
      = some ("B", "A", 2) :=
  have hr : Reachable sampleTriangle := Reachable.init _ _
  have ho : NoOverflow sampleTriangle "A" :=
    noOverflow_of_bound sampleTriangle "A" 5 (storeInv_of_reachable _ hr).1 (by decide)
      (by decide) (by decide)
  ⟨⟨hr, by decide, by decide, ho⟩,
    predecessor_chain_sums_to_distance minPolicy sampleTriangle "A" hr (by decide)
      (by decide) ho,
    by decide⟩

/-- C12: in a reachable state, a call `dijkstra(S)` for a router `S` that returns
changes nothing but the routing table of `S` (the routers, every neighbor list, every
LSDB and the routing table of every other router are as before); the topology update
of a command changes no routing table; and so after a whole command every router that
is not selected has the routing table it had.  The call does return, for every pop
order and every large enough fuel, when no edge cost is negative and no path sum
overflows (`NoOverflow`). -/
theorem dijkstra_and_update_frame (t : Topology) (S : String) (hr : Reachable t)
    (hS : mapHas t S = true) :
    (∀ pol fuel t2, dijkstra pol fuel t S = some t2 →
      ∀ k, mapHas t2 k = mapHas t k ∧ neighborsOf t2 k = neighborsOf t k ∧
        lsdbOf t2 k = lsdbOf t k ∧ (k ≠ S → routingTable t2 k = routingTable t k)) ∧
    (∀ a b c k, routingTable (updateTopology t a b c) k = routingTable t k) ∧
    (∀ pol fuel a b c sel t2,
      command pol fuel t (a, b, c, sel) = some t2 →
      ∀ k, k ∉ sel → routingTable t2 k = routingTable t k) ∧
    (∀ pol, (∀ p ∈ t, ∀ e ∈ p.2.neighbors, 0 ≤ e.cost) → NoOverflow t S →
      ∃ fuel0 : Nat, ∀ fuel, fuel0 ≤ fuel → (dijkstra pol fuel t S).isSome = true) := by
  refine ⟨?_, ?_, ?_, ?_⟩
  · intro pol fuel t2 hd
    exact dijkstra_frame pol fuel t t2 S (storeInv_of_reachable t hr).1 hS hd
  · intro a b c k
    exact routingTable_updateTopology t a b c k
  · intro pol fuel a b c sel t2 hc k hk
    unfold command at hc
    have := (recompute_frame pol fuel sel _ t2 (Reachable.update a b c hr) hc).2 k
    rw [this.2.2.2 hk]
    exact routingTable_updateTopology t a b c k
  · intro pol hcost hover
    obtain ⟨fuel0, st, _, _, h⟩ := dijkstra_spec (searchCtx_of_reachable t S hr hS hcost hover) pol
    refine ⟨fuel0, fun fuel hf => ?_⟩
    obtain ⟨_, t2, h2, _⟩ := h fuel hf
    rw [h2]; rfl

/-- Witness for C12: the sample triangle and router `A`; the call `dijkstra(A)`
returns there. -/
theorem dijkstra_and_update_frame_witness :
    (Reachable sampleTriangle ∧ mapHas sampleTriangle "A" = true) ∧
    ((∀ pol fuel t2, dijkstra pol fuel sampleTriangle "A" = some t2 →
      ∀ k, mapHas t2 k = mapHas sampleTriangle k ∧
        neighborsOf t2 k = neighborsOf sampleTriangle k ∧
        lsdbOf t2 k = lsdbOf sampleTriangle k ∧
        (k ≠ "A" → routingTable t2 k = routingTable sampleTriangle k)) ∧
    (∀ a b c k,
      routingTable (updateTopology sampleTriangle a b c) k = routingTable sampleTriangle k) ∧
    (∀ pol fuel a b c sel t2,
      command pol fuel sampleTriangle (a, b, c, sel) = some t2 →
      ∀ k, k ∉ sel → routingTable t2 k = routingTable sampleTriangle k) ∧
    (∀ pol, (∀ p ∈ sampleTriangle, ∀ e ∈ p.2.neighbors, 0 ≤ e.cost) →
      NoOverflow sampleTriangle "A" →
      ∃ fuel0 : Nat, ∀ fuel, fuel0 ≤ fuel →
        (dijkstra pol fuel sampleTriangle "A").isSome = true)) ∧
    (dijkstra minPolicy 20 sampleTriangle "A").isSome = true ∧
    (command minPolicy 20 sampleTriangle ("A", "B", -1, ["A"])).isSome = true :=
  have hr : Reachable sampleTriangle := Reachable.init _ _
  ⟨⟨hr, by decide⟩, dijkstra_and_update_frame sampleTriangle "A" hr (by decide),
    by decide, by decide⟩

/-- C17 fails as stated: with the links `A-B = 1` and `B-C = 2147483647` all costs are
non-negative, but in `dijkstra(A)` the sum `1 + 2147483647` wraps to -2147483648; the
search ends with `B` and `C` as predecessors of each other, and the walk back from `B`
never ends: no amount of fuel makes `dijkstra(A)` return. -/
theorem wrapped_sum_gives_predecessor_cycle :
    (∀ p ∈ sampleWrap, ∀ e ∈ p.2.neighbors, 0 ≤ e.cost) ∧
    mapHas sampleWrap "A" = true ∧
    search minPolicy 10 sampleWrap "A" = some sampleWrapEnd ∧
    mapGet sampleWrapEnd.prev "B" "" = "C" ∧ mapGet sampleWrapEnd.prev "C" "" = "B" ∧
    ∀ fuel, dijkstra minPolicy fuel sampleWrap "A" = none := by
  refine ⟨by decide, by decide, by decide, by decide, by decide, ?_⟩
  intro fuel
  unfold dijkstra
  cases hs : search minPolicy fuel sampleWrap "A" with
  | none => rfl
  | some st =>
    have := search_sampleWrap fuel st hs
    subst this
    have h1 := (nextHop_sampleWrap fuel).1
    simp only [sampleWrapEnd] at h1 ⊢
    simp [buildRoutes, h1]

/-- C17, amended: in a reachable state without negative edge costs (zero costs
included) in which no path sum overflows (`NoOverflow`), `dijkstra(S)` terminates
under every pop policy: for every large enough fuel the frontier loop ends with an
empty frontier after finitely many pops, from every router with a finite distance the
predecessor map leads to `S` (it has no cycle there), the walk back for every
destination ends, and `dijkstra(S)` returns. -/
theorem dijkstra_terminates (pol : PopPolicy) (t : Topology) (S : String)
    (hr : Reachable t) (hS : mapHas t S = true)
    (hcost : ∀ p ∈ t, ∀ e ∈ p.2.neighbors, 0 ≤ e.cost) (hover : NoOverflow t S) :
    ∃ fuel0 : Nat, ∀ fuel, fuel0 ≤ fuel →
      ∃ st t2, search pol fuel t S = some st ∧ st.pq = [] ∧
        dijkstra pol fuel t S = some t2 ∧
        ∀ D, mapHas t D = true → mapGet st.dist D 0 ≠ 2147483647 →
          PrevChain st.prev S D ∧
          (D ≠ S → ∃ hop, nextHop st.prev S fuel D = some hop) := by
  have ctx := searchCtx_of_reachable t S hr hS hcost hover
  obtain ⟨fuel0, st, inv, hq, h⟩ := dijkstra_spec ctx pol
  refine ⟨fuel0, fun fuel hf => ?_⟩
  obtain ⟨h1, t2, h2, h3⟩ := h fuel hf
  refine ⟨st, t2, h1, hq, h2, ?_⟩
  intro D d1 d2
  refine ⟨inv.chain D d1 d2, fun hne => ?_⟩
  obtain ⟨hop, hh, _⟩ := (h3 D).1 ⟨d1, d2, hne⟩
  exact ⟨hop, hh⟩

/-- Witness for the amended C17: the sample triangle queried at `A`. -/
theorem dijkstra_terminates_witness :
    (Reachable sampleTriangle ∧ mapHas sampleTriangle "A" = true ∧
      (∀ p ∈ sampleTriangle, ∀ e ∈ p.2.neighbors, 0 ≤ e.cost) ∧
      NoOverflow sampleTriangle "A") ∧
    (∃ fuel0 : Nat, ∀ fuel, fuel0 ≤ fuel →
      ∃ st t2, search minPolicy fuel sampleTriangle "A" = some st ∧ st.pq = [] ∧
        dijkstra minPolicy fuel sampleTriangle "A" = some t2 ∧
        ∀ D, mapHas sampleTriangle D = true → mapGet st.dist D 0 ≠ 2147483647 →
          PrevChain st.prev "A" D ∧
          (D ≠ "A" → ∃ hop, nextHop st.prev "A" fuel D = some hop)) :=
  have hr : Reachable sampleTriangle := Reachable.init _ _
  have ho : NoOverflow sampleTriangle "A" :=
    noOverflow_of_bound sampleTriangle "A" 5 (storeInv_of_reachable _ hr).1 (by decide)
      (by decide) (by decide)
  ⟨⟨hr, by decide, by decide, ho⟩,
    dijkstra_terminates minPolicy sampleTriangle "A" hr (by decide) (by decide) ho⟩

/-- C18 fails as stated: with the single link `A-B = 2147483647` all costs are
non-negative and `B`, different from `A`, is reachable from `A`, but after
`dijkstra(A)` the routing table of `A`, empty before the call, is still empty: `B` is
not among its destinations. -/
theorem heavy_link_destination_missing :
    (∀ p ∈ sampleHeavy, ∀ e ∈ p.2.neighbors, 0 ≤ e.cost) ∧
    CanReach sampleHeavy "A" "B" ∧ routingTable sampleHeavy "A" = [] ∧
    (dijkstra minPolicy 10 sampleHeavy "A").map (fun s => routingTable s "A") = some [] :=
  ⟨by decide, ⟨[⟨"B", 2147483647⟩], by decide, by decide⟩, by decide, by decide⟩

/-- C18, amended: in a reachable state without negative edge costs in which every path
sum stays below 2147483647 (`NoOverflow`), after `dijkstra(S)` the destinations of the
routing table of `S` are the destinations it held before the call together with the
destinations different from `S` that are reachable now, and every destination that
was held before and is not reachable now maps to the empty next hop and the cost
2147483647. -/
theorem stale_routes_reset_not_erased (pol : PopPolicy) (t : Topology) (S : String)
    (hr : Reachable t) (hS : mapHas t S = true)
    (hcost : ∀ p ∈ t, ∀ e ∈ p.2.neighbors, 0 ≤ e.cost) (hover : NoOverflow t S) :
    ∃ fuel0 : Nat, ∀ fuel, fuel0 ≤ fuel →
      ∃ t2, dijkstra pol fuel t S = some t2 ∧
        ∀ D,
          (mapHas (routingTable t2 S) D = true ↔
            (mapHas (routingTable t S) D = true ∨ (D ≠ S ∧ CanReach t S D))) ∧
          (mapHas (routingTable t S) D = true → ¬ CanReach t S D →
            mapFind (routingTable t2 S) D = some ("", 2147483647)) := by
  have ctx := searchCtx_of_reachable t S hr hS hcost hover
  obtain ⟨fuel0, st, inv, hq, h⟩ := dijkstra_spec ctx pol
  refine ⟨fuel0, fun fuel hf => ?_⟩
  obtain ⟨_, t2, h2, h3⟩ := h fuel hf
  refine ⟨t2, h2, ?_⟩
  intro D
  have hiff : (mapHas t D = true ∧ mapGet st.dist D 0 ≠ INT_MAX ∧ D ≠ S) ↔
      (D ≠ S ∧ CanReach t S D) := by
    constructor
    · rintro ⟨a1, a2, a3⟩
      exact ⟨a3, reach_of_finite inv D a1 a2⟩
    · rintro ⟨a1, a2⟩
      obtain ⟨d1, d2, _⟩ := final_shortest ctx inv hq D a2
      exact ⟨d1, d2, a1⟩
  by_cases hc : D ≠ S ∧ CanReach t S D
  · obtain ⟨hop, _, hh⟩ := (h3 D).1 (hiff.mpr hc)
    refine ⟨?_, fun _ hn => absurd hc.2 hn⟩
    simp [mapHas, hh, hc]
  · have hh := (h3 D).2 (fun q => hc (hiff.mp q))
    constructor
    · simp only [mapHas, hh, hc, or_false]
      cases mapFind (routingTable t S) D <;> simp
    · intro hb _
      rw [hh]
      unfold mapHas at hb
      cases hf2 : mapFind (routingTable t S) D with
      | none => simp [hf2] at hb
      | some v => rfl

/-- Witness for the amended C18: routers `A` and `B` after the command `A B 1 A` and
the topology update of the command `A B -1 A`.  The table of `A` holds `B` from the
first command, `B` is no longer reachable, and `dijkstra(A)` resets the entry. -/
theorem stale_routes_reset_not_erased_witness :
    (Reachable sampleRoutedCut ∧ mapHas sampleRoutedCut "A" = true ∧
      (∀ p ∈ sampleRoutedCut, ∀ e ∈ p.2.neighbors, 0 ≤ e.cost) ∧
      NoOverflow sampleRoutedCut "A") ∧
    routingTable sampleRoutedCut "A" = [("B", ("B", 1))] ∧
    (dijkstra minPolicy 10 sampleRoutedCut "A").map (fun s => routingTable s "A")
      = some [("B", ("", 2147483647))] ∧
    (∃ fuel0 : Nat, ∀ fuel, fuel0 ≤ fuel →
      ∃ t2, dijkstra minPolicy fuel sampleRoutedCut "A" = some t2 ∧
        ∀ D,
          (mapHas (routingTable t2 "A") D = true ↔
            (mapHas (routingTable sampleRoutedCut "A") D = true ∨
              (D ≠ "A" ∧ CanReach sampleRoutedCut "A" D))) ∧
          (mapHas (routingTable sampleRoutedCut "A") D = true →
            ¬ CanReach sampleRoutedCut "A" D →
            mapFind (routingTable t2 "A") D = some ("", 2147483647))) :=
  have h1 : Reachable (updateTopology (readTopology ["A", "B"] [("A", "B", 1)]) "A" "B" 1) :=
    Reachable.update "A" "B" 1 (Reachable.init _ _)
  have h2 : Reachable sampleRouted :=
    Reachable.route minPolicy 10 "A" h1 (by decide) (by decide)
  have hr : Reachable sampleRoutedCut :=
    Reachable.update "A" "B" (-1) h2
  have ho : NoOverflow sampleRoutedCut "A" :=
    noOverflow_of_bound sampleRoutedCut "A" 1 (storeInv_of_reachable _ hr).1 (by decide)
      (by decide) (by decide)
  ⟨⟨hr, by decide, by decide, ho⟩, by decide, by decide,
    stale_routes_reset_not_erased minPolicy sampleRoutedCut "A" hr (by decide)
      (by decide) ho⟩

/-- C19: in a state the program can reach, the destination of every edge of every
neighbor list is a router of the topology; and in `dijkstra` from a router `S`, with
any pop order and after any number of iterations, every test
`dist[u] + edge.cost < dist[edge.dest]` is evaluated in a state where `topology` is
still the given one, `edge.dest` has a `dist` entry, the one the initialisation made
(0 for `S`, 2147483647 for every other router), and `u` has a `dist` entry below
2147483647; every router popped from the frontier has a `dist` entry below
2147483647. -/
theorem edge_lookups_find_initialised_entries (t : Topology) (S : String)
    (hr : Reachable t) (hS : mapHas t S = true) :
    (∀ r, ∀ e ∈ neighborsOf t r, mapHas t e.dest = true) ∧
    ∀ (pol : PopPolicy) (fuel : Nat),
      (∀ ev ∈ searchTrace pol fuel (searchStart t S),
        ev.2.1.topo = t ∧
        mapHas (searchStart t S).dist ev.2.2.dest = true ∧
        mapGet (searchStart t S).dist ev.2.2.dest 0
          = (if ev.2.2.dest = S then 0 else 2147483647) ∧
        mapHas ev.2.1.dist ev.2.2.dest = true ∧
        mapHas ev.2.1.dist ev.1 = true ∧
        mapGet ev.2.1.dist ev.1 0 < 2147483647) ∧
      (∀ p ∈ popTrace pol fuel (searchStart t S),
        mapHas p.2.dist p.1 = true ∧ mapGet p.2.dist p.1 0 < 2147483647) := by
  have hcl := (storeInv_of_reachable t hr).1
  have inv0 := searchStart_lookup t S hS
  refine ⟨fun r e he => hcl r e he, ?_⟩
  intro pol fuel
  obtain ⟨h1, h2⟩ := searchTrace_lookup t hcl pol fuel (searchStart t S) inv0
  constructor
  · intro ev hev
    obtain ⟨a1, a2, a3, a4, a5⟩ := h1 ev hev
    refine ⟨a1, ?_, searchStart_value t S _ a2, a4, a3, a5⟩
    rw [inv0.keys]; exact a2
  · exact h2

/-- C19 on the sample with the undeclared router `C`, from `A`: four tests are
evaluated in the first twenty iterations. -/
theorem edge_lookups_find_initialised_entries_witness :
    (searchTrace minPolicy 20 (searchStart sampleUndeclared "A")).length = 4 ∧
    (popTrace minPolicy 20 (searchStart sampleUndeclared "A")).map (fun p => p.1)
      = ["A", "B", "C"] ∧
    ((∀ r, ∀ e ∈ neighborsOf sampleUndeclared r, mapHas sampleUndeclared e.dest = true) ∧
    ∀ (pol : PopPolicy) (fuel : Nat),
      (∀ ev ∈ searchTrace pol fuel (searchStart sampleUndeclared "A"),
        ev.2.1.topo = sampleUndeclared ∧
        mapHas (searchStart sampleUndeclared "A").dist ev.2.2.dest = true ∧
        mapGet (searchStart sampleUndeclared "A").dist ev.2.2.dest 0
          = (if ev.2.2.dest = "A" then 0 else 2147483647) ∧
        mapHas ev.2.1.dist ev.2.2.dest = true ∧
        mapHas ev.2.1.dist ev.1 = true ∧
        mapGet ev.2.1.dist ev.1 0 < 2147483647) ∧
      (∀ p ∈ popTrace pol fuel (searchStart sampleUndeclared "A"),
        mapHas p.2.dist p.1 = true ∧ mapGet p.2.dist p.1 0 < 2147483647)) :=
  ⟨by decide, by decide,
    edge_lookups_find_initialised_entries sampleUndeclared "A"
      (Reachable.init ["A", "B"] [("A", "B", 1), ("A", "C", 2)]) (by decide)⟩

end Routing
